import Mathlib

/-!
# A shallow embedding of `CLinker` (src/linker/test.cpp)

The linker reads object files (header, export table, import table, code
section), builds a symbol table, finds the functions reachable from the entry
point, lays them out and writes the patched code.

Modelling conventions:

* a byte is a `Fin 256`; a `std::string` is a list of bytes (`Name`), compared
  byte-wise; a `ui32` is a `Nat` with explicit reduction modulo `2 ^ 32` where
  the source computes in 32 bits; integers in files are little-endian;
* the file system is a `World`: what an input path holds when it is opened for
  reading, whether a path can be opened for writing, and whether the output
  stream is still good after the writes.  The output stream is a sink of its
  own: the bytes handed to `outFile.write` are returned, and the input files are
  the same during the whole run;
* exceptions are `Except Failure`: `runtime_error what` is
  `throw std::runtime_error(what)`, `undefined_behaviour` is an access the C++
  standard gives no meaning to (a map miss that is dereferenced, an index or a
  `memcpy` out of bounds), `out_of_fuel` is the loop budget of `bfsLoop`
  running out (shown below never to happen);
* `std::map`, `std::unordered_map` are association lists with `mapFind` and
  `mapSet`; `std::set` is a list used through membership only;
* allocation failure is not modelled;
* src/linker/extra/extra.cpp holds the same functions; its `loadCode` reads the
  body in chunks of 2048 bytes, which gives the same bytes or the same failure.
-/

namespace Linker

/-! ## Data model -/

abbrev Byte := Fin 256

/-- A `std::string`: its bytes. -/
abbrev Name := List Byte

/-- The byte `n mod 256`. -/
def toByte (n : Nat) : Byte := ⟨n % 256, Nat.mod_lt n (by decide)⟩

/-- The bytes of an ASCII string literal. -/
def str (s : String) : List Byte := s.toList.map (fun c => toByte c.toNat)

/-- Addition of two `ui32`. -/
def addU32 (a b : Nat) : Nat := (a + b) % 4294967296

/-- Subtraction of two `ui32` (both below `2 ^ 32`). -/
def subU32 (a b : Nat) : Nat := (a + 4294967296 - b) % 4294967296

/-- Structure for exported functions. -/
structure ExportFun where
  name : Name
  offset : Nat
deriving DecidableEq

/-- Structure for imported functions. -/
structure ImportFun where
  name : Name
  references : List Nat
deriving DecidableEq

/-- Structure for the file header. -/
structure Header where
  expCnt : Nat
  imCnt : Nat
  codeSz : Nat
deriving DecidableEq

/-- Structure for function information. -/
structure FunInfo where
  fileIdx : Nat
  offset : Nat
  size : Nat
  offsetData : Nat
deriving DecidableEq

/-- Structure for the object file. -/
structure ObjFile where
  imports : List ImportFun
  exports : List ExportFun
  fileHeader : Header
  offsetData : Nat
deriving DecidableEq

/-- The ways a call can end other than by returning: a `std::runtime_error` with
its message, the `std::bad_alloc` of a reservation that gets no storage,
undefined behaviour, and a model loop that ran out of fuel. -/
inductive Failure where
  | runtime_error (what : List Byte)
  | bad_alloc
  | undefined_behaviour
  | out_of_fuel
deriving DecidableEq

/-- The message of a read failure. -/
def msgRead : List Byte := str "Failed reading input file"

/-- The message of a write failure. -/
def msgWrite : List Byte := str "Failed writing output file"

/-- The message of a duplicate export. -/
def msgDuplicate (name : Name) : List Byte := str "Duplicate symbol: " ++ name

/-- The message of an undefined symbol. -/
def msgUndefined (name : Name) : List Byte := str "Undefined symbol " ++ name

/-- The file system as one run sees it. A path stands for one file, and the
files read keep their contents during the run: the output path is taken to name
none of the files the run reads. -/
structure World where
  /-- what `std::ifstream` finds at a path; `none` when the open fails -/
  readable : String → Option (List Byte)
  /-- whether `std::ofstream` opens the path -/
  writable : String → Bool
  /-- whether the output stream on the path is still good after the writes -/
  streamGood : String → Bool

/-- The fields of a `CLinker` instance. -/
structure CLinker where
  m_Files : List String
  m_ObjFiles : List ObjFile
  m_FunctionInfoMap : List (Name × FunInfo)
deriving DecidableEq

/-- Lookup in a map kept as an association list (`find`). -/
def mapFind {β : Type} : List (Name × β) → Name → Option β
  | [], _ => none
  | (k, v) :: rest, key => if k = key then some v else mapFind rest key

/-- Assignment `m[key] = v` in a map kept as an association list. -/
def mapSet {β : Type} : List (Name × β) → Name → β → List (Name × β)
  | [], key, v => [(key, v)]
  | (k, x) :: rest, key, v => if k = key then (k, v) :: rest else (k, x) :: mapSet rest key v

/-! ## Reading -/

/-- An input stream: the bytes not yet consumed and the position `tellg()`. -/
structure IFStream where
  rest : List Byte
  pos : Nat

/-- `file.read(buf, n)`: the next `n` bytes, or `none` when fewer are left. -/
def IFStream.read (s : IFStream) (n : Nat) : Option (List Byte × IFStream) :=
  if n ≤ s.rest.length then some (s.rest.take n, ⟨s.rest.drop n, s.pos + n⟩) else none

/-- The value of four little-endian bytes. -/
def decodeU32 : List Byte → Nat
  | [b0, b1, b2, b3] => b0.val + 256 * b1.val + 65536 * b2.val + 16777216 * b3.val
  | _ => 0

/-- The four little-endian bytes of a `ui32`. -/
def encodeU32 (v : Nat) : List Byte :=
  [toByte v, toByte (v / 256), toByte (v / 65536), toByte (v / 16777216)]

/-- Read a `ui32`. -/
def IFStream.readU32 (s : IFStream) : Option (Nat × IFStream) :=
  match s.read 4 with
  | none => none
  | some (bs, s1) => some (decodeU32 bs, s1)

/-- Read a `ui8`. -/
def IFStream.readU8 (s : IFStream) : Option (Nat × IFStream) :=
  match s.read 1 with
  | none => none
  | some (bs, s1) => some ((bs.headD 0).val, s1)

/-- The export loop of `readFiles` for file `k`: `n` records are still to be read. -/
def readExports (k : Nat) : Nat → IFStream → List (Name × Nat) → List ExportFun →
    Except Failure (IFStream × List (Name × Nat) × List ExportFun)
  | 0, s, exportDup, acc => .ok (s, exportDup, acc)
  | n + 1, s, exportDup, acc =>
    match s.readU8 with
    | none => .error (.runtime_error msgRead)
    | some (nameLen, s1) =>
      match s1.read nameLen with
      | none => .error (.runtime_error msgRead)
      | some (name, s2) =>
        match s2.readU32 with
        | none => .error (.runtime_error msgRead)
        | some (offset, s3) =>
          match mapFind exportDup name with
          | some _ => .error (.runtime_error (msgDuplicate name))
          | none => readExports k n s3 (mapSet exportDup name k) (acc ++ [⟨name, offset⟩])

/-- The reference loop of one import record: `n` offsets are still to be read. -/
def readRefs : Nat → IFStream → List Nat → Except Failure (IFStream × List Nat)
  | 0, s, acc => .ok (s, acc)
  | n + 1, s, acc =>
    match s.readU32 with
    | none => .error (.runtime_error msgRead)
    | some (offset, s1) => readRefs n s1 (acc ++ [offset])

/-- The import loop of `readFiles`: `n` records are still to be read. -/
def readImports : Nat → IFStream → List ImportFun → Except Failure (IFStream × List ImportFun)
  | 0, s, acc => .ok (s, acc)
  | n + 1, s, acc =>
    match s.readU8 with
    | none => .error (.runtime_error msgRead)
    | some (nameLen, s1) =>
      match s1.read nameLen with
      | none => .error (.runtime_error msgRead)
      | some (name, s2) =>
        match s2.readU32 with
        | none => .error (.runtime_error msgRead)
        | some (refCnt, s3) =>
          match readRefs refCnt s3 [] with
          | .error e => .error e
          | .ok (s4, references) => readImports n s4 (acc ++ [⟨name, references⟩])

/-- The body of the file loop of `readFiles` once file `k` is open. The
reservations of the vectors are taken to be granted here: `readObjFileR` is the
same body with their outcome. -/
def readObjFile (k : Nat) (s : IFStream) (exportDup : List (Name × Nat)) :
    Except Failure (ObjFile × List (Name × Nat)) :=
  match s.readU32 with
  | none => .error (.runtime_error msgRead)
  | some (expCnt, s1) =>
    match s1.readU32 with
    | none => .error (.runtime_error msgRead)
    | some (imCnt, s2) =>
      match s2.readU32 with
      | none => .error (.runtime_error msgRead)
      | some (codeSz, s3) =>
        match readExports k expCnt s3 exportDup [] with
        | .error e => .error e
        | .ok (s4, exportDup1, exports) =>
          match readImports imCnt s4 [] with
          | .error e => .error e
          | .ok (s5, imports) =>
            .ok (⟨imports, exports, ⟨expCnt, imCnt, codeSz⟩, s5.pos % 4294967296⟩, exportDup1)

/-- The file loop of `readFiles`, from file index `k` on; the second component is
`m_ObjFiles` as the loop leaves it. -/
def readFilesLoop (w : World) : List String → Nat → List (Name × Nat) → List ObjFile →
    Except Failure Unit × List ObjFile
  | [], _, _, objs => (.ok (), objs)
  | fileName :: rest, k, exportDup, objs =>
    match w.readable fileName with
    | none => (.error (.runtime_error msgRead), objs)
    | some content =>
      match readObjFile k ⟨content, 0⟩ exportDup with
      | .error e => (.error e, objs)
      | .ok (objFile, exportDup1) => readFilesLoop w rest (k + 1) exportDup1 (objs ++ [objFile])

/-- `CLinker::addFile`. -/
def CLinker.addFile (self : CLinker) (fileName : String) : CLinker :=
  { self with m_Files := self.m_Files ++ [fileName] }

/-- `CLinker::readFiles`, its reservations granted (`CLinker.readFilesR` has
their outcome). -/
def CLinker.readFiles (w : World) (self : CLinker) : Except Failure Unit × CLinker :=
  let r := readFilesLoop w self.m_Files 0 [] []
  (r.1, { self with m_ObjFiles := r.2, m_FunctionInfoMap := [] })

/-! ## The symbol table -/

/-- The inner loop of `FunInfoMap`: the end of the function that starts at `exportF`. -/
def nextOffset (objFile : ObjFile) (exportF : ExportFun) : Nat :=
  objFile.exports.foldl
    (fun next otherExportF =>
      if otherExportF.offset > exportF.offset ∧ otherExportF.offset < next
      then otherExportF.offset else next)
    objFile.fileHeader.codeSz

/-- The entry `FunInfoMap` stores for an export of file `i`. -/
def funInfoOf (i : Nat) (objFile : ObjFile) (exportF : ExportFun) : FunInfo :=
  ⟨i, exportF.offset, subU32 (nextOffset objFile exportF) exportF.offset, objFile.offsetData⟩

/-- The export loop of `FunInfoMap` for file `i`. -/
def funInfoExports (i : Nat) (objFile : ObjFile) :
    List ExportFun → List (Name × FunInfo) → List (Name × FunInfo)
  | [], m => m
  | exportF :: rest, m =>
    funInfoExports i objFile rest (mapSet m exportF.name (funInfoOf i objFile exportF))

/-- The file loop of `FunInfoMap`, from file index `i` on. -/
def funInfoFiles : List ObjFile → Nat → List (Name × FunInfo) → List (Name × FunInfo)
  | [], _, m => m
  | objFile :: rest, i, m => funInfoFiles rest (i + 1) (funInfoExports i objFile objFile.exports m)

/-- `CLinker::FunInfoMap`. -/
def CLinker.FunInfoMap (self : CLinker) : CLinker :=
  { self with m_FunctionInfoMap := funInfoFiles self.m_ObjFiles 0 [] }

/-- `CLinker::loadCode`. -/
def CLinker.loadCode (w : World) (self : CLinker) (functionIn : FunInfo) :
    Except Failure (List Byte) :=
  match self.m_Files[functionIn.fileIdx]? with
  | none => .error .undefined_behaviour
  | some fileName =>
    match w.readable fileName with
    | none => .error (.runtime_error msgRead)
    | some content =>
      let p := addU32 functionIn.offset functionIn.offsetData
      match IFStream.read ⟨content.drop p, p⟩ functionIn.size with
      | none => .error (.runtime_error msgRead)
      | some (code, _) => .ok code

/-! ## Reachability -/

/-- The test `ref >= funInfo->offset && ref < funInfo->offset + funInfo->size`. -/
def inRange (funInfo : FunInfo) (ref : Nat) : Bool :=
  decide (ref ≥ funInfo.offset ∧ ref < addU32 funInfo.offset funInfo.size)

/-- The import loop of `bfs` for the function `funInfo`. -/
def bfsImports (m : List (Name × FunInfo)) (funInfo : FunInfo) :
    List ImportFun → List Name → List Name → Except Failure (List Name × List Name)
  | [], visited, q => .ok (visited, q)
  | importedFunction :: rest, visited, q =>
    if importedFunction.references.any (inRange funInfo) then
      match mapFind m importedFunction.name with
      | none => .error (.runtime_error (msgUndefined importedFunction.name))
      | some _ =>
        if importedFunction.name ∈ visited then bfsImports m funInfo rest visited q
        else bfsImports m funInfo rest (visited ++ [importedFunction.name])
          (q ++ [importedFunction.name])
    else bfsImports m funInfo rest visited q

/-- The `while (!q.empty())` loop of `bfs`, with a budget of iterations; the
second component is the vector `neededFunctions`, which the caller passes by
reference, as the loop leaves it. -/
def bfsLoop (self : CLinker) : Nat → List Name → List Name → List Name →
    Except Failure Unit × List Name
  | _, _, [], neededFunctions => (.ok (), neededFunctions)
  | 0, _, _ :: _, neededFunctions => (.error .out_of_fuel, neededFunctions)
  | fuel + 1, visited, currFun :: q, neededFunctions =>
    match mapFind self.m_FunctionInfoMap currFun with
    | none => (.error .undefined_behaviour, neededFunctions ++ [currFun])
    | some funInfo =>
      match self.m_ObjFiles[funInfo.fileIdx]? with
      | none => (.error .undefined_behaviour, neededFunctions ++ [currFun])
      | some objFile =>
        match bfsImports self.m_FunctionInfoMap funInfo objFile.imports visited q with
        | .error e => (.error e, neededFunctions ++ [currFun])
        | .ok (visited1, q1) => bfsLoop self fuel visited1 q1 (neededFunctions ++ [currFun])

/-- `CLinker::bfs`; each iteration takes a name out of the queue that was never
in it before, so as many iterations as the symbol table has entries suffice.
The second component is `neededFunctions` as the call leaves it. -/
def CLinker.bfs (self : CLinker) (entryPoint : Name) (neededFunctions : List Name) :
    Except Failure Unit × List Name :=
  match mapFind self.m_FunctionInfoMap entryPoint with
  | none => (.error (.runtime_error (msgUndefined entryPoint)), neededFunctions)
  | some _ =>
    bfsLoop self self.m_FunctionInfoMap.length [entryPoint] [entryPoint] neededFunctions

/-! ## Layout and emission -/

/-- `std::sort(neededFunctions.begin() + 1, neededFunctions.end())`. -/
def sortTail : List Name → Option (List Name)
  | [] => none
  | entry :: rest => some (entry :: rest.insertionSort (fun a b => a ≤ b))

/-- The loop that fills `functionOffsets`. -/
def assignOffsets (m : List (Name × FunInfo)) :
    List Name → List (Name × Nat) → Nat → Except Failure (List (Name × Nat))
  | [], functionOffsets, _ => .ok functionOffsets
  | f :: rest, functionOffsets, currentOffset =>
    match mapFind m f with
    | none => .error .undefined_behaviour
    | some funInfo =>
      assignOffsets m rest (mapSet functionOffsets f currentOffset)
        (addU32 currentOffset funInfo.size)

/-- `memcpy(&functionBody[relativeOffset], &targetAddress, 4)`. -/
def memcpyU32 (functionBody : List Byte) (relativeOffset targetAddress : Nat) :
    Option (List Byte) :=
  if relativeOffset + 4 ≤ functionBody.length then
    some (functionBody.take relativeOffset ++ encodeU32 targetAddress ++
      functionBody.drop (relativeOffset + 4))
  else none

/-- The reference loop of `linkOutput` for one import. -/
def patchRefs (funInfo : FunInfo) (targetAddress : Nat) :
    List Nat → List Byte → Except Failure (List Byte)
  | [], functionBody => .ok functionBody
  | ref :: rest, functionBody =>
    if inRange funInfo ref then
      match memcpyU32 functionBody (subU32 ref funInfo.offset) targetAddress with
      | none => .error .undefined_behaviour
      | some functionBody1 => patchRefs funInfo targetAddress rest functionBody1
    else patchRefs funInfo targetAddress rest functionBody

/-- The import loop of `linkOutput` for one function. -/
def patchImports (functionOffsets : List (Name × Nat)) (funInfo : FunInfo) :
    List ImportFun → List Byte → Except Failure (List Byte)
  | [], functionBody => .ok functionBody
  | importFun :: rest, functionBody =>
    match mapFind functionOffsets importFun.name with
    | none => patchImports functionOffsets funInfo rest functionBody
    | some targetAddress =>
      match patchRefs funInfo targetAddress importFun.references functionBody with
      | .error e => .error e
      | .ok functionBody1 => patchImports functionOffsets funInfo rest functionBody1

/-- The loop of `linkOutput` that writes the functions; the second component is
what has been handed to `outFile.write` so far. -/
def emitLoop (w : World) (self : CLinker) (functionOffsets : List (Name × Nat)) :
    List Name → List Byte → Except Failure Unit × List Byte
  | [], out => (.ok (), out)
  | f :: rest, out =>
    match mapFind self.m_FunctionInfoMap f with
    | none => (.error .undefined_behaviour, out)
    | some funInfo =>
      match self.loadCode w funInfo with
      | .error e => (.error e, out)
      | .ok functionBody =>
        match self.m_ObjFiles[funInfo.fileIdx]? with
        | none => (.error .undefined_behaviour, out)
        | some objFile =>
          match patchImports functionOffsets funInfo objFile.imports functionBody with
          | .error e => (.error e, out)
          | .ok functionBody1 => emitLoop w self functionOffsets rest (out ++ functionBody1)

/-- What a call of `linkOutput` leaves: how it ended, the output file (`none`
when it was never opened, else the bytes written to it) and the instance. -/
structure LinkResult where
  result : Except Failure Unit
  output : Option (List Byte)
  self : CLinker

/-- `CLinker::linkOutput`. The output stream is kept apart from the files the run
reads: the output path is taken to be none of the registered paths, since
opening it empties the file it names. -/
def CLinker.linkOutput (w : World) (self : CLinker) (fileName : String) (entryPoint : Name) :
    LinkResult :=
  match self.readFiles w with
  | (.error e, self1) => ⟨.error e, none, self1⟩
  | (.ok (), self1) =>
    let self2 := self1.FunInfoMap
    match self2.bfs entryPoint [] with
    | (.error e, _) => ⟨.error e, none, self2⟩
    | (.ok (), needed) =>
      match sortTail needed with
      | none => ⟨.error .undefined_behaviour, none, self2⟩
      | some neededFunctions =>
        match assignOffsets self2.m_FunctionInfoMap neededFunctions [] 0 with
        | .error e => ⟨.error e, none, self2⟩
        | .ok functionOffsets =>
          if w.writable fileName then
            match emitLoop w self2 functionOffsets neededFunctions [] with
            | (.error e, out) => ⟨.error e, some out, self2⟩
            | (.ok (), out) =>
              if w.streamGood fileName then ⟨.ok (), some out, self2⟩
              else ⟨.error (.runtime_error msgWrite), some out, self2⟩
          else ⟨.error (.runtime_error msgWrite), none, self2⟩

/-! ## The values `linkOutput` computes on the way -/

/-- The list `neededFunctions` of `linkOutput` after the sort. -/
def CLinker.neededFunctions (w : World) (self : CLinker) (entryPoint : Name) :
    Except Failure (List Name) :=
  match self.readFiles w with
  | (.error e, _) => .error e
  | (.ok (), self1) =>
    match self1.FunInfoMap.bfs entryPoint [] with
    | (.error e, _) => .error e
    | (.ok (), needed) =>
      match sortTail needed with
      | none => .error .undefined_behaviour
      | some neededFunctions => .ok neededFunctions

/-- The map `functionOffsets` of `linkOutput` after the layout loop. -/
def CLinker.functionOffsets (w : World) (self : CLinker) (entryPoint : Name) :
    Except Failure (List (Name × Nat)) :=
  match self.neededFunctions w entryPoint with
  | .error e => .error e
  | .ok neededFunctions =>
    assignOffsets (self.readFiles w).2.FunInfoMap.m_FunctionInfoMap neededFunctions [] 0

/-- The symbol table `linkOutput` works with: the instance after `readFiles` and
`FunInfoMap`. -/
def CLinker.symbols (w : World) (self : CLinker) : CLinker :=
  (self.readFiles w).2.FunInfoMap

/-- The buffer `functionBody` of `linkOutput` for the function `f` as it is
handed to `outFile.write`: the body of the emission loop. -/
def writtenBody (w : World) (self : CLinker) (functionOffsets : List (Name × Nat))
    (f : Name) : Except Failure (List Byte) :=
  match mapFind self.m_FunctionInfoMap f with
  | none => .error .undefined_behaviour
  | some funInfo =>
    match self.loadCode w funInfo with
    | .error e => .error e
    | .ok functionBody =>
      match self.m_ObjFiles[funInfo.fileIdx]? with
      | none => .error .undefined_behaviour
      | some objFile => patchImports functionOffsets funInfo objFile.imports functionBody

/-! ## The words of the specification -/

/-- The export names of the object files in scan order: file index, then
export order within the file. -/
def exportNames (objs : List ObjFile) : List Name :=
  objs.flatMap (fun o => o.exports.map (fun e => e.name))

/-- No export of the file starts beyond its code section. -/
def OffsetsInCode (o : ObjFile) : Prop :=
  ∀ e ∈ o.exports, e.offset ≤ o.fileHeader.codeSz

instance (o : ObjFile) : Decidable (OffsetsInCode o) := by
  unfold OffsetsInCode; infer_instance

/-- The end of an export as the specification words it: the smallest export
offset of the file that is strictly greater, or the size of the code section
when no export offset is greater. -/
def specNextOffset (o : ObjFile) (e : ExportFun) : Nat :=
  match ((o.exports.map (fun x => x.offset)).filter (fun x => e.offset < x)).min? with
  | some x => x
  | none => o.fileHeader.codeSz

/-- The end of an export where only the export offsets inside the code section
count: the smallest export offset that is strictly greater and strictly below
the size of the code section, or that size when there is none. -/
def boundedNextOffset (o : ObjFile) (e : ExportFun) : Nat :=
  match ((o.exports.map (fun x => x.offset)).filter
      (fun x => e.offset < x ∧ x < o.fileHeader.codeSz)).min? with
  | some x => x
  | none => o.fileHeader.codeSz

/-- The relation "A calls B" of the specification over a symbol table: B is
an import of the file that owns A and a reference offset of that import lies
in the byte range of A. -/
def Calls (self : CLinker) (a b : Name) : Prop :=
  ∃ funInfo objFile, mapFind self.m_FunctionInfoMap a = some funInfo ∧
    self.m_ObjFiles[funInfo.fileIdx]? = some objFile ∧
    ∃ imp ∈ objFile.imports, imp.name = b ∧
      ∃ r ∈ imp.references, funInfo.offset ≤ r ∧ r < funInfo.offset + funInfo.size

/-- Reachable from the entry point by zero or more calls. -/
def Reachable (self : CLinker) (entryPoint n : Name) : Prop :=
  Relation.ReflTransGen (Calls self) entryPoint n

/-- The first name of a list that repeats an earlier one. -/
def firstRepeat : List Name → List Name → Option Name
  | _, [] => none
  | seen, n :: rest => if n ∈ seen then some n else firstRepeat (seen ++ [n]) rest

/-! ### The file layout -/

/-- An export record: name length, name, offset. -/
def encodeExport (e : ExportFun) : List Byte :=
  toByte e.name.length :: e.name ++ encodeU32 e.offset

/-- An import record: name length, name, reference count, reference offsets. -/
def encodeImport (i : ImportFun) : List Byte :=
  toByte i.name.length :: i.name ++ encodeU32 i.references.length ++
    i.references.flatMap encodeU32

/-- The bytes of an object file before its code section. -/
def ObjFile.layout (o : ObjFile) : List Byte :=
  encodeU32 o.fileHeader.expCnt ++ encodeU32 o.fileHeader.imCnt ++
    encodeU32 o.fileHeader.codeSz ++ o.exports.flatMap encodeExport ++
    o.imports.flatMap encodeImport

/-- The object file is one the layout can hold: the counts are the numbers of
records, names fit a length byte, numbers fit 32 bits, and the code section
starts where the tables end. -/
structure ObjFile.Encodable (o : ObjFile) : Prop where
  expCnt_eq : o.fileHeader.expCnt = o.exports.length
  imCnt_eq : o.fileHeader.imCnt = o.imports.length
  expCnt_lt : o.exports.length < 4294967296
  imCnt_lt : o.imports.length < 4294967296
  codeSz_lt : o.fileHeader.codeSz < 4294967296
  exp_name : ∀ e ∈ o.exports, e.name.length < 256
  exp_offset : ∀ e ∈ o.exports, e.offset < 4294967296
  imp_name : ∀ i ∈ o.imports, i.name.length < 256
  imp_count : ∀ i ∈ o.imports, i.references.length < 4294967296
  imp_refs : ∀ i ∈ o.imports, ∀ r ∈ i.references, r < 4294967296
  offsetData_eq : o.offsetData = o.layout.length % 4294967296

/-- The file `content` is the layout of `o` followed by a code section. -/
def FileHolds (content : List Byte) (o : ObjFile) : Prop :=
  o.Encodable ∧ ∃ code, content = o.layout ++ code

/-- The registered paths hold, in order, the object files `objs`. -/
def FilesHold (w : World) (files : List String) (objs : List ObjFile) : Prop :=
  List.Forall₂ (fun f o => ∃ content, w.readable f = some content ∧ FileHolds content o)
    files objs

/-- Every number of the object file fits 32 bits, as the `ui32` fields of the
source do. -/
def ObjFile.Fits (o : ObjFile) : Prop :=
  o.fileHeader.codeSz < 4294967296 ∧ o.offsetData < 4294967296 ∧
    (∀ e ∈ o.exports, e.offset < 4294967296) ∧
    ∀ i ∈ o.imports, ∀ r ∈ i.references, r < 4294967296

/-- The relation the import loop of `bfs` follows: `b` is the name of an import
of the file that owns `a` for which the loop sets `used`. -/
def Uses (self : CLinker) (a b : Name) : Prop :=
  ∃ funInfo objFile, mapFind self.m_FunctionInfoMap a = some funInfo ∧
    self.m_ObjFiles[funInfo.fileIdx]? = some objFile ∧
    ∃ imp ∈ objFile.imports, imp.name = b ∧ imp.references.any (inRange funInfo) = true

/-- The number of entries of the symbol table whose name is not yet visited. -/
def unvisited (m : List (Name × FunInfo)) (visited : List Name) : Nat :=
  (m.filter (fun p => decide (p.1 ∉ visited))).length

/-- The loop invariant of `bfs`. -/
structure BfsInv (lk : CLinker) (entryPoint : Name) (visited q needed : List Name) :
    Prop where
  mem_iff : ∀ n, n ∈ visited ↔ n ∈ needed ∨ n ∈ q
  entry_mem : entryPoint ∈ visited
  reach : ∀ n ∈ visited, Relation.ReflTransGen (Uses lk) entryPoint n
  closed : ∀ a ∈ needed, ∀ b, Uses lk a b → b ∈ visited
  nodup : (needed ++ q).Nodup
  defined : ∀ n ∈ visited, (mapFind lk.m_FunctionInfoMap n).isSome

/-- The size the symbol table records for a name (0 for a name it lacks). -/
def sizeOfName (m : List (Name × FunInfo)) (n : Name) : Nat :=
  match mapFind m n with
  | some funInfo => funInfo.size
  | none => 0

/-- The sum of the recorded sizes of a list of names. -/
def sumSizes (m : List (Name × FunInfo)) (l : List Name) : Nat :=
  (l.map (sizeOfName m)).sum

/-- The four bytes of a buffer from position `p` on. -/
def field (buf : List Byte) (p : Nat) : List Byte := (buf.drop p).take 4

/-- The import loop of `bfs` for `a` stops at the import named `b`: it is the
first import, in the import list of the file that owns `a`, for which the loop
sets `used` and which the symbol table lacks. -/
def FirstUnresolved (self : CLinker) (a b : Name) : Prop :=
  ∃ funInfo objFile pre imp post, mapFind self.m_FunctionInfoMap a = some funInfo ∧
    self.m_ObjFiles[funInfo.fileIdx]? = some objFile ∧
    objFile.imports = pre ++ imp :: post ∧ imp.name = b ∧
    imp.references.any (inRange funInfo) = true ∧
    mapFind self.m_FunctionInfoMap b = none ∧
    ∀ i ∈ pre, i.references.any (inRange funInfo) = true →
      (mapFind self.m_FunctionInfoMap i.name).isSome

/-- The import named `b` is the first import, in the import list of the file
that owns `a`, that has a reference offset in the byte range of `a` and that the
symbol table lacks. -/
def FirstUndefined (self : CLinker) (a b : Name) : Prop :=
  ∃ funInfo objFile pre imp post, mapFind self.m_FunctionInfoMap a = some funInfo ∧
    self.m_ObjFiles[funInfo.fileIdx]? = some objFile ∧
    objFile.imports = pre ++ imp :: post ∧ imp.name = b ∧
    (∃ r ∈ imp.references, funInfo.offset ≤ r ∧ r < funInfo.offset + funInfo.size) ∧
    mapFind self.m_FunctionInfoMap b = none ∧
    ∀ i ∈ pre, (∃ r ∈ i.references, funInfo.offset ≤ r ∧ r < funInfo.offset + funInfo.size) →
      (mapFind self.m_FunctionInfoMap i.name).isSome

/-! ### Concrete inputs -/

/-- An object file with one export beyond its code section: `a` at 0 and `b`
at 10 in a code section of 4 bytes. -/
def objBeyond : ObjFile :=
  ⟨[], [⟨str "a", 0⟩, ⟨str "b", 10⟩], ⟨2, 0, 4⟩, 24⟩

/-- A world whose only file, `x.o`, holds `objBeyond` and four bytes of code. -/
def worldBeyond : World :=
  ⟨fun p => if p = "x.o" then some (objBeyond.layout ++ [1, 2, 3, 4]) else none,
    fun _ => true, fun _ => true⟩

/-- An object file that exports `main` (8 bytes) with a reference to `f` at 0
and one to `g` at 4. -/
def objMain : ObjFile :=
  ⟨[⟨str "f", [0]⟩, ⟨str "g", [4]⟩], [⟨str "main", 0⟩], ⟨1, 2, 8⟩, 41⟩

/-- An object file that exports `g` at 4, `f` at 0 and `idle` at 6 in a code
section of 8 bytes, and imports nothing. -/
def objLib : ObjFile :=
  ⟨[], [⟨str "g", 4⟩, ⟨str "f", 0⟩, ⟨str "idle", 6⟩], ⟨3, 0, 8⟩, 33⟩

/-- A world with `main.o` holding `objMain` and `lib.o` holding `objLib`. -/
def worldTwo : World :=
  ⟨fun p =>
      if p = "main.o" then some (objMain.layout ++ [1, 2, 3, 4, 5, 6, 7, 8])
      else if p = "lib.o" then some (objLib.layout ++ [11, 12, 13, 14, 15, 16, 17, 18])
      else none,
    fun _ => true, fun _ => true⟩

/-- A linker with `main.o` and `lib.o` registered. -/
def linkerTwo : CLinker := CLinker.addFile (CLinker.addFile ⟨[], [], []⟩ "main.o") "lib.o"

/-- An object file that exports `main` (8 bytes) and holds two references to
`f`, at 0 and at 1, whose four-byte fields overlap. -/
def objOverlap : ObjFile :=
  ⟨[⟨str "f", [0, 1]⟩], [⟨str "main", 0⟩], ⟨1, 1, 8⟩, 35⟩

/-- A world with `main.o` holding `objOverlap` and `lib.o` holding `objLib`. -/
def worldOverlap : World :=
  ⟨fun p =>
      if p = "main.o" then some (objOverlap.layout ++ [1, 2, 3, 4, 5, 6, 7, 8])
      else if p = "lib.o" then some (objLib.layout ++ [11, 12, 13, 14, 15, 16, 17, 18])
      else none,
    fun _ => true, fun _ => true⟩

/-- An object file that exports `main` (8 bytes) with a reference to `f` at 0
and one to `qsort`, which nothing exports, at 4. -/
def objQsort : ObjFile :=
  ⟨[⟨str "f", [0]⟩, ⟨str "qsort", [4]⟩], [⟨str "main", 0⟩], ⟨1, 2, 8⟩, 45⟩

/-- A world with `main.o` holding `objQsort` and `lib.o` holding `objLib`. -/
def worldQsort : World :=
  ⟨fun p =>
      if p = "main.o" then some (objQsort.layout ++ [1, 2, 3, 4, 5, 6, 7, 8])
      else if p = "lib.o" then some (objLib.layout ++ [11, 12, 13, 14, 15, 16, 17, 18])
      else none,
    fun _ => true, fun _ => true⟩

/-- The names the function `a` calls, in the words of the specification: the
names of the imports of the file that owns `a` that have a reference offset in
the byte range of `a`, in import-list order. -/
def callees (self : CLinker) (a : Name) : List Name :=
  match mapFind self.m_FunctionInfoMap a with
  | none => []
  | some funInfo =>
    match self.m_ObjFiles[funInfo.fileIdx]? with
    | none => []
    | some objFile =>
      (objFile.imports.filter (fun imp =>
        imp.references.any
          (fun r => decide (funInfo.offset ≤ r ∧ r < funInfo.offset + funInfo.size)))).map
        (fun imp => imp.name)

/-- An object file like `objLib` whose function `idle`, which nothing calls,
holds a reference to `qsort`, and which has an import `nothing` without
references; no file exports `qsort` or `nothing`. -/
def objLibIdle : ObjFile :=
  ⟨[⟨str "qsort", [6]⟩, ⟨str "nothing", []⟩], [⟨str "g", 4⟩, ⟨str "f", 0⟩, ⟨str "idle", 6⟩],
    ⟨3, 2, 8⟩, 59⟩

/-- A world with `main.o` holding `objMain` and `lib.o` holding `objLibIdle`. -/
def worldIdle : World :=
  ⟨fun p =>
      if p = "main.o" then some (objMain.layout ++ [1, 2, 3, 4, 5, 6, 7, 8])
      else if p = "lib.o" then some (objLibIdle.layout ++ [11, 12, 13, 14, 15, 16, 17, 18])
      else none,
    fun _ => true, fun _ => true⟩

/-- An object file that exports `main` (8 bytes) and holds a reference to `f` at
6, two bytes before the end of `main`. -/
def objEdge : ObjFile :=
  ⟨[⟨str "f", [6]⟩], [⟨str "main", 0⟩], ⟨1, 1, 8⟩, 31⟩

/-- A world with `main.o` holding `objEdge` and `lib.o` holding `objLib`. -/
def worldEdge : World :=
  ⟨fun p =>
      if p = "main.o" then some (objEdge.layout ++ [1, 2, 3, 4, 5, 6, 7, 8])
      else if p = "lib.o" then some (objLib.layout ++ [11, 12, 13, 14, 15, 16, 17, 18])
      else none,
    fun _ => true, fun _ => true⟩

/-- The number of bytes before the code section of a file with the exports `es`
and the imports `is`: the header, an export record of `5 + nameLen` bytes for
each export and an import record of `5 + nameLen + 4 * refCount` bytes for
each import. -/
def tablesLength (es : List ExportFun) (is : List ImportFun) : Nat :=
  12 + (es.map (fun e => 5 + e.name.length)).sum +
    (is.map (fun i => 5 + i.name.length + 4 * i.references.length)).sum

/-- The object file that `readFiles` builds from the layout of the exports `es`,
the imports `is` and the code size `codeSz`: its base offset is the number of
bytes before the code section, as a `ui32`. -/
def laidOut (es : List ExportFun) (is : List ImportFun) (codeSz : Nat) : ObjFile :=
  ⟨is, es, ⟨es.length, is.length, codeSz⟩, tablesLength es is % 4294967296⟩

/-- A reference list of `2 ^ 30` offsets. -/
def manyRefs : List Nat := List.replicate 1073741824 0

/-- An object file without exports and code whose only import, of empty name,
has `2 ^ 30` references: its tables take more than `2 ^ 32` bytes. -/
def objHuge : ObjFile := laidOut [] [⟨[], manyRefs⟩] 0

/-- A world whose only file, `huge.o`, holds the layout of `objHuge`. -/
def worldHuge : World :=
  ⟨fun p => if p = "huge.o" then some (objHuge.layout ++ []) else none,
    fun _ => true, fun _ => true⟩

/-- A world with `main.o` holding `objMain` and `lib.o` holding only the first
20 bytes of the layout of `objLib`. -/
def worldCut : World :=
  ⟨fun p =>
      if p = "main.o" then some (objMain.layout ++ [1, 2, 3, 4, 5, 6, 7, 8])
      else if p = "lib.o" then some (objLib.layout.take 20)
      else none,
    fun _ => true, fun _ => true⟩

/-- An object file that exports only `main`, at offset 0, and whose only import
is `helper` with the single reference offset `r`. -/
def scenarioA (codeSz r : Nat) : ObjFile :=
  ⟨[⟨str "helper", [r]⟩], [⟨str "main", 0⟩], ⟨1, 1, codeSz⟩, 36⟩

/-- An object file that exports only `helper`, at offset 0, and imports nothing. -/
def scenarioB (codeSz : Nat) : ObjFile :=
  ⟨[], [⟨str "helper", 0⟩], ⟨1, 0, codeSz⟩, 23⟩

/-- A world with `a.o` holding `scenarioA 8 2` and `b.o` holding `scenarioB 4`. -/
def worldScenario : World :=
  ⟨fun p =>
      if p = "a.o" then some ((scenarioA 8 2).layout ++ [1, 2, 3, 4, 5, 6, 7, 8])
      else if p = "b.o" then some ((scenarioB 4).layout ++ [9, 10, 11, 12])
      else none,
    fun _ => true, fun _ => true⟩

/-- The bytes `[base + offset, base + offset + size)` of a function are all
present in the file `content`, with `base` the recorded base offset of the code
section. -/
def BytesPresent (content : List Byte) (funInfo : FunInfo) : Prop :=
  ∀ j, j < funInfo.size → funInfo.offsetData + funInfo.offset + j < content.length

/-- An object file that exports `main` at offset `2 ^ 32 - 21` in a code section
of `2 ^ 32 - 20` bytes, and imports nothing; its tables take 21 bytes. -/
def objWrap : ObjFile :=
  ⟨[], [⟨str "main", 4294967275⟩], ⟨1, 0, 4294967276⟩, 21⟩

/-- A world with `w.o` holding `objWrap` and no byte of a code section. -/
def worldWrap : World :=
  ⟨fun p => if p = "w.o" then some (objWrap.layout ++ []) else none,
    fun _ => true, fun _ => true⟩

/-- A world with `main.o` holding `objMain` and `lib.o` holding `objLib` with
only the first 3 of the 8 bytes of its code section. -/
def worldShort : World :=
  ⟨fun p =>
      if p = "main.o" then some (objMain.layout ++ [1, 2, 3, 4, 5, 6, 7, 8])
      else if p = "lib.o" then some (objLib.layout ++ [11, 12, 13])
      else none,
    fun _ => true, fun _ => true⟩

/-- The names the import loop of `bfs` sets `used` for when it handles the
function `a`: the names of the imports of the file that owns `a` that have a
reference offset passing the range test, in import-list order. -/
def usedNames (self : CLinker) (a : Name) : List Name :=
  match mapFind self.m_FunctionInfoMap a with
  | none => []
  | some funInfo =>
    match self.m_ObjFiles[funInfo.fileIdx]? with
    | none => []
    | some objFile =>
      (objFile.imports.filter (fun imp => imp.references.any (inRange funInfo))).map
        (fun imp => imp.name)

/-- The names of `l` that are not in `seen`, each at its first occurrence only,
in the order of `l`. -/
def firstNew (seen : List Name) : List Name → List Name
  | [] => []
  | n :: rest => if n ∈ seen then firstNew seen rest else n :: firstNew (seen ++ [n]) rest

/-- The name `n` is reached from the entry point by exactly `k` calls. -/
def ReachIn (self : CLinker) (entryPoint : Name) : Nat → Name → Prop
  | 0, n => n = entryPoint
  | k + 1, n => ∃ m, ReachIn self entryPoint k m ∧ Uses self m n

/-- The shortest call-distance of `n` from the entry point is `d`. -/
def IsDist (self : CLinker) (entryPoint n : Name) (d : Nat) : Prop :=
  ReachIn self entryPoint d n ∧ ∀ k, k < d → ¬ ReachIn self entryPoint k n

/-- The loop invariant of `bfs` for the order of the list it builds; `d` gives
the shortest call-distance of the names the entry point reaches. -/
structure OrderInv (lk : CLinker) (entryPoint : Name) (d : Name → Nat)
    (visited q needed : List Name) : Prop where
  vis : visited = needed ++ q
  nodup : (needed ++ q).Nodup
  reach : ∀ x ∈ needed ++ q, ∃ k, ReachIn lk entryPoint k x
  closed : ∀ a ∈ needed, ∀ b, Uses lk a b → b ∈ needed ++ q
  sorted : (needed ++ q).Pairwise (fun a b => d a ≤ d b)
  window : ∀ a, q.head? = some a → ∀ x ∈ q, d x ≤ d a + 1
  complete : ∀ a, q.head? = some a → ∀ x k, ReachIn lk entryPoint k x → k ≤ d a →
    x ∈ needed ++ q
  blocks : ∃ blocks : List (List Name), blocks.length = needed.length ∧
    needed ++ q = entryPoint :: blocks.flatten ∧
    ∀ (i : Nat) (a : Name), needed[i]? = some a →
      blocks[i]? = some (firstNew (entryPoint :: (blocks.take i).flatten) (usedNames lk a))

/-- Two symbol-table entries say the same apart from the file index: the same
offset, size and base offset, and at their file indices the two instances hold
the same object file and the same path. -/
def SameEntry (lk lk2 : CLinker) (fi fi2 : FunInfo) : Prop :=
  fi.offset = fi2.offset ∧ fi.size = fi2.size ∧ fi.offsetData = fi2.offsetData ∧
    lk.m_ObjFiles[fi.fileIdx]? = lk2.m_ObjFiles[fi2.fileIdx]? ∧
    lk.m_Files[fi.fileIdx]? = lk2.m_Files[fi2.fileIdx]?

/-- Two instances whose symbol tables have the same keys and, for each key,
entries that say the same apart from the file index. -/
def SameTable (lk lk2 : CLinker) : Prop :=
  ∀ n, (mapFind lk.m_FunctionInfoMap n = none ∧ mapFind lk2.m_FunctionInfoMap n = none) ∨
    ∃ fi fi2, mapFind lk.m_FunctionInfoMap n = some fi ∧
      mapFind lk2.m_FunctionInfoMap n = some fi2 ∧ SameEntry lk lk2 fi fi2

/-! ### The reservations of `readFiles` -/

/-- The outcome of the reservations of `readFiles`, by vector: whether
`reserve(n)` gets storage for `n` elements. The storage of the records a run
reads is taken to be there, as in `readObjFile`; a reservation asks for the
storage of a count that a file announces, before any of the records is read. -/
structure Allocator where
  /-- the outcome of `m_ObjFiles.reserve(n)`, which asks for nothing when the
  capacity left by an earlier call suffices -/
  objFiles : Nat → Bool
  /-- the outcome of `objFile.exports.reserve(n)` -/
  exports : Nat → Bool
  /-- the outcome of `objFile.imports.reserve(n)` -/
  imports : Nat → Bool
  /-- the outcome of `importedFun.references.reserve(n)` -/
  references : Nat → Bool

/-- The call `reserve(n)` on a vector: it returns when `n` is 0, which asks for
nothing, or when the storage is granted, and throws `std::bad_alloc` otherwise. -/
def reserve (grants : Nat → Bool) (n : Nat) : Bool := n == 0 || grants n

/-- The import loop of `readFiles`, with the reservation of each reference
vector: `n` records are still to be read. -/
def readImportsR (alloc : Allocator) :
    Nat → IFStream → List ImportFun → Except Failure (IFStream × List ImportFun)
  | 0, s, acc => .ok (s, acc)
  | n + 1, s, acc =>
    match s.readU8 with
    | none => .error (.runtime_error msgRead)
    | some (nameLen, s1) =>
      match s1.read nameLen with
      | none => .error (.runtime_error msgRead)
      | some (name, s2) =>
        match s2.readU32 with
        | none => .error (.runtime_error msgRead)
        | some (refCnt, s3) =>
          if reserve alloc.references refCnt then
            match readRefs refCnt s3 [] with
            | .error e => .error e
            | .ok (s4, references) => readImportsR alloc n s4 (acc ++ [⟨name, references⟩])
          else .error .bad_alloc

/-- The body of the file loop of `readFiles` once file `k` is open, with the
reservations of the export and import vectors. -/
def readObjFileR (alloc : Allocator) (k : Nat) (s : IFStream) (exportDup : List (Name × Nat)) :
    Except Failure (ObjFile × List (Name × Nat)) :=
  match s.readU32 with
  | none => .error (.runtime_error msgRead)
  | some (expCnt, s1) =>
    match s1.readU32 with
    | none => .error (.runtime_error msgRead)
    | some (imCnt, s2) =>
      match s2.readU32 with
      | none => .error (.runtime_error msgRead)
      | some (codeSz, s3) =>
        if reserve alloc.exports expCnt then
          match readExports k expCnt s3 exportDup [] with
          | .error e => .error e
          | .ok (s4, exportDup1, exports) =>
            if reserve alloc.imports imCnt then
              match readImportsR alloc imCnt s4 [] with
              | .error e => .error e
              | .ok (s5, imports) =>
                .ok (⟨imports, exports, ⟨expCnt, imCnt, codeSz⟩, s5.pos % 4294967296⟩,
                  exportDup1)
            else .error .bad_alloc
        else .error .bad_alloc

/-- The file loop of `readFiles` with the reservations, from file index `k` on;
the second component is `m_ObjFiles` as the loop leaves it. -/
def readFilesLoopR (alloc : Allocator) (w : World) :
    List String → Nat → List (Name × Nat) → List ObjFile → Except Failure Unit × List ObjFile
  | [], _, _, objs => (.ok (), objs)
  | fileName :: rest, k, exportDup, objs =>
    match w.readable fileName with
    | none => (.error (.runtime_error msgRead), objs)
    | some content =>
      match readObjFileR alloc k ⟨content, 0⟩ exportDup with
      | .error e => (.error e, objs)
      | .ok (objFile, exportDup1) =>
        readFilesLoopR alloc w rest (k + 1) exportDup1 (objs ++ [objFile])

/-- `CLinker::readFiles` with its reservations: `m_ObjFiles` is cleared and
reserved before `m_FunctionInfoMap` is cleared. -/
def CLinker.readFilesR (alloc : Allocator) (w : World) (self : CLinker) :
    Except Failure Unit × CLinker :=
  if reserve alloc.objFiles self.m_Files.length then
    let r := readFilesLoopR alloc w self.m_Files 0 [] []
    (r.1, { self with m_ObjFiles := r.2, m_FunctionInfoMap := [] })
  else (.error .bad_alloc, { self with m_ObjFiles := [] })

/-- `CLinker::linkOutput` over `readFiles` with its reservations. -/
def CLinker.linkOutputR (alloc : Allocator) (w : World) (self : CLinker) (fileName : String)
    (entryPoint : Name) : LinkResult :=
  match self.readFilesR alloc w with
  | (.error e, self1) => ⟨.error e, none, self1⟩
  | (.ok (), self1) =>
    let self2 := self1.FunInfoMap
    match self2.bfs entryPoint [] with
    | (.error e, _) => ⟨.error e, none, self2⟩
    | (.ok (), needed) =>
      match sortTail needed with
      | none => ⟨.error .undefined_behaviour, none, self2⟩
      | some neededFunctions =>
        match assignOffsets self2.m_FunctionInfoMap neededFunctions [] 0 with
        | .error e => ⟨.error e, none, self2⟩
        | .ok functionOffsets =>
          if w.writable fileName then
            match emitLoop w self2 functionOffsets neededFunctions [] with
            | (.error e, out) => ⟨.error e, some out, self2⟩
            | (.ok (), out) =>
              if w.streamGood fileName then ⟨.ok (), some out, self2⟩
              else ⟨.error (.runtime_error msgWrite), some out, self2⟩
          else ⟨.error (.runtime_error msgWrite), none, self2⟩

/-- The reservations `readFiles` makes for the counts of the object file `o`
are granted. -/
def Granted (alloc : Allocator) (o : ObjFile) : Prop :=
  reserve alloc.exports o.exports.length = true ∧
    reserve alloc.imports o.imports.length = true ∧
    ∀ i ∈ o.imports, reserve alloc.references i.references.length = true

instance (alloc : Allocator) (o : ObjFile) : Decidable (Granted alloc o) := by
  unfold Granted
  infer_instance

/-- The reservations that `readFiles` reaches on the first `n` bytes of the
layout of `o` are granted: that of the exports when the header ends within the
`n` bytes, that of the imports when the export table does, and that of the
references of an import when its count field does. -/
def GrantedTo (alloc : Allocator) (o : ObjFile) (n : Nat) : Prop :=
  (12 ≤ n → reserve alloc.exports o.exports.length = true) ∧
    (12 + (o.exports.flatMap encodeExport).length ≤ n →
      reserve alloc.imports o.imports.length = true) ∧
    ∀ (before : List ImportFun) (i : ImportFun) (after : List ImportFun),
      o.imports = before ++ i :: after →
      12 + (o.exports.flatMap encodeExport).length + (before.flatMap encodeImport).length
          + 1 + i.name.length + 4 ≤ n →
        reserve alloc.references i.references.length = true

/-- An allocator that has no storage for `2 ^ 32 - 1` export records and grants
every other reservation. -/
def allocSmall : Allocator :=
  ⟨fun _ => true, fun n => decide (n < 4294967295), fun _ => true, fun _ => true⟩

/-- As many as `2 ^ 32 - 1` exports, of distinct names, all at offset 0. -/
def manyExports : List ExportFun :=
  (List.range 4294967295).map (fun i => ⟨encodeU32 i, 0⟩)

/-- An object file without imports and code that has `2 ^ 32 - 1` exports. -/
def objMany : ObjFile := laidOut manyExports [] 0

/-- A world whose only file, `many.o`, holds twelve bytes: the header of the
layout of `objMany`. -/
def worldMany : World :=
  ⟨fun p =>
      if p = "many.o" then some [255, 255, 255, 255, 0, 0, 0, 0, 0, 0, 0, 0] else none,
    fun _ => true, fun _ => true⟩

/-! ## Maps -/

theorem mapFind_mapSet_same {β : Type} (m : List (Name × β)) (k : Name) (v : β) :
    mapFind (mapSet m k v) k = some v := by
  induction m with
  | nil => simp [mapSet, mapFind]
  | cons p rest ih =>
    obtain ⟨k1, x⟩ := p
    by_cases h : k1 = k
    · simp [mapSet, mapFind, h]
    · simp [mapSet, mapFind, h, ih]

theorem mapFind_mapSet_ne {β : Type} (m : List (Name × β)) (k k2 : Name) (v : β)
    (hne : k ≠ k2) : mapFind (mapSet m k v) k2 = mapFind m k2 := by
  induction m with
  | nil => simp [mapSet, mapFind, hne]
  | cons p rest ih =>
    obtain ⟨k1, x⟩ := p
    by_cases h : k1 = k
    · subst h
      simp [mapSet, mapFind, hne]
    · by_cases h2 : k1 = k2
      · subst h2
        simp [mapSet, mapFind, h]
      · simp [mapSet, mapFind, h, h2, ih]

theorem mapFind_mapSet {β : Type} (m : List (Name × β)) (k k2 : Name) (v : β) :
    mapFind (mapSet m k v) k2 = if k = k2 then some v else mapFind m k2 := by
  by_cases h : k = k2
  · subst h
    simp [mapFind_mapSet_same]
  · simp [h, mapFind_mapSet_ne m k k2 v h]

theorem mapFind_isSome_iff {β : Type} (m : List (Name × β)) (k : Name) :
    (mapFind m k).isSome ↔ k ∈ m.map Prod.fst := by
  induction m with
  | nil => simp [mapFind]
  | cons p rest ih =>
    obtain ⟨k1, x⟩ := p
    by_cases h : k1 = k
    · simp [mapFind, h]
    · have h2 : ¬ k = k1 := fun e => h e.symm
      simp [mapFind, h, h2, ih]

theorem mapFind_eq_none_iff {β : Type} (m : List (Name × β)) (k : Name) :
    mapFind m k = none ↔ k ∉ m.map Prod.fst := by
  rw [← mapFind_isSome_iff]
  cases mapFind m k <;> simp

theorem mapSet_of_none {β : Type} (m : List (Name × β)) (k : Name) (v : β)
    (h : mapFind m k = none) : mapSet m k v = m ++ [(k, v)] := by
  induction m with
  | nil => simp [mapSet]
  | cons p rest ih =>
    obtain ⟨k1, x⟩ := p
    by_cases h1 : k1 = k
    · simp [mapFind, h1] at h
    · simp [mapFind, h1] at h
      simp [mapSet, h1, ih h]

theorem mapSet_keys_of_some {β : Type} (m : List (Name × β)) (k : Name) (v : β)
    (h : (mapFind m k).isSome) : (mapSet m k v).map Prod.fst = m.map Prod.fst := by
  induction m with
  | nil => simp [mapFind] at h
  | cons p rest ih =>
    obtain ⟨k1, x⟩ := p
    by_cases h1 : k1 = k
    · simp [mapSet, h1]
    · simp [mapFind, h1] at h
      simp [mapSet, h1, ih h]

/-! ## The symbol table -/

theorem foldl_next_spec (off : Nat) (es : List ExportFun) (init : Nat) :
    es.foldl (fun next o => if o.offset > off ∧ o.offset < next then o.offset else next) init
        ≤ init ∧
      (∀ x ∈ es, x.offset > off →
        es.foldl (fun next o => if o.offset > off ∧ o.offset < next then o.offset else next) init
          ≤ x.offset) ∧
      (es.foldl (fun next o => if o.offset > off ∧ o.offset < next then o.offset else next) init
          = init ∨
        ∃ x ∈ es, x.offset > off ∧ x.offset < init ∧
          x.offset = es.foldl
            (fun next o => if o.offset > off ∧ o.offset < next then o.offset else next) init) := by
  induction es generalizing init with
  | nil => simp
  | cons e rest ih =>
    simp only [List.foldl_cons]
    by_cases h : e.offset > off ∧ e.offset < init
    · rw [if_pos h]
      obtain ⟨h1, h2, h3⟩ := ih e.offset
      refine ⟨by omega, ?_, ?_⟩
      · intro x hx hxo
        rcases List.mem_cons.mp hx with rfl | hx
        · exact h1
        · exact h2 x hx hxo
      · right
        rcases h3 with h3 | ⟨x, hx, hxo, hxi, hxe⟩
        · exact ⟨e, List.mem_cons_self _ _, h.1, h.2, h3.symm⟩
        · exact ⟨x, List.mem_cons_of_mem _ hx, hxo, by omega, hxe⟩
    · rw [if_neg h]
      obtain ⟨h1, h2, h3⟩ := ih init
      refine ⟨h1, ?_, ?_⟩
      · intro x hx hxo
        rcases List.mem_cons.mp hx with rfl | hx
        · omega
        · exact h2 x hx hxo
      · rcases h3 with h3 | ⟨x, hx, hxo, hxi, hxe⟩
        · exact Or.inl h3
        · exact Or.inr ⟨x, List.mem_cons_of_mem _ hx, hxo, hxi, hxe⟩

theorem nextOffset_le_codeSz (o : ObjFile) (e : ExportFun) :
    nextOffset o e ≤ o.fileHeader.codeSz :=
  (foldl_next_spec e.offset o.exports o.fileHeader.codeSz).1

theorem nextOffset_eq_bounded (o : ObjFile) (e : ExportFun) :
    nextOffset o e = boundedNextOffset o e := by
  obtain ⟨h1, h2, h3⟩ := foldl_next_spec e.offset o.exports o.fileHeader.codeSz
  unfold boundedNextOffset
  unfold nextOffset
  split
  · rename_i x hx
    rw [List.min?_eq_some_iff'] at hx
    obtain ⟨hmem, hmin⟩ := hx
    simp only [List.mem_filter, List.mem_map, decide_eq_true_eq] at hmem hmin
    obtain ⟨⟨y, hy, hyx⟩, hlt⟩ := hmem
    have hle := h2 y hy (by omega)
    rcases h3 with h3 | ⟨z, hz, hzo, hzi, hze⟩
    · omega
    · have := hmin z.offset ⟨⟨z, hz, rfl⟩, by omega, hzi⟩
      omega
  · rename_i hx
    rw [List.min?_eq_none_iff] at hx
    rcases h3 with h3 | ⟨z, hz, hzo, hzi, hze⟩
    · exact h3
    · exfalso
      have hm : z.offset ∈ List.filter (fun x => decide (e.offset < x ∧ x < o.fileHeader.codeSz))
          (List.map (fun x => x.offset) o.exports) := by
        simp only [List.mem_filter, List.mem_map, decide_eq_true_eq]
        exact ⟨⟨z, hz, rfl⟩, by omega, hzi⟩
      rw [hx] at hm
      simp at hm

theorem nextOffset_ge_offset (o : ObjFile) (e : ExportFun)
    (h : e.offset ≤ o.fileHeader.codeSz) : e.offset ≤ nextOffset o e := by
  obtain ⟨_, _, h3⟩ := foldl_next_spec e.offset o.exports o.fileHeader.codeSz
  unfold nextOffset
  rcases h3 with h3 | ⟨z, _, hzo, _, hze⟩
  · omega
  · omega

theorem bounded_eq_spec (o : ObjFile) (e : ExportFun) (h : OffsetsInCode o) :
    boundedNextOffset o e = specNextOffset o e := by
  rw [← nextOffset_eq_bounded]
  obtain ⟨h1, h2, h3⟩ := foldl_next_spec e.offset o.exports o.fileHeader.codeSz
  unfold specNextOffset
  unfold nextOffset
  split
  · rename_i x hx
    rw [List.min?_eq_some_iff'] at hx
    obtain ⟨hmem, hmin⟩ := hx
    simp only [List.mem_filter, List.mem_map, decide_eq_true_eq] at hmem hmin
    obtain ⟨⟨y, hy, hyx⟩, hlt⟩ := hmem
    have hle := h2 y hy (by omega)
    have hyc := h y hy
    rcases h3 with h3 | ⟨z, hz, hzo, hzi, hze⟩
    · omega
    · have := hmin z.offset ⟨⟨z, hz, rfl⟩, by omega⟩
      omega
  · rename_i hx
    rw [List.min?_eq_none_iff] at hx
    rcases h3 with h3 | ⟨z, hz, hzo, hzi, hze⟩
    · exact h3
    · exfalso
      have hm : z.offset ∈ List.filter (fun x => decide (e.offset < x))
          (List.map (fun x => x.offset) o.exports) := by
        simp only [List.mem_filter, List.mem_map, decide_eq_true_eq]
        exact ⟨⟨z, hz, rfl⟩, by omega⟩
      rw [hx] at hm
      simp at hm

theorem funInfoExports_find_of_not_mem (i : Nat) (o : ObjFile) (es : List ExportFun)
    (m : List (Name × FunInfo)) (n : Name) (h : n ∉ es.map (fun e => e.name)) :
    mapFind (funInfoExports i o es m) n = mapFind m n := by
  induction es generalizing m with
  | nil => rfl
  | cons e rest ih =>
    simp only [List.map_cons, List.mem_cons, not_or] at h
    simp only [funInfoExports]
    rw [ih _ h.2, mapFind_mapSet_ne _ _ _ _ (fun hh => h.1 hh.symm)]

theorem funInfoExports_find_of_mem (i : Nat) (o : ObjFile) (es : List ExportFun)
    (m : List (Name × FunInfo)) (e : ExportFun) (hnd : (es.map (fun e => e.name)).Nodup)
    (he : e ∈ es) : mapFind (funInfoExports i o es m) e.name = some (funInfoOf i o e) := by
  induction es generalizing m with
  | nil => simp at he
  | cons x rest ih =>
    simp only [List.map_cons, List.nodup_cons] at hnd
    simp only [funInfoExports]
    rcases List.mem_cons.mp he with rfl | he
    · rw [funInfoExports_find_of_not_mem _ _ _ _ _ hnd.1, mapFind_mapSet_same]
    · exact ih _ hnd.2 he

theorem funInfoExports_find_some (i : Nat) (o : ObjFile) (es : List ExportFun)
    (m : List (Name × FunInfo)) (n : Name) (fi : FunInfo)
    (h : mapFind (funInfoExports i o es m) n = some fi) :
    mapFind m n = some fi ∨ ∃ e ∈ es, e.name = n ∧ fi = funInfoOf i o e := by
  induction es generalizing m with
  | nil => exact Or.inl h
  | cons x rest ih =>
    simp only [funInfoExports] at h
    rcases ih _ h with h1 | ⟨e, he, hn, hfi⟩
    · rw [mapFind_mapSet] at h1
      split at h1
      · rename_i hx
        right
        exact ⟨x, List.mem_cons_self _ _, hx, by simpa using h1.symm⟩
      · exact Or.inl h1
    · exact Or.inr ⟨e, List.mem_cons_of_mem _ he, hn, hfi⟩

theorem exportNames_cons (o : ObjFile) (objs : List ObjFile) :
    exportNames (o :: objs) = o.exports.map (fun e => e.name) ++ exportNames objs := by
  simp [exportNames]

theorem exportNames_append (a b : List ObjFile) :
    exportNames (a ++ b) = exportNames a ++ exportNames b := by
  simp [exportNames]

theorem mem_exportNames (objs : List ObjFile) (n : Name) :
    n ∈ exportNames objs ↔ ∃ o ∈ objs, ∃ e ∈ o.exports, e.name = n := by
  simp [exportNames, List.mem_flatMap]

theorem funInfoFiles_find_of_not_mem (objs : List ObjFile) (i : Nat)
    (m : List (Name × FunInfo)) (n : Name) (h : n ∉ exportNames objs) :
    mapFind (funInfoFiles objs i m) n = mapFind m n := by
  induction objs generalizing i m with
  | nil => rfl
  | cons o rest ih =>
    rw [exportNames_cons, List.mem_append, not_or] at h
    simp only [funInfoFiles]
    rw [ih _ _ h.2, funInfoExports_find_of_not_mem _ _ _ _ _ h.1]

theorem funInfoFiles_find_of_mem (objs : List ObjFile) (i : Nat)
    (m : List (Name × FunInfo)) (j : Nat) (o : ObjFile) (e : ExportFun)
    (hnd : (exportNames objs).Nodup) (ho : objs[j]? = some o) (he : e ∈ o.exports) :
    mapFind (funInfoFiles objs i m) e.name = some (funInfoOf (i + j) o e) := by
  induction objs generalizing i m j with
  | nil => simp at ho
  | cons x rest ih =>
    rw [exportNames_cons, List.nodup_append] at hnd
    obtain ⟨hnd1, hnd2, hdis⟩ := hnd
    simp only [funInfoFiles]
    cases j with
    | zero =>
      simp only [List.getElem?_cons_zero, Option.some.injEq] at ho
      subst ho
      have hnot : e.name ∉ exportNames rest := by
        intro hmem
        exact hdis (List.mem_map_of_mem (fun e => e.name) he) hmem
      rw [funInfoFiles_find_of_not_mem _ _ _ _ hnot]
      exact funInfoExports_find_of_mem _ _ _ _ _ hnd1 he
    | succ j =>
      simp only [List.getElem?_cons_succ] at ho
      have := ih (i + 1) (funInfoExports i x x.exports m) j hnd2 ho
      rw [this]
      congr 2
      omega

theorem funInfoFiles_find_some (objs : List ObjFile) (i : Nat)
    (m : List (Name × FunInfo)) (n : Name) (fi : FunInfo)
    (h : mapFind (funInfoFiles objs i m) n = some fi) :
    mapFind m n = some fi ∨
      ∃ j o e, objs[j]? = some o ∧ e ∈ o.exports ∧ e.name = n ∧ fi = funInfoOf (i + j) o e := by
  induction objs generalizing i m with
  | nil => exact Or.inl h
  | cons x rest ih =>
    simp only [funInfoFiles] at h
    rcases ih _ _ h with h1 | ⟨j, o, e, ho, he, hn, hfi⟩
    · rcases funInfoExports_find_some _ _ _ _ _ _ h1 with h2 | ⟨e, he, hn, hfi⟩
      · exact Or.inl h2
      · exact Or.inr ⟨0, x, e, by simp, he, hn, by simpa using hfi⟩
    · refine Or.inr ⟨j + 1, o, e, by simpa using ho, he, hn, ?_⟩
      rw [hfi]
      congr 1
      omega

/-! ## What a successful `readFiles` leaves -/

theorem decodeU32_lt (bs : List Byte) : decodeU32 bs < 4294967296 := by
  unfold decodeU32
  split
  · rename_i b0 b1 b2 b3
    have h0 := b0.isLt
    have h1 := b1.isLt
    have h2 := b2.isLt
    have h3 := b3.isLt
    omega
  · omega

theorem readU32_lt (s s1 : IFStream) (v : Nat) (h : s.readU32 = some (v, s1)) :
    v < 4294967296 := by
  unfold IFStream.readU32 at h
  split at h
  · simp at h
  · simp only [Option.some.injEq, Prod.mk.injEq] at h
    rw [← h.1]
    exact decodeU32_lt _

theorem readExports_ok (k : Nat) (n : Nat) (s : IFStream) (exportDup : List (Name × Nat))
    (acc : List ExportFun) (s1 : IFStream) (exportDup1 : List (Name × Nat))
    (acc1 : List ExportFun) (h : readExports k n s exportDup acc = .ok (s1, exportDup1, acc1)) :
    ∃ new, acc1 = acc ++ new ∧ new.length = n ∧
      exportDup1.map Prod.fst = exportDup.map Prod.fst ++ new.map (fun e => e.name) ∧
      ((exportDup.map Prod.fst).Nodup → (exportDup1.map Prod.fst).Nodup) ∧
      ∀ e ∈ new, e.offset < 4294967296 := by
  induction n generalizing s exportDup acc with
  | zero =>
    simp only [readExports, Except.ok.injEq, Prod.mk.injEq] at h
    obtain ⟨_, h2, h3⟩ := h
    subst h2 h3
    exact ⟨[], by simp⟩
  | succ n ih =>
    simp only [readExports] at h
    split at h
    · simp at h
    · rename_i nameLen s2 _
      split at h
      · simp at h
      · rename_i name s3 _
        split at h
        · simp at h
        · rename_i offset s4 hoff
          split at h
          · simp at h
          · rename_i hfind
            obtain ⟨new, h1, h2, h3, h4, h5⟩ := ih _ _ _ h
            refine ⟨⟨name, offset⟩ :: new, by simp [h1], by simp [h2], ?_, ?_, ?_⟩
            · rw [h3, mapSet_of_none _ _ _ hfind]
              simp
            · intro hnd
              apply h4
              rw [mapSet_of_none _ _ _ hfind]
              rw [List.map_append, List.nodup_append]
              refine ⟨hnd, by simp, ?_⟩
              intro x hx hx2
              simp only [List.map_cons, List.map_nil, List.mem_singleton] at hx2
              subst hx2
              exact (mapFind_eq_none_iff _ _).mp hfind hx
            · intro e he
              rcases List.mem_cons.mp he with rfl | he
              · exact readU32_lt _ _ _ hoff
              · exact h5 e he

theorem readRefs_ok (n : Nat) (s : IFStream) (acc : List Nat) (s1 : IFStream)
    (acc1 : List Nat) (h : readRefs n s acc = .ok (s1, acc1)) :
    ∃ new, acc1 = acc ++ new ∧ new.length = n ∧ ∀ r ∈ new, r < 4294967296 := by
  induction n generalizing s acc with
  | zero =>
    simp only [readRefs, Except.ok.injEq, Prod.mk.injEq] at h
    exact ⟨[], by simp [h.2]⟩
  | succ n ih =>
    simp only [readRefs] at h
    split at h
    · simp at h
    · rename_i offset s2 hoff
      obtain ⟨new, h1, h2, h3⟩ := ih _ _ h
      refine ⟨offset :: new, by simp [h1], by simp [h2], ?_⟩
      intro r hr
      rcases List.mem_cons.mp hr with rfl | hr
      · exact readU32_lt _ _ _ hoff
      · exact h3 r hr

theorem readImports_ok (n : Nat) (s : IFStream) (acc : List ImportFun) (s1 : IFStream)
    (acc1 : List ImportFun) (h : readImports n s acc = .ok (s1, acc1)) :
    ∃ new, acc1 = acc ++ new ∧ new.length = n ∧
      ∀ i ∈ new, ∀ r ∈ i.references, r < 4294967296 := by
  induction n generalizing s acc with
  | zero =>
    simp only [readImports, Except.ok.injEq, Prod.mk.injEq] at h
    exact ⟨[], by simp [h.2]⟩
  | succ n ih =>
    simp only [readImports] at h
    split at h
    · simp at h
    · split at h
      · simp at h
      · rename_i name s3 _
        split at h
        · simp at h
        · split at h
          · simp at h
          · rename_i s5 references hrefs
            obtain ⟨new, h1, h2, h3⟩ := ih _ _ h
            obtain ⟨rs, hr1, _, hr3⟩ := readRefs_ok _ _ _ _ _ hrefs
            refine ⟨⟨name, references⟩ :: new, by simp [h1], by simp [h2], ?_⟩
            intro i hi
            rcases List.mem_cons.mp hi with rfl | hi
            · intro r hr
              simp only [List.nil_append] at hr1
              subst hr1
              exact hr3 r hr
            · exact h3 i hi

theorem readObjFile_ok (k : Nat) (s : IFStream) (exportDup : List (Name × Nat))
    (o : ObjFile) (exportDup1 : List (Name × Nat))
    (h : readObjFile k s exportDup = .ok (o, exportDup1)) :
    exportDup1.map Prod.fst = exportDup.map Prod.fst ++ o.exports.map (fun e => e.name) ∧
      ((exportDup.map Prod.fst).Nodup → (exportDup1.map Prod.fst).Nodup) ∧ o.Fits ∧
      o.fileHeader.expCnt = o.exports.length ∧ o.fileHeader.imCnt = o.imports.length := by
  simp only [readObjFile] at h
  split at h
  · simp at h
  · split at h
    · simp at h
    · split at h
      · simp at h
      · rename_i codeSz s3 hcode
        split at h
        · simp at h
        · rename_i s4 dup1 exports hexp
          split at h
          · simp at h
          · rename_i s5 imports himp
            simp only [Except.ok.injEq, Prod.mk.injEq] at h
            obtain ⟨ho, hd⟩ := h
            subst ho hd
            obtain ⟨new, h1, h2, h3, h4, h5⟩ := readExports_ok _ _ _ _ _ _ _ _ hexp
            obtain ⟨inew, i1, i2, i3⟩ := readImports_ok _ _ _ _ _ himp
            simp only [List.nil_append] at h1 i1
            subst h1 i1
            refine ⟨h3, h4, ⟨readU32_lt _ _ _ hcode, ?_, h5, i3⟩, h2.symm, i2.symm⟩
            exact Nat.mod_lt _ (by decide)

theorem readFilesLoop_ok (w : World) (files : List String) (k : Nat)
    (exportDup : List (Name × Nat)) (objs objs1 : List ObjFile)
    (h : readFilesLoop w files k exportDup objs = (.ok (), objs1))
    (hkeys : exportDup.map Prod.fst = exportNames objs)
    (hnd : (exportNames objs).Nodup) (hfits : ∀ o ∈ objs, o.Fits)
    (hlen : objs.length = k) :
    (exportNames objs1).Nodup ∧ (∀ o ∈ objs1, o.Fits) ∧
      objs1.length = k + files.length := by
  induction files generalizing k exportDup objs with
  | nil =>
    simp only [readFilesLoop, Prod.mk.injEq, true_and] at h
    subst h
    exact ⟨hnd, hfits, by simpa using hlen⟩
  | cons f rest ih =>
    simp only [readFilesLoop] at h
    split at h
    · simp at h
    · split at h
      · simp at h
      · rename_i o dup1 hobj
        obtain ⟨h1, h2, h3, _⟩ := readObjFile_ok _ _ _ _ _ hobj
        have := ih (k + 1) dup1 (objs ++ [o]) h
          (by rw [h1, hkeys, exportNames_append]; simp [exportNames])
          (by
            have := h2 (hkeys ▸ hnd)
            rw [h1, hkeys] at this
            rw [exportNames_append]
            simpa [exportNames] using this)
          (by
            intro x hx
            rcases List.mem_append.mp hx with hx | hx
            · exact hfits x hx
            · simp only [List.mem_singleton] at hx
              subst hx
              exact h3)
          (by simp [hlen])
        refine ⟨this.1, this.2.1, ?_⟩
        rw [this.2.2]
        simp only [List.length_cons]
        omega

theorem readFiles_ok (w : World) (self self1 : CLinker)
    (h : self.readFiles w = (.ok (), self1)) :
    self1.m_Files = self.m_Files ∧ self1.m_FunctionInfoMap = [] ∧
      (exportNames self1.m_ObjFiles).Nodup ∧ (∀ o ∈ self1.m_ObjFiles, o.Fits) ∧
      self1.m_ObjFiles.length = self.m_Files.length := by
  simp only [CLinker.readFiles, Prod.mk.injEq] at h
  obtain ⟨h1, h2⟩ := h
  subst h2
  have := readFilesLoop_ok w self.m_Files 0 [] [] _
    (Prod.ext h1 rfl) (by simp [exportNames]) (by simp [exportNames]) (by simp) rfl
  refine ⟨rfl, rfl, this.1, this.2.1, ?_⟩
  simpa using this.2.2

/-! ## Sizes -/

theorem funInfoOf_size (i : Nat) (o : ObjFile) (e : ExportFun)
    (hc : o.fileHeader.codeSz < 4294967296) (he : e.offset ≤ o.fileHeader.codeSz) :
    e.offset + (funInfoOf i o e).size = nextOffset o e := by
  have h1 := nextOffset_le_codeSz o e
  have h2 := nextOffset_ge_offset o e he
  simp only [funInfoOf, subU32]
  omega

/-- C4 (as amended): for every object file that `readFiles` parsed and every
export of it, the size the symbol table records is the distance, in unsigned
32-bit arithmetic, from the export to the smallest export offset of the file
that is strictly greater and strictly below `codeSz`, or to `codeSz` when there
is none. -/
theorem C4_recorded_size (w : World) (self self1 : CLinker)
    (h : self.readFiles w = (.ok (), self1)) (i : Nat) (o : ObjFile) (e : ExportFun)
    (ho : self1.m_ObjFiles[i]? = some o) (he : e ∈ o.exports) :
    ∃ fi, mapFind self1.FunInfoMap.m_FunctionInfoMap e.name = some fi ∧
      fi.size = subU32 (boundedNextOffset o e) e.offset := by
  obtain ⟨_, _, hnd, _, _⟩ := readFiles_ok w self self1 h
  refine ⟨funInfoOf (0 + i) o e, ?_, ?_⟩
  · exact funInfoFiles_find_of_mem _ 0 [] i o e hnd ho he
  · simp only [funInfoOf]
    rw [nextOffset_eq_bounded]

theorem C4_recorded_size_witness :
    ∃ fi, mapFind (CLinker.readFiles worldBeyond ⟨["x.o"], [], []⟩).2.FunInfoMap.m_FunctionInfoMap
        (str "a") = some fi ∧
      fi.size = subU32 (boundedNextOffset objBeyond ⟨str "a", 0⟩) 0 :=
  C4_recorded_size worldBeyond ⟨["x.o"], [], []⟩
    (CLinker.readFiles worldBeyond ⟨["x.o"], [], []⟩).2 (by rfl) 0 objBeyond
    ⟨str "a", 0⟩ (by decide) (by decide)

/-- C4 fails as stated: `x.o` parses to `objBeyond`, the size recorded for its
export `a` is 4, and the distance to the smallest greater export offset is 10. -/
theorem C4_counterexample :
    CLinker.readFiles worldBeyond ⟨["x.o"], [], []⟩
        = (.ok (), ⟨["x.o"], [objBeyond], []⟩) ∧
      (⟨str "a", 0⟩ : ExportFun) ∈ objBeyond.exports ∧
      (mapFind (CLinker.FunInfoMap ⟨["x.o"], [objBeyond], []⟩).m_FunctionInfoMap (str "a")).map
        (fun fi => fi.size) = some 4 ∧
      subU32 (specNextOffset objBeyond ⟨str "a", 0⟩) 0 = 10 :=
  ⟨by rfl, by decide, by decide, by decide⟩

theorem recorded_size_no_wrap (self : CLinker)
    (hfit : ∀ o ∈ self.m_ObjFiles, o.fileHeader.codeSz < 4294967296)
    (hin : ∀ o ∈ self.m_ObjFiles, OffsetsInCode o) (n : Name) (fi : FunInfo)
    (h : mapFind self.FunInfoMap.m_FunctionInfoMap n = some fi) :
    ∃ o e, self.m_ObjFiles[fi.fileIdx]? = some o ∧ e ∈ o.exports ∧ e.name = n ∧
      fi.offset = e.offset ∧ e.offset + fi.size = nextOffset o e ∧
      e.offset + fi.size ≤ o.fileHeader.codeSz := by
  rcases funInfoFiles_find_some _ 0 [] n fi h with h1 | ⟨j, o, e, ho, he, hn, hfi⟩
  · simp [mapFind] at h1
  · have hmem : o ∈ self.m_ObjFiles := List.mem_iff_getElem?.mpr ⟨j, ho⟩
    have hsz := funInfoOf_size (0 + j) o e (hfit o hmem) (hin o hmem e he)
    subst hfi
    refine ⟨o, e, by simpa [funInfoOf] using ho, he, hn, rfl, hsz, ?_⟩
    rw [hsz]
    exact nextOffset_le_codeSz o e

/-- C5: when every export offset of every object file is at most the `codeSz`
of its file, the subtraction of `FunInfoMap` does not wrap: for every export `e`
the size computed for it satisfies `e.offset + size = nextOffset`, which is at
most `codeSz`; and every entry of the symbol table is the entry of such an
export of the file it names. -/
theorem C5_size_no_wrap (self : CLinker)
    (hfit : ∀ o ∈ self.m_ObjFiles, o.fileHeader.codeSz < 4294967296)
    (hin : ∀ o ∈ self.m_ObjFiles, OffsetsInCode o) :
    (∀ (i : Nat) (o : ObjFile) (e : ExportFun), self.m_ObjFiles[i]? = some o → e ∈ o.exports →
        e.offset + (funInfoOf i o e).size = nextOffset o e ∧
        e.offset + (funInfoOf i o e).size ≤ o.fileHeader.codeSz) ∧
      ∀ n fi, mapFind self.FunInfoMap.m_FunctionInfoMap n = some fi →
        ∃ o e, self.m_ObjFiles[fi.fileIdx]? = some o ∧ e ∈ o.exports ∧ e.name = n ∧
          fi.offset = e.offset ∧ e.offset + fi.size = nextOffset o e ∧
          e.offset + fi.size ≤ o.fileHeader.codeSz := by
  refine ⟨?_, fun n fi h => recorded_size_no_wrap self hfit hin n fi h⟩
  intro i o e ho he
  have hmem : o ∈ self.m_ObjFiles := List.mem_iff_getElem?.mpr ⟨i, ho⟩
  have hsz := funInfoOf_size i o e (hfit o hmem) (hin o hmem e he)
  refine ⟨hsz, ?_⟩
  rw [hsz]
  exact nextOffset_le_codeSz o e

theorem C5_size_no_wrap_witness :
    (∀ (i : Nat) (o : ObjFile) (e : ExportFun),
        (⟨[], [objLib], []⟩ : CLinker).m_ObjFiles[i]? = some o → e ∈ o.exports →
        e.offset + (funInfoOf i o e).size = nextOffset o e ∧
        e.offset + (funInfoOf i o e).size ≤ o.fileHeader.codeSz) ∧
      ∀ n fi, mapFind (CLinker.FunInfoMap ⟨[], [objLib], []⟩).m_FunctionInfoMap n = some fi →
        ∃ o e, (⟨[], [objLib], []⟩ : CLinker).m_ObjFiles[fi.fileIdx]? = some o ∧
          e ∈ o.exports ∧ e.name = n ∧
          fi.offset = e.offset ∧ e.offset + fi.size = nextOffset o e ∧
          e.offset + fi.size ≤ o.fileHeader.codeSz :=
  C5_size_no_wrap ⟨[], [objLib], []⟩ (by decide) (by decide)

/-! ## Reachability -/

theorem unvisited_cons (p : Name × FunInfo) (rest : List (Name × FunInfo))
    (visited : List Name) :
    unvisited (p :: rest) visited
      = (if p.1 ∈ visited then 0 else 1) + unvisited rest visited := by
  unfold unvisited
  by_cases h : p.1 ∈ visited
  · simp [List.filter_cons, h]
  · simp [List.filter_cons, h]
    omega

theorem unvisited_snoc_le (m : List (Name × FunInfo)) (visited : List Name) (n : Name) :
    unvisited m (visited ++ [n]) ≤ unvisited m visited := by
  induction m with
  | nil => simp [unvisited]
  | cons p rest ih =>
    rw [unvisited_cons, unvisited_cons]
    by_cases h1 : p.1 ∈ visited
    · have : p.1 ∈ visited ++ [n] := List.mem_append_left _ h1
      simp only [h1, this, if_true]
      omega
    · simp only [h1, if_false]
      split <;> omega

theorem unvisited_snoc_lt (m : List (Name × FunInfo)) (visited : List Name) (n : Name)
    (hkey : (mapFind m n).isSome) (hnot : n ∉ visited) :
    unvisited m (visited ++ [n]) + 1 ≤ unvisited m visited := by
  induction m with
  | nil => simp [mapFind] at hkey
  | cons p rest ih =>
    obtain ⟨k, v⟩ := p
    rw [unvisited_cons, unvisited_cons]
    by_cases hk : k = n
    · subst hk
      have := unvisited_snoc_le rest visited k
      have h2 : k ∈ visited ++ [k] := by simp
      simp only [hnot, h2, if_true, if_false]
      omega
    · simp only [mapFind, hk, if_false] at hkey
      have := ih hkey
      by_cases h1 : k ∈ visited
      · have h2 : k ∈ visited ++ [n] := List.mem_append_left _ h1
        simp only [h1, h2, if_true]
        omega
      · have h2 : k ∉ visited ++ [n] := by
          simp [h1, hk]
        simp only [h1, h2, if_false]
        omega

theorem bfsImports_ok (m : List (Name × FunInfo)) (fi : FunInfo) (imports : List ImportFun)
    (visited q v1 q1 : List Name)
    (h : bfsImports m fi imports visited q = .ok (v1, q1)) :
    ∃ new, v1 = visited ++ new ∧ q1 = q ++ new ∧ new.Nodup ∧ (∀ n ∈ new, n ∉ visited) ∧
      (∀ n ∈ new, (mapFind m n).isSome ∧
        ∃ imp ∈ imports, imp.name = n ∧ imp.references.any (inRange fi) = true) ∧
      (∀ imp ∈ imports, imp.references.any (inRange fi) = true →
        imp.name ∈ v1 ∧ (mapFind m imp.name).isSome) ∧
      unvisited m v1 + q1.length ≤ unvisited m visited + q.length := by
  induction imports generalizing visited q with
  | nil =>
    simp only [bfsImports, Except.ok.injEq, Prod.mk.injEq] at h
    obtain ⟨h1, h2⟩ := h
    subst h1 h2
    exact ⟨[], by simp⟩
  | cons imp rest ih =>
    simp only [bfsImports] at h
    split at h
    · rename_i hused
      split at h
      · simp at h
      · rename_i x hfind
        split at h
        · rename_i hvis
          obtain ⟨new, e1, e2, e3, e4, e5, e6, e7⟩ := ih _ _ h
          refine ⟨new, e1, e2, e3, e4, ?_, ?_, e7⟩
          · intro n hn
            obtain ⟨a, i, hi, b⟩ := e5 n hn
            exact ⟨a, i, List.mem_cons_of_mem _ hi, b⟩
          · intro i hi hu
            rcases List.mem_cons.mp hi with rfl | hi
            · refine ⟨?_, by simp [hfind]⟩
              rw [e1]
              exact List.mem_append_left _ hvis
            · exact e6 i hi hu
        · rename_i hvis
          obtain ⟨new, e1, e2, e3, e4, e5, e6, e7⟩ := ih _ _ h
          refine ⟨imp.name :: new, by simp [e1], by simp [e2], ?_, ?_, ?_, ?_, ?_⟩
          · rw [List.nodup_cons]
            refine ⟨?_, e3⟩
            intro hmem
            exact e4 _ hmem (by simp)
          · intro n hn
            rcases List.mem_cons.mp hn with rfl | hn
            · exact hvis
            · intro hv
              exact e4 n hn (List.mem_append_left _ hv)
          · intro n hn
            rcases List.mem_cons.mp hn with rfl | hn
            · exact ⟨by simp [hfind], imp, List.mem_cons_self _ _, rfl, hused⟩
            · obtain ⟨a, i, hi, b⟩ := e5 n hn
              exact ⟨a, i, List.mem_cons_of_mem _ hi, b⟩
          · intro i hi hu
            rcases List.mem_cons.mp hi with rfl | hi
            · refine ⟨?_, by simp [hfind]⟩
              rw [e1]
              simp
            · exact e6 i hi hu
          · have := unvisited_snoc_lt m visited imp.name (by simp [hfind]) hvis
            simp only [List.length_append, List.length_singleton] at e7
            omega
    · rename_i hused
      obtain ⟨new, e1, e2, e3, e4, e5, e6, e7⟩ := ih _ _ h
      refine ⟨new, e1, e2, e3, e4, ?_, ?_, e7⟩
      · intro n hn
        obtain ⟨a, i, hi, b⟩ := e5 n hn
        exact ⟨a, i, List.mem_cons_of_mem _ hi, b⟩
      · intro i hi hu
        rcases List.mem_cons.mp hi with rfl | hi
        · exact absurd hu hused
        · exact e6 i hi hu

theorem bfsImports_error (m : List (Name × FunInfo)) (fi : FunInfo)
    (imports : List ImportFun) (visited q : List Name) (e : Failure)
    (h : bfsImports m fi imports visited q = .error e) :
    ∃ pre imp post, imports = pre ++ imp :: post ∧
      imp.references.any (inRange fi) = true ∧ mapFind m imp.name = none ∧
      e = .runtime_error (msgUndefined imp.name) ∧
      ∀ i ∈ pre, i.references.any (inRange fi) = true → (mapFind m i.name).isSome := by
  induction imports generalizing visited q with
  | nil => simp [bfsImports] at h
  | cons imp rest ih =>
    simp only [bfsImports] at h
    split at h
    · rename_i hused
      split at h
      · rename_i hfind
        simp only [Except.error.injEq] at h
        exact ⟨[], imp, rest, rfl, hused, hfind, h.symm, by simp⟩
      · rename_i x hfind
        have hstep : ∀ v q, bfsImports m fi rest v q = .error e →
            ∃ pre imp2 post, imp :: rest = pre ++ imp2 :: post ∧
              imp2.references.any (inRange fi) = true ∧ mapFind m imp2.name = none ∧
              e = .runtime_error (msgUndefined imp2.name) ∧
              ∀ i ∈ pre, i.references.any (inRange fi) = true →
                (mapFind m i.name).isSome := by
          intro v q hh
          obtain ⟨pre, i, post, h1, h2, h3, h4, h5⟩ := ih _ _ hh
          refine ⟨imp :: pre, i, post, by simp [h1], h2, h3, h4, ?_⟩
          intro j hj hu
          rcases List.mem_cons.mp hj with rfl | hj
          · simp [hfind]
          · exact h5 j hj hu
        split at h
        · exact hstep _ _ h
        · exact hstep _ _ h
    · rename_i hused
      obtain ⟨pre, i, post, h1, h2, h3, h4, h5⟩ := ih _ _ h
      refine ⟨imp :: pre, i, post, by simp [h1], h2, h3, h4, ?_⟩
      intro j hj hu
      rcases List.mem_cons.mp hj with rfl | hj
      · exact absurd hu hused
      · exact h5 j hj hu

theorem reach_closed (self : CLinker) (entryPoint : Name) (needed : List Name)
    (hentry : entryPoint ∈ needed)
    (hclosed : ∀ a ∈ needed, ∀ b, Uses self a b → b ∈ needed) (n : Name)
    (h : Relation.ReflTransGen (Uses self) entryPoint n) : n ∈ needed := by
  induction h with
  | refl => exact hentry
  | tail _ hstep ih => exact hclosed _ ih _ hstep

theorem firstUnresolved_uses (self : CLinker) (a b : Name)
    (h : FirstUnresolved self a b) :
    Uses self a b ∧ mapFind self.m_FunctionInfoMap b = none := by
  obtain ⟨fi, obj, pre, imp, post, h1, h2, h3, h4, h5, h6, _⟩ := h
  exact ⟨⟨fi, obj, h1, h2, imp, by simp [h3], h4, h5⟩, h6⟩

theorem bfsLoop_done (self : CLinker) (entryPoint : Name) (visited needed : List Name)
    (hinv : BfsInv self entryPoint visited [] needed) :
    (∀ n, n ∈ needed ↔ Relation.ReflTransGen (Uses self) entryPoint n) ∧ needed.Nodup ∧
      (∀ a ∈ needed, ∀ b, Uses self a b → (mapFind self.m_FunctionInfoMap b).isSome) := by
  have hv : ∀ x, x ∈ visited ↔ x ∈ needed := by
    intro x
    simpa using hinv.mem_iff x
  refine ⟨?_, by simpa using hinv.nodup, ?_⟩
  · intro n
    constructor
    · intro hn
      exact hinv.reach n ((hv n).mpr hn)
    · intro hr
      exact reach_closed self entryPoint needed ((hv _).mp hinv.entry_mem)
        (fun a ha b hab => (hv b).mp (hinv.closed a ha b hab)) n hr
  · intro a ha b hab
    exact hinv.defined b (hinv.closed a ha b hab)

theorem bfsLoop_spec (self : CLinker) (entryPoint : Name)
    (hidx : ∀ n fi, mapFind self.m_FunctionInfoMap n = some fi →
      fi.fileIdx < self.m_ObjFiles.length)
    (fuel : Nat) (visited q needed : List Name)
    (hinv : BfsInv self entryPoint visited q needed)
    (hfuel : unvisited self.m_FunctionInfoMap visited + q.length ≤ fuel) :
    (∃ res, bfsLoop self fuel visited q needed = (.ok (), res) ∧
        (∀ n, n ∈ res ↔ Relation.ReflTransGen (Uses self) entryPoint n) ∧ res.Nodup ∧
        (∃ rest, res = needed ++ q ++ rest) ∧
        (∀ a ∈ res, ∀ b, Uses self a b → (mapFind self.m_FunctionInfoMap b).isSome)) ∨
      (∃ done a b, bfsLoop self fuel visited q needed
            = (.error (.runtime_error (msgUndefined b)), done ++ [a]) ∧
        (∃ rest, done ++ [a] = needed ++ rest) ∧ (done ++ [a]).Nodup ∧
        (∀ x ∈ done ++ [a], Relation.ReflTransGen (Uses self) entryPoint x) ∧
        (∀ x ∈ done, ∀ y, Uses self x y → (mapFind self.m_FunctionInfoMap y).isSome) ∧
        FirstUnresolved self a b) := by
  induction fuel generalizing visited q needed with
  | zero =>
    cases q with
    | nil =>
      left
      obtain ⟨h1, h2, h3⟩ := bfsLoop_done self entryPoint visited needed hinv
      exact ⟨needed, by simp [bfsLoop], h1, h2, ⟨[], by simp⟩, h3⟩
    | cons c q => simp at hfuel
  | succ fuel ih =>
    cases q with
    | nil =>
      left
      obtain ⟨h1, h2, h3⟩ := bfsLoop_done self entryPoint visited needed hinv
      exact ⟨needed, by simp [bfsLoop], h1, h2, ⟨[], by simp⟩, h3⟩
    | cons c q =>
      have hcv : c ∈ visited := (hinv.mem_iff c).mpr (Or.inr (List.mem_cons_self _ _))
      have hdef := hinv.defined c hcv
      obtain ⟨fi, hfi⟩ := Option.isSome_iff_exists.mp hdef
      have hlt := hidx c fi hfi
      obtain ⟨obj, hobj⟩ : ∃ obj, self.m_ObjFiles[fi.fileIdx]? = some obj :=
        ⟨self.m_ObjFiles[fi.fileIdx], List.getElem?_eq_getElem hlt⟩
      simp only [bfsLoop, hfi, hobj]
      have hnd := hinv.nodup
      cases himp : bfsImports self.m_FunctionInfoMap fi obj.imports visited q with
      | error e =>
        right
        obtain ⟨pre, imp, post, hi, hu, hnone, he, hpre⟩ := bfsImports_error _ _ _ _ _ _ himp
        refine ⟨needed, c, imp.name, by simp [he], ⟨[c], rfl⟩, ?_, ?_, ?_, ?_⟩
        · have : needed ++ c :: q = (needed ++ [c]) ++ q := by simp
          rw [this] at hnd
          exact (List.nodup_append.mp hnd).1
        · intro x hx
          apply hinv.reach x
          rw [hinv.mem_iff]
          rcases List.mem_append.mp hx with hx | hx
          · exact Or.inl hx
          · simp only [List.mem_singleton] at hx
            subst hx
            exact Or.inr (List.mem_cons_self _ _)
        · intro x hx y hxy
          exact hinv.defined y (hinv.closed x hx y hxy)
        · exact ⟨fi, obj, pre, imp, post, hfi, hobj, hi, rfl, hu, hnone, hpre⟩
      | ok r =>
        obtain ⟨v1, q1⟩ := r
        obtain ⟨new, e1, e2, e3, e4, e5, e6, e7⟩ := bfsImports_ok _ _ _ _ _ _ _ himp
        have hinv1 : BfsInv self entryPoint v1 q1 (needed ++ [c]) := by
          constructor
          · intro n
            rw [e1, e2]
            have := hinv.mem_iff n
            simp only [List.mem_append, List.mem_cons, List.mem_singleton] at this ⊢
            rw [this]
            tauto
          · rw [e1]
            exact List.mem_append_left _ hinv.entry_mem
          · intro n hn
            rw [e1] at hn
            rcases List.mem_append.mp hn with hn | hn
            · exact hinv.reach n hn
            · obtain ⟨_, imp, hi, hname, hu⟩ := e5 n hn
              exact (hinv.reach c hcv).tail ⟨fi, obj, hfi, hobj, imp, hi, hname, hu⟩
          · intro a ha b hab
            rcases List.mem_append.mp ha with ha | ha
            · rw [e1]
              exact List.mem_append_left _ (hinv.closed a ha b hab)
            · simp only [List.mem_singleton] at ha
              subst ha
              obtain ⟨fi2, obj2, hfi2, hobj2, imp, hi, hname, hu⟩ := hab
              rw [hfi] at hfi2
              cases hfi2
              rw [hobj] at hobj2
              cases hobj2
              rw [← hname]
              exact (e6 imp hi hu).1
          · rw [e2]
            have hdis : ∀ n ∈ new, n ∉ needed ++ c :: q := by
              intro n hn hmem
              apply e4 n hn
              rw [hinv.mem_iff]
              simpa using hmem
            have : (needed ++ [c]) ++ (q ++ new) = (needed ++ c :: q) ++ new := by simp
            rw [this, List.nodup_append]
            refine ⟨hnd, e3, ?_⟩
            intro x hx hx2
            exact hdis x hx2 hx
          · intro n hn
            rw [e1] at hn
            rcases List.mem_append.mp hn with hn | hn
            · exact hinv.defined n hn
            · exact (e5 n hn).1
        have hfuel1 : unvisited self.m_FunctionInfoMap v1 + q1.length ≤ fuel := by
          simp only [List.length_cons] at hfuel
          omega
        rcases ih v1 q1 (needed ++ [c]) hinv1 hfuel1 with
          ⟨res, hres, h1, h2, ⟨rest, h3⟩, h4⟩ | ⟨done, a, b, hres, ⟨rest, h1⟩, h2, h3, h4, h5⟩
        · left
          refine ⟨res, hres, h1, h2, ⟨new ++ rest, ?_⟩, h4⟩
          rw [h3, e2]
          simp
        · right
          refine ⟨done, a, b, hres, ⟨[c] ++ rest, ?_⟩, h2, h3, h4, h5⟩
          rw [h1]
          simp

theorem bfs_spec (self : CLinker) (entryPoint : Name)
    (hidx : ∀ n fi, mapFind self.m_FunctionInfoMap n = some fi →
      fi.fileIdx < self.m_ObjFiles.length)
    (hentry : (mapFind self.m_FunctionInfoMap entryPoint).isSome) :
    (∃ rest, self.bfs entryPoint [] = (.ok (), entryPoint :: rest) ∧
        (∀ n, n ∈ entryPoint :: rest ↔ Relation.ReflTransGen (Uses self) entryPoint n) ∧
        (entryPoint :: rest).Nodup ∧
        (∀ a ∈ entryPoint :: rest, ∀ b, Uses self a b →
          (mapFind self.m_FunctionInfoMap b).isSome)) ∨
      (∃ done a b, self.bfs entryPoint []
            = (.error (.runtime_error (msgUndefined b)), done ++ [a]) ∧
        (done ++ [a]).Nodup ∧
        (∀ x ∈ done ++ [a], Relation.ReflTransGen (Uses self) entryPoint x) ∧
        (∀ x ∈ done, ∀ y, Uses self x y → (mapFind self.m_FunctionInfoMap y).isSome) ∧
        FirstUnresolved self a b) := by
  obtain ⟨fi, hfi⟩ := Option.isSome_iff_exists.mp hentry
  have hinv : BfsInv self entryPoint [entryPoint] [entryPoint] [] := by
    constructor
    · intro n
      simp
    · simp
    · intro n hn
      simp only [List.mem_singleton] at hn
      subst hn
      exact Relation.ReflTransGen.refl
    · intro a ha
      simp at ha
    · simp
    · intro n hn
      simp only [List.mem_singleton] at hn
      subst hn
      exact hentry
  have hfuel : unvisited self.m_FunctionInfoMap [entryPoint] + [entryPoint].length
      ≤ self.m_FunctionInfoMap.length := by
    have h1 := unvisited_snoc_lt self.m_FunctionInfoMap [] entryPoint hentry (by simp)
    have h2 : unvisited self.m_FunctionInfoMap [] = self.m_FunctionInfoMap.length := by
      simp [unvisited]
    simp only [List.nil_append] at h1
    simp only [List.length_singleton]
    omega
  have hb : self.bfs entryPoint []
      = bfsLoop self self.m_FunctionInfoMap.length [entryPoint] [entryPoint] [] := by
    simp [CLinker.bfs, hfi]
  rw [hb]
  rcases bfsLoop_spec self entryPoint hidx _ _ _ _ hinv hfuel with
    ⟨res, hres, h1, h2, ⟨rest, h3⟩, h4⟩ | ⟨done, a, b, hres, _, h2, h3, h4, h5⟩
  · left
    simp only [List.nil_append, List.singleton_append] at h3
    subst h3
    exact ⟨rest, hres, h1, h2, h4⟩
  · right
    exact ⟨done, a, b, hres, h2, h3, h4, h5⟩

/-! ## The symbol table of a run -/

theorem FunInfoMap_entry (self : CLinker) (n : Name) (fi : FunInfo)
    (h : mapFind self.FunInfoMap.m_FunctionInfoMap n = some fi) :
    ∃ o e, self.m_ObjFiles[fi.fileIdx]? = some o ∧ e ∈ o.exports ∧ e.name = n ∧
      fi = funInfoOf fi.fileIdx o e := by
  rcases funInfoFiles_find_some _ 0 [] n fi h with h1 | ⟨j, o, e, ho, he, hn, hfi⟩
  · simp [mapFind] at h1
  · subst hfi
    exact ⟨o, e, by simpa [funInfoOf] using ho, he, hn, by simp [funInfoOf]⟩

theorem FunInfoMap_fileIdx (self : CLinker) (n : Name) (fi : FunInfo)
    (h : mapFind self.FunInfoMap.m_FunctionInfoMap n = some fi) :
    fi.fileIdx < self.FunInfoMap.m_ObjFiles.length := by
  obtain ⟨o, e, ho, _⟩ := FunInfoMap_entry self n fi h
  have := List.getElem?_eq_some.mp ho
  exact this.1

theorem FunInfoMap_isSome_iff (self : CLinker) (n : Name) :
    (mapFind self.FunInfoMap.m_FunctionInfoMap n).isSome ↔ n ∈ exportNames self.m_ObjFiles := by
  constructor
  · intro h
    obtain ⟨fi, hfi⟩ := Option.isSome_iff_exists.mp h
    obtain ⟨o, e, ho, he, hn, _⟩ := FunInfoMap_entry self n fi hfi
    rw [mem_exportNames]
    exact ⟨o, List.mem_iff_getElem?.mpr ⟨_, ho⟩, e, he, hn⟩
  · intro h
    by_contra hnone
    rw [mem_exportNames] at h
    obtain ⟨o, ho, e, he, hn⟩ := h
    -- the later of the entries with this name is the one found
    have key : ∀ (objs : List ObjFile) (i : Nat) (m : List (Name × FunInfo)),
        ((mapFind m n).isSome ∨ n ∈ exportNames objs) →
        (mapFind (funInfoFiles objs i m) n).isSome := by
      intro objs
      induction objs with
      | nil =>
        intro i m hm
        rcases hm with hm | hm
        · exact hm
        · simp [exportNames] at hm
      | cons x rest ih =>
        intro i m hm
        simp only [funInfoFiles]
        apply ih
        by_cases hr : n ∈ exportNames rest
        · exact Or.inr hr
        · left
          have key2 : ∀ (es : List ExportFun) (m : List (Name × FunInfo)),
              ((mapFind m n).isSome ∨ n ∈ es.map (fun e => e.name)) →
              (mapFind (funInfoExports i x es m) n).isSome := by
            intro es
            induction es with
            | nil =>
              intro m hm
              rcases hm with hm | hm
              · exact hm
              · simp at hm
            | cons y ys ih2 =>
              intro m hm
              simp only [funInfoExports]
              apply ih2
              by_cases hy : y.name = n
              · left
                rw [mapFind_mapSet, if_pos hy]
                rfl
              · rcases hm with hm | hm
                · left
                  rw [mapFind_mapSet, if_neg hy]
                  exact hm
                · right
                  simp only [List.map_cons, List.mem_cons] at hm
                  rcases hm with hm | hm
                  · exact absurd hm.symm hy
                  · exact hm
          apply key2
          rcases hm with hm | hm
          · exact Or.inl hm
          · rw [exportNames_cons, List.mem_append] at hm
            rcases hm with hm | hm
            · exact Or.inr hm
            · exact absurd hm hr
    apply hnone
    apply key
    right
    rw [mem_exportNames]
    exact ⟨o, ho, e, he, hn⟩

theorem entry_no_wrap (self : CLinker) (hfit : ∀ o ∈ self.m_ObjFiles, o.Fits)
    (hin : ∀ o ∈ self.m_ObjFiles, OffsetsInCode o) (n : Name) (fi : FunInfo)
    (h : mapFind self.FunInfoMap.m_FunctionInfoMap n = some fi) :
    fi.offset + fi.size < 4294967296 := by
  obtain ⟨o, e, ho, _, _, hoff, _, hle⟩ :=
    recorded_size_no_wrap self (fun o ho => (hfit o ho).1) hin n fi h
  have := (hfit o (List.mem_iff_getElem?.mpr ⟨_, ho⟩)).1
  omega

theorem inRange_iff (fi : FunInfo) (r : Nat) (h : fi.offset + fi.size < 4294967296) :
    inRange fi r = true ↔ fi.offset ≤ r ∧ r < fi.offset + fi.size := by
  simp only [inRange, addU32, decide_eq_true_eq, ge_iff_le]
  rw [Nat.mod_eq_of_lt h]

theorem uses_iff_calls (self : CLinker)
    (h : ∀ n fi, mapFind self.m_FunctionInfoMap n = some fi →
      fi.offset + fi.size < 4294967296) (a b : Name) :
    Uses self a b ↔ Calls self a b := by
  constructor
  · rintro ⟨fi, obj, hfi, hobj, imp, hi, hn, hu⟩
    rw [List.any_eq_true] at hu
    obtain ⟨r, hr, hin⟩ := hu
    exact ⟨fi, obj, hfi, hobj, imp, hi, hn, r, hr, (inRange_iff fi r (h a fi hfi)).mp hin⟩
  · rintro ⟨fi, obj, hfi, hobj, imp, hi, hn, r, hr, hin⟩
    refine ⟨fi, obj, hfi, hobj, imp, hi, hn, ?_⟩
    rw [List.any_eq_true]
    exact ⟨r, hr, (inRange_iff fi r (h a fi hfi)).mpr hin⟩

theorem reach_uses_iff_calls (self : CLinker)
    (h : ∀ n fi, mapFind self.m_FunctionInfoMap n = some fi →
      fi.offset + fi.size < 4294967296) (a b : Name) :
    Relation.ReflTransGen (Uses self) a b ↔ Reachable self a b := by
  have : Uses self = Calls self := by
    funext x y
    exact propext (uses_iff_calls self h x y)
  unfold Reachable
  rw [this]

/-! ## The sort -/

theorem sortTail_some (needed order : List Name) (h : sortTail needed = some order) :
    ∃ entry rest, needed = entry :: rest ∧
      order = entry :: rest.insertionSort (fun a b => a ≤ b) := by
  cases needed with
  | nil => simp [sortTail] at h
  | cons e rest =>
    simp only [sortTail, Option.some.injEq] at h
    exact ⟨e, rest, rfl, h.symm⟩

theorem sortTail_mem (needed order : List Name) (h : sortTail needed = some order)
    (n : Name) : n ∈ order ↔ n ∈ needed := by
  obtain ⟨e, rest, h1, h2⟩ := sortTail_some needed order h
  subst h1 h2
  simp [List.mem_insertionSort]

/-! ## The stages of a successful run -/

theorem linkOutput_ok (w : World) (self : CLinker) (fileName : String) (entryPoint : Name)
    (h : (self.linkOutput w fileName entryPoint).result = .ok ()) :
    ∃ self1 needed order offs out,
      self.readFiles w = (.ok (), self1) ∧
      self1.FunInfoMap.bfs entryPoint [] = (.ok (), needed) ∧
      sortTail needed = some order ∧
      assignOffsets self1.FunInfoMap.m_FunctionInfoMap order [] 0 = .ok offs ∧
      w.writable fileName = true ∧
      emitLoop w self1.FunInfoMap offs order [] = (.ok (), out) ∧
      w.streamGood fileName = true ∧
      (self.linkOutput w fileName entryPoint).output = some out ∧
      (self.linkOutput w fileName entryPoint).self = self1.FunInfoMap := by
  unfold CLinker.linkOutput at h ⊢
  split at h
  · simp at h
  · rename_i self1 hread
    simp only at h
    split at h
    · simp at h
    · rename_i needed hbfs
      split at h
      · simp at h
      · rename_i order hsort
        split at h
        · simp at h
        · rename_i offs hoffs
          split at h
          · rename_i hwr
            split at h
            · simp at h
            · rename_i out hemit
              split at h
              · rename_i hgood
                refine ⟨self1, needed, order, offs, out, hread, hbfs, hsort, hoffs, hwr, hemit,
                  hgood, ?_, ?_⟩
                · simp only [hread, hbfs, hsort, hoffs, hwr, hemit, hgood, if_true]
                · simp only [hread, hbfs, hsort, hoffs, hwr, hemit, hgood, if_true]
              · simp at h
          · simp at h

theorem bfs_ok (self : CLinker) (entryPoint : Name) (needed : List Name)
    (hidx : ∀ n fi, mapFind self.m_FunctionInfoMap n = some fi →
      fi.fileIdx < self.m_ObjFiles.length)
    (h : self.bfs entryPoint [] = (.ok (), needed)) :
    ∃ rest, needed = entryPoint :: rest ∧
      (∀ n, n ∈ needed ↔ Relation.ReflTransGen (Uses self) entryPoint n) ∧ needed.Nodup ∧
      (∀ n ∈ needed, (mapFind self.m_FunctionInfoMap n).isSome) ∧
      (∀ a ∈ needed, ∀ b, Uses self a b → b ∈ needed) := by
  have hentry : (mapFind self.m_FunctionInfoMap entryPoint).isSome := by
    cases hf : mapFind self.m_FunctionInfoMap entryPoint with
    | none => simp [CLinker.bfs, hf] at h
    | some fi => rfl
  rcases bfs_spec self entryPoint hidx hentry with
    ⟨rest, hres, h1, h2, h4⟩ | ⟨done, a, b, hres, _⟩
  · rw [hres] at h
    simp only [Prod.mk.injEq, true_and] at h
    subst h
    refine ⟨rest, rfl, h1, h2, ?_, ?_⟩
    · intro n hn
      rcases Relation.ReflTransGen.cases_tail ((h1 n).mp hn) with heq | ⟨c, hc, hstep⟩
      · rw [heq]
        exact hentry
      · exact h4 c ((h1 c).mpr hc) n hstep
    · intro a ha b hab
      exact (h1 b).mpr (((h1 a).mp ha).tail hab)
  · rw [hres] at h
    simp at h

theorem neededFunctions_ok (w : World) (self : CLinker) (entryPoint : Name)
    (order : List Name) (h : self.neededFunctions w entryPoint = .ok order) :
    ∃ self1 needed, self.readFiles w = (.ok (), self1) ∧
      self1.FunInfoMap.bfs entryPoint [] = (.ok (), needed) ∧
      sortTail needed = some order := by
  unfold CLinker.neededFunctions at h
  split at h
  · simp at h
  · rename_i self1 hread
    split at h
    · simp at h
    · rename_i needed hbfs
      split at h
      · simp at h
      · rename_i order1 hsort
        simp only [Except.ok.injEq] at h
        subst h
        exact ⟨self1, needed, hread, hbfs, hsort⟩

theorem neededFunctions_of_stages (w : World) (self self1 : CLinker) (entryPoint : Name)
    (needed order : List Name) (hread : self.readFiles w = (.ok (), self1))
    (hbfs : self1.FunInfoMap.bfs entryPoint [] = (.ok (), needed))
    (hsort : sortTail needed = some order) :
    self.neededFunctions w entryPoint = .ok order := by
  simp [CLinker.neededFunctions, hread, hbfs, hsort]

/-- C1: when `linkOutput` succeeds on well-formed files, a name is in the list of
needed functions if and only if it is reachable from the entry point by zero or
more calls. -/
theorem C1_needed_iff_reachable (w : World) (self : CLinker) (fileName : String)
    (entryPoint : Name)
    (hwf : ∀ o ∈ (self.readFiles w).2.m_ObjFiles, OffsetsInCode o)
    (hok : (self.linkOutput w fileName entryPoint).result = .ok ()) :
    ∃ needed, self.neededFunctions w entryPoint = .ok needed ∧
      ∀ n, n ∈ needed ↔ Reachable (self.symbols w) entryPoint n := by
  obtain ⟨self1, needed, order, offs, out, hread, hbfs, hsort, _⟩ :=
    linkOutput_ok w self fileName entryPoint hok
  obtain ⟨_, _, _, hfits, _⟩ := readFiles_ok w self self1 hread
  rw [hread] at hwf
  refine ⟨order, neededFunctions_of_stages w self self1 entryPoint needed order hread hbfs hsort,
    ?_⟩
  obtain ⟨rest, _, hiff, _⟩ := bfs_ok self1.FunInfoMap entryPoint needed
    (FunInfoMap_fileIdx self1) hbfs
  intro n
  rw [sortTail_mem needed order hsort n, hiff n]
  have hsym : self.symbols w = self1.FunInfoMap := by
    simp [CLinker.symbols, hread]
  rw [hsym]
  exact reach_uses_iff_calls self1.FunInfoMap (entry_no_wrap self1 hfits hwf) entryPoint n

theorem C1_needed_iff_reachable_witness :
    ∃ needed, linkerTwo.neededFunctions worldTwo (str "main") = .ok needed ∧
      ∀ n, n ∈ needed ↔ Reachable (linkerTwo.symbols worldTwo) (str "main") n :=
  C1_needed_iff_reachable worldTwo linkerTwo "out" (str "main") (by decide) (by rfl)

theorem sortTail_sorted (needed order : List Name) (h : sortTail needed = some order)
    (hnd : needed.Nodup) :
    ∃ entry rest, needed.head? = some entry ∧ order = entry :: rest ∧
      rest.Sorted (fun a b => a < b) ∧ order.Nodup ∧ order.Perm needed := by
  obtain ⟨e, rest, h1, h2⟩ := sortTail_some needed order h
  subst h1 h2
  have hperm := List.perm_insertionSort (fun a b : Name => a ≤ b) rest
  have hnd2 : (e :: rest.insertionSort (fun a b => a ≤ b)).Nodup :=
    (List.Perm.cons e hperm).nodup_iff.mpr hnd
  refine ⟨e, _, rfl, rfl, ?_, hnd2, List.Perm.cons e hperm⟩
  have hs : (rest.insertionSort (fun a b => a ≤ b)).Sorted (fun a b => a ≤ b) :=
    List.sorted_insertionSort (fun a b : Name => a ≤ b) rest
  exact hs.lt_of_le (List.nodup_cons.mp hnd2).2

theorem sumSizes_nil (m : List (Name × FunInfo)) : sumSizes m [] = 0 := rfl

theorem sumSizes_cons (m : List (Name × FunInfo)) (n : Name) (l : List Name) :
    sumSizes m (n :: l) = sizeOfName m n + sumSizes m l := by
  simp [sumSizes]

theorem sumSizes_append (m : List (Name × FunInfo)) (a b : List Name) :
    sumSizes m (a ++ b) = sumSizes m a + sumSizes m b := by
  simp [sumSizes]

theorem assignOffsets_spec (m : List (Name × FunInfo)) (order : List Name)
    (offs0 : List (Name × Nat)) (cur0 : Nat)
    (hdef : ∀ n ∈ order, (mapFind m n).isSome) (hnd : order.Nodup) :
    ∃ offs, assignOffsets m order offs0 cur0 = .ok offs ∧
      (∀ n, n ∉ order → mapFind offs n = mapFind offs0 n) ∧
      (∀ n, n ∈ order → (mapFind offs n).isSome) ∧
      ∀ i f, order[i]? = some f →
        mapFind offs f = some (if i = 0 then cur0
          else (cur0 + sumSizes m (order.take i)) % 4294967296) := by
  induction order generalizing offs0 cur0 with
  | nil => exact ⟨offs0, rfl, fun _ _ => rfl, by simp, by simp⟩
  | cons f rest ih =>
    have hf := hdef f (List.mem_cons_self _ _)
    obtain ⟨fi, hfi⟩ := Option.isSome_iff_exists.mp hf
    rw [List.nodup_cons] at hnd
    obtain ⟨offs, h1, h2, h3, h4⟩ := ih (mapSet offs0 f cur0) (addU32 cur0 fi.size)
      (fun n hn => hdef n (List.mem_cons_of_mem _ hn)) hnd.2
    refine ⟨offs, by simp [assignOffsets, hfi, h1], ?_, ?_, ?_⟩
    · intro n hn
      simp only [List.mem_cons, not_or] at hn
      rw [h2 n hn.2, mapFind_mapSet_ne _ _ _ _ (fun h => hn.1 h.symm)]
    · intro n hn
      by_cases hr : n ∈ rest
      · exact h3 n hr
      · rcases List.mem_cons.mp hn with rfl | hn
        · rw [h2 n hr, mapFind_mapSet_same]
          rfl
        · exact absurd hn hr
    · intro i g hg
      cases i with
      | zero =>
        simp only [List.getElem?_cons_zero, Option.some.injEq] at hg
        subst hg
        rw [h2 f hnd.1, mapFind_mapSet_same]
        rfl
      | succ i =>
        simp only [List.getElem?_cons_succ] at hg
        rw [h4 i g hg]
        simp only [List.take_succ_cons, sumSizes_cons, sizeOfName, hfi, addU32]
        congr 1
        have hne : i + 1 ≠ 0 := by omega
        simp only [hne, if_false]
        split
        · rename_i hi
          subst hi
          simp [sumSizes_nil]
        · omega

theorem neededFunctions_facts (w : World) (self : CLinker) (entryPoint : Name)
    (order : List Name) (h : self.neededFunctions w entryPoint = .ok order) :
    ∃ rest, order = entryPoint :: rest ∧ rest.Sorted (fun a b => a < b) ∧ order.Nodup ∧
      (∀ n ∈ order, (mapFind (self.symbols w).m_FunctionInfoMap n).isSome) ∧
      (∀ n, n ∈ order ↔ Relation.ReflTransGen (Uses (self.symbols w)) entryPoint n) := by
  obtain ⟨self1, needed, hread, hbfs, hsort⟩ := neededFunctions_ok w self entryPoint order h
  have hsym : self.symbols w = self1.FunInfoMap := by
    simp [CLinker.symbols, hread]
  obtain ⟨rest0, hn, hiff, hnd, hdef, _⟩ := bfs_ok self1.FunInfoMap entryPoint needed
    (FunInfoMap_fileIdx self1) hbfs
  obtain ⟨e, rest, hhead, hord, hsorted, hnd2, _⟩ := sortTail_sorted needed order hsort hnd
  rw [hn] at hhead
  simp only [List.head?_cons, Option.some.injEq] at hhead
  subst hhead
  rw [hsym]
  refine ⟨rest, hord, hsorted, hnd2, ?_, ?_⟩
  · intro n hn2
    exact hdef n ((sortTail_mem needed order hsort n).mp hn2)
  · intro n
    rw [sortTail_mem needed order hsort n]
    exact hiff n

theorem functionOffsets_spec (w : World) (self : CLinker) (entryPoint : Name)
    (order : List Name) (h : self.neededFunctions w entryPoint = .ok order) :
    ∃ offs, self.functionOffsets w entryPoint = .ok offs ∧
      (∀ n, (mapFind offs n).isSome ↔ n ∈ order) ∧
      ∀ i f, order[i]? = some f →
        mapFind offs f
          = some (sumSizes (self.symbols w).m_FunctionInfoMap (order.take i) % 4294967296) := by
  obtain ⟨rest, _, _, hnd, hdef, _⟩ := neededFunctions_facts w self entryPoint order h
  obtain ⟨offs, h1, h2, h3, h4⟩ :=
    assignOffsets_spec (self.symbols w).m_FunctionInfoMap order [] 0 hdef hnd
  refine ⟨offs, ?_, ?_, ?_⟩
  · simp only [CLinker.functionOffsets, h]
    exact h1
  · intro n
    constructor
    · intro hs
      by_contra hn
      rw [h2 n hn] at hs
      simp [mapFind] at hs
    · exact h3 n
  · intro i f hf
    rw [h4 i f hf]
    congr 1
    split
    · rename_i hi
      subst hi
      simp [sumSizes_nil]
    · simp

/-- C2: after a successful `linkOutput` the final order of the needed functions
starts with the entry point, which is assigned offset 0; the names after it are
in strictly ascending byte-wise order, and no name occurs twice. -/
theorem C2_final_order (w : World) (self : CLinker) (fileName : String) (entryPoint : Name)
    (hok : (self.linkOutput w fileName entryPoint).result = .ok ()) :
    ∃ rest offs, self.neededFunctions w entryPoint = .ok (entryPoint :: rest) ∧
      self.functionOffsets w entryPoint = .ok offs ∧
      mapFind offs entryPoint = some 0 ∧
      rest.Sorted (fun a b => a < b) ∧ (entryPoint :: rest).Nodup := by
  obtain ⟨self1, needed, order, _, _, hread, hbfs, hsort, _⟩ :=
    linkOutput_ok w self fileName entryPoint hok
  have hneeded := neededFunctions_of_stages w self self1 entryPoint needed order hread hbfs hsort
  obtain ⟨rest, hord, hsorted, hnd, _, _⟩ :=
    neededFunctions_facts w self entryPoint order hneeded
  obtain ⟨offs, h1, _, h3⟩ := functionOffsets_spec w self entryPoint order hneeded
  subst hord
  refine ⟨rest, offs, hneeded, h1, ?_, hsorted, hnd⟩
  have := h3 0 entryPoint (by simp)
  simpa [sumSizes_nil] using this

theorem C2_final_order_witness :
    ∃ rest offs, linkerTwo.neededFunctions worldTwo (str "main") = .ok (str "main" :: rest) ∧
      linkerTwo.functionOffsets worldTwo (str "main") = .ok offs ∧
      mapFind offs (str "main") = some 0 ∧
      rest.Sorted (fun a b => a < b) ∧ (str "main" :: rest).Nodup :=
  C2_final_order worldTwo linkerTwo "out" (str "main") (by rfl)

/-- C6: for every final order of the needed functions, the layout loop assigns
to the function at position `i` the sum of the sizes of the functions before it,
modulo `2 ^ 32`; nothing is added between functions. -/
theorem C6_assigned_offsets (w : World) (self : CLinker) (entryPoint : Name)
    (order : List Name) (h : self.neededFunctions w entryPoint = .ok order) :
    ∃ offs, self.functionOffsets w entryPoint = .ok offs ∧
      ∀ i f, order[i]? = some f →
        mapFind offs f
          = some (sumSizes (self.symbols w).m_FunctionInfoMap (order.take i) % 4294967296) := by
  obtain ⟨offs, h1, _, h3⟩ := functionOffsets_spec w self entryPoint order h
  exact ⟨offs, h1, h3⟩

theorem C6_assigned_offsets_witness :
    ∃ offs, linkerTwo.functionOffsets worldTwo (str "main") = .ok offs ∧
      ∀ i f, [str "main", str "f", str "g"][i]? = some f →
        mapFind offs f
          = some (sumSizes (linkerTwo.symbols worldTwo).m_FunctionInfoMap
              ([str "main", str "f", str "g"].take i) % 4294967296) :=
  C6_assigned_offsets worldTwo linkerTwo (str "main") [str "main", str "f", str "g"] (by rfl)

/-! ## Emission -/

theorem loadCode_length (w : World) (self : CLinker) (fi : FunInfo) (code : List Byte)
    (h : self.loadCode w fi = .ok code) : code.length = fi.size := by
  unfold CLinker.loadCode at h
  split at h
  · simp at h
  · split at h
    · simp at h
    · simp only at h
      split at h
      · simp at h
      · rename_i c s1 hread
        simp only [Except.ok.injEq] at h
        subst h
        unfold IFStream.read at hread
        split at hread
        · rename_i hle
          simp only [Option.some.injEq, Prod.mk.injEq] at hread
          rw [← hread.1, List.length_take]
          exact Nat.min_eq_left hle
        · simp at hread

theorem encodeU32_length (v : Nat) : (encodeU32 v).length = 4 := rfl

theorem memcpyU32_length (body body1 : List Byte) (rel v : Nat)
    (h : memcpyU32 body rel v = some body1) : body1.length = body.length := by
  unfold memcpyU32 at h
  split at h
  · rename_i hle
    simp only [Option.some.injEq] at h
    subst h
    simp only [List.length_append, List.length_take, List.length_drop, encodeU32_length]
    omega
  · simp at h

theorem patchRefs_length (fi : FunInfo) (target : Nat) (refs : List Nat)
    (body body1 : List Byte) (h : patchRefs fi target refs body = .ok body1) :
    body1.length = body.length := by
  induction refs generalizing body with
  | nil =>
    simp only [patchRefs, Except.ok.injEq] at h
    rw [h]
  | cons r rest ih =>
    simp only [patchRefs] at h
    split at h
    · split at h
      · simp at h
      · rename_i b2 hm
        rw [ih _ h, memcpyU32_length _ _ _ _ hm]
    · exact ih _ h

theorem patchImports_length (offs : List (Name × Nat)) (fi : FunInfo)
    (imports : List ImportFun) (body body1 : List Byte)
    (h : patchImports offs fi imports body = .ok body1) : body1.length = body.length := by
  induction imports generalizing body with
  | nil =>
    simp only [patchImports, Except.ok.injEq] at h
    rw [h]
  | cons imp rest ih =>
    simp only [patchImports] at h
    split at h
    · exact ih _ h
    · split at h
      · simp at h
      · rename_i b2 hp
        rw [ih _ h, patchRefs_length _ _ _ _ _ hp]

theorem writtenBody_ok (w : World) (self : CLinker) (offs : List (Name × Nat)) (f : Name)
    (body : List Byte) (h : writtenBody w self offs f = .ok body) :
    ∃ fi code obj, mapFind self.m_FunctionInfoMap f = some fi ∧
      self.loadCode w fi = .ok code ∧ self.m_ObjFiles[fi.fileIdx]? = some obj ∧
      patchImports offs fi obj.imports code = .ok body ∧ body.length = fi.size := by
  unfold writtenBody at h
  split at h
  · simp at h
  · rename_i fi hfi
    split at h
    · simp at h
    · rename_i code hcode
      split at h
      · simp at h
      · rename_i obj hobj
        refine ⟨fi, code, obj, hfi, hcode, hobj, h, ?_⟩
        rw [patchImports_length _ _ _ _ _ h, loadCode_length _ _ _ _ hcode]

theorem writtenBody_length (w : World) (self : CLinker) (offs : List (Name × Nat)) (f : Name)
    (body : List Byte) (h : writtenBody w self offs f = .ok body) :
    body.length = sizeOfName self.m_FunctionInfoMap f := by
  obtain ⟨fi, _, _, hfi, _, _, _, hlen⟩ := writtenBody_ok w self offs f body h
  simp [sizeOfName, hfi, hlen]

theorem emitLoop_ok (w : World) (self : CLinker) (offs : List (Name × Nat))
    (order : List Name) (out0 out : List Byte)
    (h : emitLoop w self offs order out0 = (.ok (), out)) :
    ∃ bodies, List.Forall₂ (fun f b => writtenBody w self offs f = .ok b) order bodies ∧
      out = out0 ++ bodies.flatten := by
  induction order generalizing out0 with
  | nil =>
    simp only [emitLoop, Prod.mk.injEq, true_and] at h
    exact ⟨[], List.Forall₂.nil, by simp [h]⟩
  | cons f rest ih =>
    simp only [emitLoop] at h
    split at h
    · simp at h
    · rename_i fi hfi
      split at h
      · simp at h
      · rename_i code hcode
        split at h
        · simp at h
        · rename_i obj hobj
          split at h
          · simp at h
          · rename_i body hbody
            obtain ⟨bodies, hb, hout⟩ := ih _ h
            refine ⟨body :: bodies, List.Forall₂.cons ?_ hb, ?_⟩
            · simp [writtenBody, hfi, hcode, hobj, hbody]
            · simp [hout]

theorem forall₂_split {α β : Type} (R : α → β → Prop) (l1 : List α) (l2 : List β)
    (h : List.Forall₂ R l1 l2) (i : Nat) (a : α) (ha : l1[i]? = some a) :
    ∃ b, l2[i]? = some b ∧ R a b ∧ List.Forall₂ R (l1.take i) (l2.take i) ∧
      l2 = l2.take i ++ b :: l2.drop (i + 1) := by
  induction h generalizing i with
  | nil => simp at ha
  | cons hab hrest ih =>
    rename_i x y xs ys
    cases i with
    | zero =>
      simp only [List.getElem?_cons_zero, Option.some.injEq] at ha
      subst ha
      exact ⟨y, by simp, hab, by simp, by simp⟩
    | succ i =>
      simp only [List.getElem?_cons_succ] at ha
      obtain ⟨b, h1, h2, h3, h4⟩ := ih i ha
      refine ⟨b, by simpa using h1, h2, ?_, ?_⟩
      · simp only [List.take_succ_cons]
        exact List.Forall₂.cons hab h3
      · simp only [List.take_succ_cons, List.drop_succ_cons, List.cons_append]
        rw [← h4]

theorem bodies_length (w : World) (self : CLinker) (offs : List (Name × Nat))
    (order : List Name) (bodies : List (List Byte))
    (h : List.Forall₂ (fun f b => writtenBody w self offs f = .ok b) order bodies) :
    bodies.flatten.length = sumSizes self.m_FunctionInfoMap order := by
  induction h with
  | nil => rfl
  | cons hab _ ih =>
    simp only [List.flatten_cons, List.length_append, sumSizes_cons, ih]
    rw [writtenBody_length _ _ _ _ _ hab]

theorem sumSizes_take_le (m : List (Name × FunInfo)) (order : List Name) (i : Nat) :
    sumSizes m (order.take i) ≤ sumSizes m order := by
  have := sumSizes_append m (order.take i) (order.drop i)
  rw [List.take_append_drop] at this
  omega

theorem sumSizes_take_succ (m : List (Name × FunInfo)) (order : List Name) (i : Nat)
    (f : Name) (h : order[i]? = some f) :
    sumSizes m (order.take i) + sizeOfName m f ≤ sumSizes m order := by
  have h1 : order.take (i + 1) = order.take i ++ [f] := by
    rw [List.take_succ, h]
    rfl
  have h2 := sumSizes_take_le m order (i + 1)
  rw [h1, sumSizes_append, sumSizes_cons, sumSizes_nil] at h2
  omega

theorem drop_take_middle (pre b post : List Byte) :
    ((pre ++ b ++ post).drop pre.length).take b.length = b := by
  rw [List.append_assoc, List.drop_left, List.take_left]

theorem emitted_layout (w : World) (self : CLinker) (offs : List (Name × Nat))
    (order : List Name) (bodies : List (List Byte))
    (h : List.Forall₂ (fun f b => writtenBody w self offs f = .ok b) order bodies)
    (i : Nat) (f : Name) (hf : order[i]? = some f) :
    ∃ body pre post, writtenBody w self offs f = .ok body ∧
      bodies.flatten = pre ++ body ++ post ∧
      pre.length = sumSizes self.m_FunctionInfoMap (order.take i) ∧
      body.length = sizeOfName self.m_FunctionInfoMap f := by
  obtain ⟨b, _, h2, h3, h4⟩ := forall₂_split _ _ _ h i f hf
  refine ⟨b, (bodies.take i).flatten, (bodies.drop (i + 1)).flatten, h2, ?_,
    bodies_length w self offs _ _ h3, writtenBody_length _ _ _ _ _ h2⟩
  conv_lhs => rw [h4]
  simp

theorem linkOutput_layout (w : World) (self : CLinker) (fileName : String)
    (entryPoint : Name) (order : List Name)
    (hok : (self.linkOutput w fileName entryPoint).result = .ok ())
    (hord : self.neededFunctions w entryPoint = .ok order)
    (hsum : sumSizes (self.symbols w).m_FunctionInfoMap order < 4294967296) :
    ∃ offs out bodies, self.functionOffsets w entryPoint = .ok offs ∧
      (self.linkOutput w fileName entryPoint).output = some out ∧
      List.Forall₂ (fun f b => writtenBody w (self.symbols w) offs f = .ok b) order bodies ∧
      out = bodies.flatten ∧
      out.length = sumSizes (self.symbols w).m_FunctionInfoMap order ∧
      (∀ n, (mapFind offs n).isSome ↔ n ∈ order) ∧
      (∀ n a, mapFind offs n = some a → a < 4294967296) ∧
      ∀ (i : Nat) (f : Name), order[i]? = some f →
        ∃ body pre post, mapFind offs f = some pre.length ∧
          writtenBody w (self.symbols w) offs f = .ok body ∧
          out = pre ++ body ++ post ∧
          body.length = sizeOfName (self.symbols w).m_FunctionInfoMap f := by
  obtain ⟨self1, needed, order1, offs, out, hread, hbfs, hsort, hoffs, _, hemit, _, hout, _⟩ :=
    linkOutput_ok w self fileName entryPoint hok
  have hneeded := neededFunctions_of_stages w self self1 entryPoint needed order1 hread hbfs hsort
  rw [hord] at hneeded
  simp only [Except.ok.injEq] at hneeded
  subst hneeded
  have hsym : self.symbols w = self1.FunInfoMap := by
    simp [CLinker.symbols, hread]
  obtain ⟨offs1, ho1, ho2, ho3⟩ := functionOffsets_spec w self entryPoint order hord
  have hoffs1 : self.functionOffsets w entryPoint = .ok offs := by
    simp only [CLinker.functionOffsets, hord, hread]
    exact hoffs
  rw [hoffs1] at ho1
  simp only [Except.ok.injEq] at ho1
  subst ho1
  rw [hsym] at hsum ho3 ⊢
  obtain ⟨bodies, hb, hcat⟩ := emitLoop_ok w _ _ _ _ _ hemit
  simp only [List.nil_append] at hcat
  have hlen := bodies_length w _ _ _ _ hb
  refine ⟨offs, out, bodies, hoffs1, hout, hb, hcat, by rw [hcat, hlen], ho2, ?_, ?_⟩
  · intro n a hna
    have hmem : n ∈ order := (ho2 n).mp (by simp [hna])
    obtain ⟨i, hi⟩ := List.mem_iff_getElem?.mp hmem
    rw [ho3 i n hi] at hna
    simp only [Option.some.injEq] at hna
    rw [← hna]
    exact Nat.mod_lt _ (by decide)
  · intro i f hf
    obtain ⟨body, pre, post, h1, h2, h3, h4⟩ := emitted_layout w _ _ _ _ hb i f hf
    have hle := sumSizes_take_succ self1.FunInfoMap.m_FunctionInfoMap order i f hf
    have ha := ho3 i f hf
    rw [Nat.mod_eq_of_lt (by omega)] at ha
    refine ⟨body, pre, post, ?_, h1, ?_, h4⟩
    · rw [ha, h3]
    · rw [hcat, h2]

/-- C7: when `linkOutput` succeeds and the sizes of the needed functions sum to
less than `2 ^ 32`, the output is the concatenation, in final order, of one
buffer per needed function; the buffer of `F` has `size(F)` bytes and stands at
the output positions from `assigned(F)` on, and the length of the output is the
sum of the sizes. -/
theorem C7_output_concatenation (w : World) (self : CLinker) (fileName : String)
    (entryPoint : Name) (order : List Name)
    (hok : (self.linkOutput w fileName entryPoint).result = .ok ())
    (hord : self.neededFunctions w entryPoint = .ok order)
    (hsum : sumSizes (self.symbols w).m_FunctionInfoMap order < 4294967296) :
    ∃ offs out bodies, self.functionOffsets w entryPoint = .ok offs ∧
      (self.linkOutput w fileName entryPoint).output = some out ∧
      List.Forall₂ (fun f b => writtenBody w (self.symbols w) offs f = .ok b) order bodies ∧
      out = bodies.flatten ∧
      out.length = sumSizes (self.symbols w).m_FunctionInfoMap order ∧
      ∀ (i : Nat) (f : Name), order[i]? = some f →
        ∃ a body, mapFind offs f = some a ∧
          writtenBody w (self.symbols w) offs f = .ok body ∧
          body.length = sizeOfName (self.symbols w).m_FunctionInfoMap f ∧
          a + body.length ≤ out.length ∧
          (out.drop a).take body.length = body := by
  obtain ⟨offs, out, bodies, h1, h2, h3, h4, h5, _, _, h6⟩ :=
    linkOutput_layout w self fileName entryPoint order hok hord hsum
  refine ⟨offs, out, bodies, h1, h2, h3, h4, h5, ?_⟩
  intro i f hf
  obtain ⟨body, pre, post, e1, e2, e3, e4⟩ := h6 i f hf
  refine ⟨pre.length, body, e1, e2, e4, ?_, ?_⟩
  · rw [e3]
    simp only [List.length_append]
    omega
  · rw [e3]
    exact drop_take_middle pre body post

theorem C7_output_concatenation_witness :
    ∃ offs out bodies, linkerTwo.functionOffsets worldTwo (str "main") = .ok offs ∧
      (linkerTwo.linkOutput worldTwo "out" (str "main")).output = some out ∧
      List.Forall₂ (fun f b => writtenBody worldTwo (linkerTwo.symbols worldTwo) offs f = .ok b)
        [str "main", str "f", str "g"] bodies ∧
      out = bodies.flatten ∧
      out.length = sumSizes (linkerTwo.symbols worldTwo).m_FunctionInfoMap
        [str "main", str "f", str "g"] ∧
      ∀ (i : Nat) (f : Name), ([str "main", str "f", str "g"] : List Name)[i]? = some f →
        ∃ a body, mapFind offs f = some a ∧
          writtenBody worldTwo (linkerTwo.symbols worldTwo) offs f = .ok body ∧
          body.length = sizeOfName (linkerTwo.symbols worldTwo).m_FunctionInfoMap f ∧
          a + body.length ≤ out.length ∧
          (out.drop a).take body.length = body :=
  C7_output_concatenation worldTwo linkerTwo "out" (str "main")
    [str "main", str "f", str "g"] (by rfl) (by rfl) (by decide)

/-! ## Patching -/

theorem decode_encodeU32 (v : Nat) (h : v < 4294967296) : decodeU32 (encodeU32 v) = v := by
  simp only [encodeU32, decodeU32, toByte]
  omega

theorem memcpyU32_getElem?_outside (body body1 : List Byte) (rel v j : Nat)
    (h : memcpyU32 body rel v = some body1) (hj : j < rel ∨ rel + 4 ≤ j) :
    body1[j]? = body[j]? := by
  unfold memcpyU32 at h
  split at h
  · rename_i hle
    simp only [Option.some.injEq] at h
    subst h
    rcases hj with hj | hj
    · rw [List.append_assoc, List.getElem?_append_left (by simp; omega)]
      rw [List.getElem?_take_of_lt hj]
    · rw [List.getElem?_append_right (by simp [encodeU32_length]; omega)]
      rw [List.getElem?_drop]
      congr 1
      simp only [List.length_append, List.length_take, encodeU32_length]
      omega
  · simp at h

theorem field_getElem? (buf : List Byte) (p k : Nat) :
    (field buf p)[k]? = if k < 4 then buf[p + k]? else none := by
  unfold field
  by_cases hk : k < 4
  · rw [List.getElem?_take_of_lt hk, List.getElem?_drop, if_pos hk]
  · rw [if_neg hk]
    apply List.getElem?_eq_none
    simp only [List.length_take]
    omega

theorem memcpyU32_field_same (body body1 : List Byte) (rel v : Nat)
    (h : memcpyU32 body rel v = some body1) : field body1 rel = encodeU32 v := by
  unfold memcpyU32 at h
  split at h
  · rename_i hle
    simp only [Option.some.injEq] at h
    subst h
    unfold field
    have hl : (List.take rel body).length = rel := by
      rw [List.length_take]
      omega
    rw [List.append_assoc]
    have h1 : List.drop rel (List.take rel body ++ (encodeU32 v ++ List.drop (rel + 4) body))
        = encodeU32 v ++ List.drop (rel + 4) body := by
      have := List.drop_left (List.take rel body) (encodeU32 v ++ List.drop (rel + 4) body)
      rwa [hl] at this
    rw [h1]
    have h2 := List.take_left (encodeU32 v) (List.drop (rel + 4) body)
    rwa [encodeU32_length] at h2
  · simp at h

theorem memcpyU32_field_disjoint (body body1 : List Byte) (rel1 v rel : Nat)
    (h : memcpyU32 body rel1 v = some body1) (hd : rel1 + 4 ≤ rel ∨ rel + 4 ≤ rel1) :
    field body1 rel = field body rel := by
  apply List.ext_getElem?
  intro k
  rw [field_getElem?, field_getElem?]
  split
  · exact memcpyU32_getElem?_outside body body1 rel1 v (rel + k) h (by omega)
  · rfl

theorem patchRefs_field (fi : FunInfo) (target : Nat) (refs : List Nat)
    (body body1 : List Byte) (rel v : Nat)
    (h : patchRefs fi target refs body = .ok body1)
    (hsafe : ∀ r1 ∈ refs, inRange fi r1 = true →
      (subU32 r1 fi.offset + 4 ≤ rel ∨ rel + 4 ≤ subU32 r1 fi.offset) ∨
        (subU32 r1 fi.offset = rel ∧ target = v)) :
    (field body rel = encodeU32 v → field body1 rel = encodeU32 v) ∧
      ((∃ r1 ∈ refs, inRange fi r1 = true ∧ subU32 r1 fi.offset = rel ∧ target = v) →
        field body1 rel = encodeU32 v) := by
  induction refs generalizing body with
  | nil =>
    simp only [patchRefs, Except.ok.injEq] at h
    subst h
    exact ⟨id, by simp⟩
  | cons r1 rest ih =>
    simp only [patchRefs] at h
    have hsafe2 : ∀ r2 ∈ rest, inRange fi r2 = true →
        (subU32 r2 fi.offset + 4 ≤ rel ∨ rel + 4 ≤ subU32 r2 fi.offset) ∨
          (subU32 r2 fi.offset = rel ∧ target = v) :=
      fun r2 hr2 => hsafe r2 (List.mem_cons_of_mem _ hr2)
    split at h
    · rename_i hin
      split at h
      · simp at h
      · rename_i b2 hm
        obtain ⟨i1, i2⟩ := ih b2 h hsafe2
        have hstep : field body rel = encodeU32 v → field b2 rel = encodeU32 v := by
          intro hp
          rcases hsafe r1 (List.mem_cons_self _ _) hin with hd | ⟨he, ht⟩
          · rw [memcpyU32_field_disjoint _ _ _ _ _ hm hd]
            exact hp
          · rw [← he, ← ht]
            exact memcpyU32_field_same _ _ _ _ hm
        refine ⟨fun hp => i1 (hstep hp), ?_⟩
        rintro ⟨r2, hr2, hin2, he, ht⟩
        rcases List.mem_cons.mp hr2 with rfl | hr2
        · apply i1
          rw [← he, ← ht]
          exact memcpyU32_field_same _ _ _ _ hm
        · exact i2 ⟨r2, hr2, hin2, he, ht⟩
    · rename_i hin
      obtain ⟨i1, i2⟩ := ih body h hsafe2
      refine ⟨i1, ?_⟩
      rintro ⟨r2, hr2, hin2, he, ht⟩
      rcases List.mem_cons.mp hr2 with rfl | hr2
      · exact absurd hin2 hin
      · exact i2 ⟨r2, hr2, hin2, he, ht⟩

theorem patchImports_field (offs : List (Name × Nat)) (fi : FunInfo)
    (imports : List ImportFun) (body body1 : List Byte) (rel v : Nat)
    (h : patchImports offs fi imports body = .ok body1)
    (hsafe : ∀ imp ∈ imports, ∀ t, mapFind offs imp.name = some t →
      ∀ r1 ∈ imp.references, inRange fi r1 = true →
        (subU32 r1 fi.offset + 4 ≤ rel ∨ rel + 4 ≤ subU32 r1 fi.offset) ∨
          (subU32 r1 fi.offset = rel ∧ t = v)) :
    (field body rel = encodeU32 v → field body1 rel = encodeU32 v) ∧
      ((∃ imp ∈ imports, mapFind offs imp.name = some v ∧
          ∃ r1 ∈ imp.references, inRange fi r1 = true ∧ subU32 r1 fi.offset = rel) →
        field body1 rel = encodeU32 v) := by
  induction imports generalizing body with
  | nil =>
    simp only [patchImports, Except.ok.injEq] at h
    subst h
    exact ⟨id, by simp⟩
  | cons imp rest ih =>
    simp only [patchImports] at h
    have hsafe2 : ∀ imp2 ∈ rest, ∀ t, mapFind offs imp2.name = some t →
        ∀ r1 ∈ imp2.references, inRange fi r1 = true →
          (subU32 r1 fi.offset + 4 ≤ rel ∨ rel + 4 ≤ subU32 r1 fi.offset) ∨
            (subU32 r1 fi.offset = rel ∧ t = v) :=
      fun imp2 h2 => hsafe imp2 (List.mem_cons_of_mem _ h2)
    split at h
    · rename_i hnone
      obtain ⟨i1, i2⟩ := ih body h hsafe2
      refine ⟨i1, ?_⟩
      rintro ⟨imp2, h2, hf, r1, hr1, hin, he⟩
      rcases List.mem_cons.mp h2 with rfl | h2
      · rw [hnone] at hf
        simp at hf
      · exact i2 ⟨imp2, h2, hf, r1, hr1, hin, he⟩
    · rename_i t ht
      split at h
      · simp at h
      · rename_i b2 hp
        obtain ⟨i1, i2⟩ := ih b2 h hsafe2
        obtain ⟨j1, j2⟩ := patchRefs_field fi t imp.references body b2 rel v hp
          (hsafe imp (List.mem_cons_self _ _) t ht)
        refine ⟨fun hp0 => i1 (j1 hp0), ?_⟩
        rintro ⟨imp2, h2, hf, r1, hr1, hin, he⟩
        rcases List.mem_cons.mp h2 with rfl | h2
        · rw [ht] at hf
          simp only [Option.some.injEq] at hf
          exact i1 (j2 ⟨r1, hr1, hin, he, hf⟩)
        · exact i2 ⟨imp2, h2, hf, r1, hr1, hin, he⟩

theorem field_middle (pre body post : List Byte) (rel : Nat) (h : rel + 4 ≤ body.length) :
    field (pre ++ body ++ post) (pre.length + rel) = field body rel := by
  apply List.ext_getElem?
  intro k
  rw [field_getElem?, field_getElem?]
  split
  · rw [List.append_assoc, List.getElem?_append_right (by omega),
      List.getElem?_append_left (by omega)]
    congr 1
    omega
  · rfl

theorem relocated_field (w : World) (self : CLinker) (fileName : String) (entryPoint : Name)
    (order : List Name) (F : Name) (fi : FunInfo) (obj : ObjFile) (imp : ImportFun) (r : Nat)
    (hwf : ∀ o ∈ (self.readFiles w).2.m_ObjFiles, OffsetsInCode o)
    (hok : (self.linkOutput w fileName entryPoint).result = .ok ())
    (hord : self.neededFunctions w entryPoint = .ok order)
    (hsum : sumSizes (self.symbols w).m_FunctionInfoMap order < 4294967296)
    (hF : F ∈ order) (hfi : mapFind (self.symbols w).m_FunctionInfoMap F = some fi)
    (hobj : (self.symbols w).m_ObjFiles[fi.fileIdx]? = some obj)
    (himp : imp ∈ obj.imports) (hT : imp.name ∈ order) (hr : r ∈ imp.references)
    (hlo : fi.offset ≤ r) (hhi : r < fi.offset + fi.size)
    (hfit : r + 4 ≤ fi.offset + fi.size)
    (hsep : ∀ imp1 ∈ obj.imports, imp1.name ∈ order → ∀ r1 ∈ imp1.references,
      fi.offset ≤ r1 → r1 < fi.offset + fi.size →
        r1 + 4 ≤ r ∨ r + 4 ≤ r1 ∨ (r1 = r ∧ imp1.name = imp.name)) :
    ∃ offs out aF aT, self.functionOffsets w entryPoint = .ok offs ∧
      (self.linkOutput w fileName entryPoint).output = some out ∧
      mapFind offs F = some aF ∧ mapFind offs imp.name = some aT ∧
      decodeU32 (field out (aF + (r - fi.offset))) = aT := by
  obtain ⟨offs, out, bodies, h1, h2, _, _, _, hkeys, hlt, h6⟩ :=
    linkOutput_layout w self fileName entryPoint order hok hord hsum
  obtain ⟨self1, _, _, _, _, hread, _⟩ := linkOutput_ok w self fileName entryPoint hok
  obtain ⟨_, _, _, hfits, _⟩ := readFiles_ok w self self1 hread
  have hsym : self.symbols w = self1.FunInfoMap := by
    simp [CLinker.symbols, hread]
  rw [hread] at hwf
  have hnw : fi.offset + fi.size < 4294967296 :=
    entry_no_wrap self1 hfits hwf F fi (hsym ▸ hfi)
  obtain ⟨i, hi⟩ := List.mem_iff_getElem?.mp hF
  obtain ⟨body, pre, post, e1, e2, e3, e4⟩ := h6 i F hi
  obtain ⟨aT, haT⟩ := Option.isSome_iff_exists.mp ((hkeys imp.name).mpr hT)
  obtain ⟨fi2, code, obj2, g1, _, g3, g4, g5⟩ := writtenBody_ok w _ offs F body e2
  rw [hfi] at g1
  cases g1
  rw [hobj] at g3
  cases g3
  have hsub : ∀ r1, fi.offset ≤ r1 → r1 < fi.offset + fi.size →
      subU32 r1 fi.offset = r1 - fi.offset := by
    intro r1 a1 a2
    simp only [subU32]
    omega
  have hfield : field body (r - fi.offset) = encodeU32 aT := by
    refine (patchImports_field offs fi obj.imports code body (r - fi.offset) aT g4 ?_).2 ?_
    · intro imp1 hi1 t ht r1 hr1 hin1
      have hrange := (inRange_iff fi r1 hnw).mp hin1
      rw [hsub r1 hrange.1 hrange.2]
      have hmem : imp1.name ∈ order := (hkeys imp1.name).mp (by simp [ht])
      rcases hsep imp1 hi1 hmem r1 hr1 hrange.1 hrange.2 with c1 | c2 | ⟨c3, c4⟩
      · left
        left
        omega
      · left
        right
        omega
      · right
        rw [c4, haT] at ht
        simp only [Option.some.injEq] at ht
        exact ⟨by rw [c3], ht.symm⟩
    · exact ⟨imp, himp, haT, r, hr, (inRange_iff fi r hnw).mpr ⟨hlo, hhi⟩, hsub r hlo hhi⟩
  have hin : r - fi.offset + 4 ≤ body.length := by
    rw [g5]
    omega
  refine ⟨offs, out, pre.length, aT, h1, h2, e1, haT, ?_⟩
  rw [e3, field_middle pre body post _ hin, hfield]
  exact decode_encodeU32 aT (hlt _ _ haT)

/-- C3 (as amended): when `linkOutput` succeeds, no patch of the run writing past
the end of its buffer, on well-formed files, and the
sizes of the needed functions sum to less than `2 ^ 32`, then for a needed
function `F` and a reference offset `r` of an import that names a needed function
`T`, such that the four-byte field at `r` lies inside `F`
(`F.offset <= r` and `r + 4 <= F.offset + F.size`) and every other reference in
the range of `F` that names a needed function is at least four bytes away from
`r` (or is `r` itself with the same name), the four output bytes at
`assigned(F) + (r - F.offset)` are the little-endian `assigned(T)`. -/
theorem C3_relocation (w : World) (self : CLinker) (fileName : String) (entryPoint : Name)
    (order : List Name) (F : Name) (fi : FunInfo) (obj : ObjFile) (imp : ImportFun) (r : Nat)
    (hwf : ∀ o ∈ (self.readFiles w).2.m_ObjFiles, OffsetsInCode o)
    (hok : (self.linkOutput w fileName entryPoint).result = .ok ())
    (hord : self.neededFunctions w entryPoint = .ok order)
    (hsum : sumSizes (self.symbols w).m_FunctionInfoMap order < 4294967296)
    (hF : F ∈ order) (hfi : mapFind (self.symbols w).m_FunctionInfoMap F = some fi)
    (hobj : (self.symbols w).m_ObjFiles[fi.fileIdx]? = some obj)
    (himp : imp ∈ obj.imports) (hT : imp.name ∈ order) (hr : r ∈ imp.references)
    (hlo : fi.offset ≤ r) (hhi : r < fi.offset + fi.size)
    (hfit : r + 4 ≤ fi.offset + fi.size)
    (hsep : ∀ imp1 ∈ obj.imports, imp1.name ∈ order → ∀ r1 ∈ imp1.references,
      fi.offset ≤ r1 → r1 < fi.offset + fi.size →
        r1 + 4 ≤ r ∨ r + 4 ≤ r1 ∨ (r1 = r ∧ imp1.name = imp.name)) :
    ∃ offs out aF aT, self.functionOffsets w entryPoint = .ok offs ∧
      (self.linkOutput w fileName entryPoint).output = some out ∧
      mapFind offs F = some aF ∧ mapFind offs imp.name = some aT ∧
      decodeU32 (field out (aF + (r - fi.offset))) = aT :=
  relocated_field w self fileName entryPoint order F fi obj imp r hwf hok hord hsum hF hfi
    hobj himp hT hr hlo hhi hfit hsep

theorem C3_relocation_witness :
    ∃ offs out aF aT, linkerTwo.functionOffsets worldTwo (str "main") = .ok offs ∧
      (linkerTwo.linkOutput worldTwo "out" (str "main")).output = some out ∧
      mapFind offs (str "main") = some aF ∧
      mapFind offs (⟨str "g", [4]⟩ : ImportFun).name = some aT ∧
      decodeU32 (field out (aF + (4 - (⟨0, 0, 8, 41⟩ : FunInfo).offset))) = aT :=
  C3_relocation worldTwo linkerTwo "out" (str "main") [str "main", str "f", str "g"]
    (str "main") ⟨0, 0, 8, 41⟩ objMain ⟨str "g", [4]⟩ 4 (by decide) (by rfl) (by rfl)
    (by decide) (by decide) (by decide) (by decide) (by decide) (by decide) (by decide)
    (by decide) (by decide) (by decide) (by decide)

/-- C3 fails as stated: `main.o` holds two references to `f`, at 0 and at 1. The
link succeeds, `main` is assigned 0 and `f` is assigned 8, the reference at 0
lies in the range of `main`, and the four output bytes at 0 decode to 2056: the
patch at 1 has overwritten three of them. -/
theorem C3_counterexample :
    (linkerTwo.linkOutput worldOverlap "out" (str "main")).result = .ok () ∧
      linkerTwo.functionOffsets worldOverlap (str "main")
        = .ok [(str "main", 0), (str "f", 8)] ∧
      mapFind (linkerTwo.symbols worldOverlap).m_FunctionInfoMap (str "main")
        = some ⟨0, 0, 8, 35⟩ ∧
      (linkerTwo.symbols worldOverlap).m_ObjFiles[0]? = some objOverlap ∧
      (⟨str "f", [0, 1]⟩ : ImportFun) ∈ objOverlap.imports ∧
      (linkerTwo.linkOutput worldOverlap "out" (str "main")).output
        = some [8, 8, 0, 0, 0, 6, 7, 8, 11, 12, 13, 14] ∧
      decodeU32 (field [8, 8, 0, 0, 0, 6, 7, 8, 11, 12, 13, 14] (0 + (0 - 0))) = 2056 :=
  ⟨by rfl, by rfl, by decide, by decide, by decide, by decide, by decide⟩

/-! ## Reading a laid-out file -/

theorem read_append (a rest : List Byte) (p : Nat) :
    IFStream.read ⟨a ++ rest, p⟩ a.length = some (a, ⟨rest, p + a.length⟩) := by
  simp [IFStream.read]

theorem readU32_encode (v : Nat) (hv : v < 4294967296) (rest : List Byte) (p : Nat) :
    IFStream.readU32 ⟨encodeU32 v ++ rest, p⟩ = some (v, ⟨rest, p + 4⟩) := by
  have h := read_append (encodeU32 v) rest p
  rw [encodeU32_length] at h
  simp only [IFStream.readU32, h, decode_encodeU32 v hv]

theorem readU8_cons (n : Nat) (hn : n < 256) (rest : List Byte) (p : Nat) :
    IFStream.readU8 ⟨toByte n :: rest, p⟩ = some (n, ⟨rest, p + 1⟩) := by
  have h := read_append [toByte n] rest p
  simp only [List.length_singleton, List.singleton_append] at h
  rw [IFStream.readU8, h]
  simp only [List.headD_cons, toByte, Nat.mod_eq_of_lt hn]

theorem readRefs_encode (refs : List Nat) (hr : ∀ r ∈ refs, r < 4294967296)
    (rest : List Byte) (p : Nat) (acc : List Nat) :
    readRefs refs.length ⟨refs.flatMap encodeU32 ++ rest, p⟩ acc
      = .ok (⟨rest, p + (refs.flatMap encodeU32).length⟩, acc ++ refs) := by
  induction refs generalizing p acc with
  | nil => simp [readRefs]
  | cons r rs ih =>
    simp only [List.flatMap_cons, List.append_assoc, List.length_cons, readRefs]
    rw [readU32_encode r (hr r (List.mem_cons_self _ _))]
    simp only
    rw [ih (fun x hx => hr x (List.mem_cons_of_mem _ hx))]
    simp only [List.length_append, encodeU32_length, List.append_assoc, List.singleton_append]
    congr 3
    omega

theorem readImports_encode (imports : List ImportFun)
    (hname : ∀ i ∈ imports, i.name.length < 256)
    (hcount : ∀ i ∈ imports, i.references.length < 4294967296)
    (hrefs : ∀ i ∈ imports, ∀ r ∈ i.references, r < 4294967296)
    (rest : List Byte) (p : Nat) (acc : List ImportFun) :
    readImports imports.length ⟨imports.flatMap encodeImport ++ rest, p⟩ acc
      = .ok (⟨rest, p + (imports.flatMap encodeImport).length⟩, acc ++ imports) := by
  induction imports generalizing p acc with
  | nil => simp [readImports]
  | cons i is ih =>
    have hi := List.mem_cons_self i is
    simp only [List.flatMap_cons, List.length_cons, readImports, encodeImport,
      List.cons_append, List.append_assoc]
    rw [readU8_cons _ (hname i hi)]
    simp only
    rw [read_append]
    simp only
    rw [readU32_encode _ (hcount i hi)]
    simp only
    rw [readRefs_encode _ (hrefs i hi)]
    simp only
    rw [ih (fun x hx => hname x (List.mem_cons_of_mem _ hx))
      (fun x hx => hcount x (List.mem_cons_of_mem _ hx))
      (fun x hx => hrefs x (List.mem_cons_of_mem _ hx))]
    simp only [List.length_append, List.length_cons, encodeU32_length, List.nil_append,
      List.append_assoc, List.singleton_append]
    congr 3
    omega

theorem firstRepeat_append (seen a b : List Name) :
    firstRepeat seen (a ++ b)
      = match firstRepeat seen a with
        | some n => some n
        | none => firstRepeat (seen ++ a) b := by
  induction a generalizing seen with
  | nil => simp [firstRepeat]
  | cons x xs ih =>
    rw [List.cons_append]
    simp only [firstRepeat]
    split
    · rfl
    · rw [ih]
      simp

theorem readExports_encode (k : Nat) (es : List ExportFun)
    (hname : ∀ e ∈ es, e.name.length < 256) (hoff : ∀ e ∈ es, e.offset < 4294967296)
    (rest : List Byte) (p : Nat) (exportDup : List (Name × Nat)) (acc : List ExportFun) :
    readExports k es.length ⟨es.flatMap encodeExport ++ rest, p⟩ exportDup acc
      = match firstRepeat (exportDup.map Prod.fst) (es.map (fun e => e.name)) with
        | some n => .error (.runtime_error (msgDuplicate n))
        | none => .ok (⟨rest, p + (es.flatMap encodeExport).length⟩,
            exportDup ++ es.map (fun e => (e.name, k)), acc ++ es) := by
  induction es generalizing p exportDup acc with
  | nil => simp [readExports, firstRepeat]
  | cons e es ih =>
    have he := List.mem_cons_self e es
    simp only [List.flatMap_cons, List.length_cons, readExports, encodeExport,
      List.cons_append, List.append_assoc, List.map_cons, firstRepeat]
    rw [readU8_cons _ (hname e he)]
    simp only
    rw [read_append]
    simp only
    rw [readU32_encode _ (hoff e he)]
    simp only
    cases hf : mapFind exportDup e.name with
    | some x =>
      have : e.name ∈ exportDup.map Prod.fst :=
        (mapFind_isSome_iff _ _).mp (by simp [hf])
      simp only [this, if_true]
    | none =>
      have hnot : e.name ∉ exportDup.map Prod.fst := (mapFind_eq_none_iff _ _).mp hf
      simp only [hnot, if_false]
      rw [ih (fun x hx => hname x (List.mem_cons_of_mem _ hx))
        (fun x hx => hoff x (List.mem_cons_of_mem _ hx)), mapSet_of_none _ _ _ hf]
      simp only [List.map_append, List.map_cons, List.map_nil]
      split
      · rfl
      · simp only [List.length_append, List.length_cons, encodeU32_length,
          List.append_assoc, List.singleton_append]
        congr 3
        omega

theorem firstRepeat_none_iff (seen l : List Name) :
    firstRepeat seen l = none ↔ (∀ x ∈ l, x ∉ seen) ∧ l.Nodup := by
  induction l generalizing seen with
  | nil => simp [firstRepeat]
  | cons x xs ih =>
    simp only [firstRepeat]
    by_cases hx : x ∈ seen
    · rw [if_pos hx]
      constructor
      · intro h
        simp at h
      · rintro ⟨h, _⟩
        exact absurd hx (h x (List.mem_cons_self _ _))
    · rw [if_neg hx, ih]
      constructor
      · rintro ⟨h1, h2⟩
        refine ⟨?_, List.nodup_cons.mpr ⟨?_, h2⟩⟩
        · intro a ha
          rcases List.mem_cons.mp ha with rfl | ha
          · exact hx
          · intro hs
            exact h1 a ha (List.mem_append_left _ hs)
        · intro hmem
          exact h1 x hmem (by simp)
      · rintro ⟨h1, h2⟩
        rw [List.nodup_cons] at h2
        refine ⟨?_, h2.2⟩
        intro a ha hs
        rcases List.mem_append.mp hs with hs | hs
        · exact h1 a (List.mem_cons_of_mem _ ha) hs
        · simp only [List.mem_singleton] at hs
          subst hs
          exact h2.1 ha

theorem firstRepeat_some (seen l : List Name) (n : Name) (h : firstRepeat seen l = some n) :
    ∃ pre post, l = pre ++ n :: post ∧ (∀ x ∈ pre, x ∉ seen) ∧ pre.Nodup ∧
      (n ∈ seen ∨ n ∈ pre) := by
  induction l generalizing seen with
  | nil => simp [firstRepeat] at h
  | cons x xs ih =>
    simp only [firstRepeat] at h
    split at h
    · rename_i hx
      simp only [Option.some.injEq] at h
      subst h
      exact ⟨[], xs, rfl, by simp, by simp, Or.inl hx⟩
    · rename_i hx
      obtain ⟨pre, post, h1, h2, h3, h4⟩ := ih _ h
      refine ⟨x :: pre, post, by simp [h1], ?_, ?_, ?_⟩
      · intro y hy
        rcases List.mem_cons.mp hy with rfl | hy
        · exact hx
        · intro hs
          exact h2 y hy (List.mem_append_left _ hs)
      · rw [List.nodup_cons]
        refine ⟨?_, h3⟩
        intro hmem
        exact h2 x hmem (by simp)
      · rcases h4 with h4 | h4
        · rcases List.mem_append.mp h4 with h4 | h4
          · exact Or.inl h4
          · simp only [List.mem_singleton] at h4
            subst h4
            exact Or.inr (List.mem_cons_self _ _)
        · exact Or.inr (List.mem_cons_of_mem _ h4)

theorem layout_length (o : ObjFile) :
    o.layout.length
      = 12 + (o.exports.flatMap encodeExport).length + (o.imports.flatMap encodeImport).length := by
  simp only [ObjFile.layout, List.length_append, encodeU32_length]

theorem readObjFile_layout (k : Nat) (o : ObjFile) (code : List Byte)
    (exportDup : List (Name × Nat)) (henc : o.Encodable) :
    readObjFile k ⟨o.layout ++ code, 0⟩ exportDup
      = match firstRepeat (exportDup.map Prod.fst) (o.exports.map (fun e => e.name)) with
        | some n => .error (.runtime_error (msgDuplicate n))
        | none => .ok (o, exportDup ++ o.exports.map (fun e => (e.name, k))) := by
  have hlen := layout_length o
  have hod := henc.offsetData_eq
  obtain ⟨imports, exports, ⟨expCnt, imCnt, codeSz⟩, offsetData⟩ := o
  have h1 := henc.expCnt_eq
  have h2 := henc.imCnt_eq
  simp only at h1 h2 hlen hod
  subst h1 h2
  simp only [readObjFile, ObjFile.layout, List.append_assoc]
  rw [readU32_encode _ henc.expCnt_lt]
  simp only
  rw [readU32_encode _ henc.imCnt_lt]
  simp only
  rw [readU32_encode _ henc.codeSz_lt]
  simp only
  rw [readExports_encode k exports henc.exp_name henc.exp_offset]
  cases hfr : firstRepeat (exportDup.map Prod.fst) (exports.map (fun e => e.name)) with
  | some n => rfl
  | none =>
    simp only
    rw [readImports_encode imports henc.imp_name henc.imp_count henc.imp_refs]
    simp only [List.nil_append]
    congr 3
    rw [hod, hlen]

theorem readFilesLoop_holds (w : World) (files : List String) (os : List ObjFile)
    (h : FilesHold w files os) (k : Nat) (exportDup : List (Name × Nat))
    (objs : List ObjFile) :
    (firstRepeat (exportDup.map Prod.fst) (exportNames os) = none →
        readFilesLoop w files k exportDup objs = (.ok (), objs ++ os)) ∧
      (∀ n, firstRepeat (exportDup.map Prod.fst) (exportNames os) = some n →
        (readFilesLoop w files k exportDup objs).1 = .error (.runtime_error (msgDuplicate n))) := by
  unfold FilesHold at h
  induction h generalizing k exportDup objs with
  | nil =>
    constructor
    · intro _
      simp [readFilesLoop]
    · intro n hn
      simp [exportNames, firstRepeat] at hn
  | cons hfo htail ih =>
    rename_i f o fs os2
    obtain ⟨content, hread, henc, code, hcontent⟩ := hfo
    subst hcontent
    rw [exportNames_cons, firstRepeat_append]
    simp only [readFilesLoop, hread, readObjFile_layout k o code exportDup henc]
    cases hfr : firstRepeat (exportDup.map Prod.fst) (o.exports.map (fun e => e.name)) with
    | some m =>
      simp
    | none =>
      simp only
      have hkeys : (exportDup ++ o.exports.map (fun e => (e.name, k))).map Prod.fst
          = exportDup.map Prod.fst ++ o.exports.map (fun e => e.name) := by
        simp [List.map_append, Function.comp_def]
      have := ih (k + 1) (exportDup ++ o.exports.map (fun e => (e.name, k))) (objs ++ [o])
      rw [hkeys] at this
      constructor
      · intro hn
        rw [this.1 hn]
        simp
      · intro n hn
        exact this.2 n hn

theorem readFiles_holds (w : World) (self : CLinker) (os : List ObjFile)
    (h : FilesHold w self.m_Files os) :
    ((exportNames os).Nodup →
        self.readFiles w = (.ok (), ⟨self.m_Files, os, []⟩)) ∧
      (∀ n, firstRepeat [] (exportNames os) = some n →
        (self.readFiles w).1 = .error (.runtime_error (msgDuplicate n))) := by
  have := readFilesLoop_holds w self.m_Files os h 0 [] []
  simp only [List.map_nil, List.nil_append] at this
  constructor
  · intro hnd
    have hfr : firstRepeat [] (exportNames os) = none :=
      (firstRepeat_none_iff [] _).mpr ⟨by simp, hnd⟩
    simp only [CLinker.readFiles, this.1 hfr]
  · intro n hn
    simp only [CLinker.readFiles]
    exact this.2 n hn

/-! ## Failures before the output is opened -/

theorem linkOutput_read_error (w : World) (self : CLinker) (fileName : String)
    (entryPoint : Name) (e : Failure) (h : (self.readFiles w).1 = .error e) :
    (self.linkOutput w fileName entryPoint).result = .error e ∧
      (self.linkOutput w fileName entryPoint).output = none := by
  unfold CLinker.linkOutput
  cases hrf : self.readFiles w with
  | mk r s1 =>
    rw [hrf] at h
    simp only at h
    subst h
    exact ⟨rfl, rfl⟩

theorem linkOutput_bfs_error (w : World) (self self1 : CLinker) (fileName : String)
    (entryPoint : Name) (e : Failure) (l : List Name)
    (hread : self.readFiles w = (.ok (), self1))
    (hbfs : self1.FunInfoMap.bfs entryPoint [] = (.error e, l)) :
    (self.linkOutput w fileName entryPoint).result = .error e ∧
      (self.linkOutput w fileName entryPoint).output = none := by
  unfold CLinker.linkOutput
  simp only [hread, hbfs]
  exact ⟨trivial, trivial⟩

/-- C8: when every registered file holds a laid-out object file and two export
entries have the same name, `linkOutput` fails with `Duplicate symbol: <name>`,
where `<name>` is the first export name in scan order that repeats an earlier
one, and the output file is not opened. -/
theorem C8_duplicate_symbol (w : World) (self : CLinker) (fileName : String)
    (entryPoint : Name) (os : List ObjFile) (hfiles : FilesHold w self.m_Files os)
    (hdup : ¬ (exportNames os).Nodup) :
    ∃ n pre post, exportNames os = pre ++ n :: post ∧ pre.Nodup ∧ n ∈ pre ∧
      firstRepeat [] (exportNames os) = some n ∧
      (self.linkOutput w fileName entryPoint).result
        = .error (.runtime_error (msgDuplicate n)) ∧
      (self.linkOutput w fileName entryPoint).output = none := by
  cases hfr : firstRepeat [] (exportNames os) with
  | none =>
    exact absurd ((firstRepeat_none_iff [] _).mp hfr).2 hdup
  | some n =>
    obtain ⟨pre, post, h1, _, h3, h4⟩ := firstRepeat_some [] _ n hfr
    have hmem : n ∈ pre := by
      rcases h4 with h4 | h4
      · simp at h4
      · exact h4
    have herr := (readFiles_holds w self os hfiles).2 n hfr
    obtain ⟨r1, r2⟩ := linkOutput_read_error w self fileName entryPoint _ herr
    exact ⟨n, pre, post, h1, h3, hmem, rfl, r1, r2⟩

theorem objMain_encodable : objMain.Encodable :=
  ⟨by decide, by decide, by decide, by decide, by decide, by decide, by decide, by decide,
    by decide, by decide, by decide⟩

theorem objLib_encodable : objLib.Encodable :=
  ⟨by decide, by decide, by decide, by decide, by decide, by decide, by decide, by decide,
    by decide, by decide, by decide⟩

theorem objQsort_encodable : objQsort.Encodable :=
  ⟨by decide, by decide, by decide, by decide, by decide, by decide, by decide, by decide,
    by decide, by decide, by decide⟩

theorem worldTwo_holds : FilesHold worldTwo linkerTwo.m_Files [objMain, objLib] :=
  List.Forall₂.cons ⟨_, rfl, objMain_encodable, _, rfl⟩
    (List.Forall₂.cons ⟨_, rfl, objLib_encodable, _, rfl⟩ List.Forall₂.nil)

theorem worldTwo_holds_twice :
    FilesHold worldTwo (linkerTwo.addFile "main.o").m_Files [objMain, objLib, objMain] :=
  List.Forall₂.cons ⟨_, rfl, objMain_encodable, _, rfl⟩
    (List.Forall₂.cons ⟨_, rfl, objLib_encodable, _, rfl⟩
      (List.Forall₂.cons ⟨_, rfl, objMain_encodable, _, rfl⟩ List.Forall₂.nil))

theorem worldQsort_holds : FilesHold worldQsort linkerTwo.m_Files [objQsort, objLib] :=
  List.Forall₂.cons ⟨_, rfl, objQsort_encodable, _, rfl⟩
    (List.Forall₂.cons ⟨_, rfl, objLib_encodable, _, rfl⟩ List.Forall₂.nil)

theorem C8_duplicate_symbol_witness :
    ∃ n pre post, exportNames [objMain, objLib, objMain] = pre ++ n :: post ∧ pre.Nodup ∧
      n ∈ pre ∧ firstRepeat [] (exportNames [objMain, objLib, objMain]) = some n ∧
      ((linkerTwo.addFile "main.o").linkOutput worldTwo "out" (str "main")).result
        = .error (.runtime_error (msgDuplicate n)) ∧
      ((linkerTwo.addFile "main.o").linkOutput worldTwo "out" (str "main")).output = none :=
  C8_duplicate_symbol worldTwo (linkerTwo.addFile "main.o") "out" (str "main")
    [objMain, objLib, objMain] worldTwo_holds_twice (by decide)

theorem readFiles_symbols (w : World) (self : CLinker) (os : List ObjFile)
    (hfiles : FilesHold w self.m_Files os) (hnd : (exportNames os).Nodup) :
    self.readFiles w = (.ok (), ⟨self.m_Files, os, []⟩) ∧
      self.symbols w = CLinker.FunInfoMap ⟨self.m_Files, os, []⟩ ∧
      (self.symbols w).m_ObjFiles = os ∧ (∀ o ∈ os, o.Fits) := by
  have hread := (readFiles_holds w self os hfiles).1 hnd
  obtain ⟨_, _, _, hfits, _⟩ := readFiles_ok w self _ hread
  refine ⟨hread, ?_, ?_, hfits⟩
  · simp [CLinker.symbols, hread]
  · simp [CLinker.symbols, hread, CLinker.FunInfoMap]

/-- C9: when every registered file holds a laid-out object file, no export name
occurs twice and the entry name is the name of no export, `linkOutput` fails with
`Undefined symbol <entry>`; the output file is not opened. -/
theorem C9_undefined_entry (w : World) (self : CLinker) (fileName : String)
    (entryPoint : Name) (os : List ObjFile) (hfiles : FilesHold w self.m_Files os)
    (hnd : (exportNames os).Nodup) (hentry : entryPoint ∉ exportNames os) :
    (self.linkOutput w fileName entryPoint).result
        = .error (.runtime_error (msgUndefined entryPoint)) ∧
      (self.linkOutput w fileName entryPoint).output = none := by
  obtain ⟨hread, _, _, _⟩ := readFiles_symbols w self os hfiles hnd
  have hnone : mapFind (CLinker.FunInfoMap ⟨self.m_Files, os, []⟩).m_FunctionInfoMap entryPoint
      = none := by
    cases hf : mapFind (CLinker.FunInfoMap ⟨self.m_Files, os, []⟩).m_FunctionInfoMap entryPoint with
    | none => rfl
    | some fi =>
      exact absurd ((FunInfoMap_isSome_iff ⟨self.m_Files, os, []⟩ entryPoint).mp (by simp [hf]))
        hentry
  have hbfs : (CLinker.FunInfoMap ⟨self.m_Files, os, []⟩).bfs entryPoint []
      = (.error (.runtime_error (msgUndefined entryPoint)), []) := by
    simp [CLinker.bfs, hnone]
  exact linkOutput_bfs_error w self _ fileName entryPoint _ _ hread hbfs

theorem C9_undefined_entry_witness :
    (linkerTwo.linkOutput worldTwo "out" (str "strlen2")).result
        = .error (.runtime_error (msgUndefined (str "strlen2"))) ∧
      (linkerTwo.linkOutput worldTwo "out" (str "strlen2")).output = none :=
  C9_undefined_entry worldTwo linkerTwo "out" (str "strlen2") [objMain, objLib]
    worldTwo_holds (by decide) (by decide)

theorem any_inRange_iff (fi : FunInfo) (refs : List Nat)
    (h : fi.offset + fi.size < 4294967296) :
    refs.any (inRange fi) = true ↔ ∃ r ∈ refs, fi.offset ≤ r ∧ r < fi.offset + fi.size := by
  rw [List.any_eq_true]
  constructor
  · rintro ⟨r, hr, hin⟩
    exact ⟨r, hr, (inRange_iff fi r h).mp hin⟩
  · rintro ⟨r, hr, hin⟩
    exact ⟨r, hr, (inRange_iff fi r h).mpr hin⟩

theorem firstUnresolved_iff (self : CLinker)
    (h : ∀ n fi, mapFind self.m_FunctionInfoMap n = some fi →
      fi.offset + fi.size < 4294967296) (a b : Name) :
    FirstUnresolved self a b ↔ FirstUndefined self a b := by
  constructor
  · rintro ⟨fi, obj, pre, imp, post, h1, h2, h3, h4, h5, h6, h7⟩
    have hnw := h a fi h1
    refine ⟨fi, obj, pre, imp, post, h1, h2, h3, h4, (any_inRange_iff fi _ hnw).mp h5, h6, ?_⟩
    intro i hi hu
    exact h7 i hi ((any_inRange_iff fi _ hnw).mpr hu)
  · rintro ⟨fi, obj, pre, imp, post, h1, h2, h3, h4, h5, h6, h7⟩
    have hnw := h a fi h1
    refine ⟨fi, obj, pre, imp, post, h1, h2, h3, h4, (any_inRange_iff fi _ hnw).mpr h5, h6, ?_⟩
    intro i hi hu
    exact h7 i hi ((any_inRange_iff fi _ hnw).mp hu)

theorem undefined_import_failure (w : World) (self : CLinker) (fileName : String)
    (entryPoint : Name) (os : List ObjFile) (hfiles : FilesHold w self.m_Files os)
    (hnd : (exportNames os).Nodup) (hwf : ∀ o ∈ os, OffsetsInCode o)
    (hentry : entryPoint ∈ exportNames os) (F b : Name)
    (hreach : Reachable (self.symbols w) entryPoint F)
    (hcall : Calls (self.symbols w) F b) (hund : b ∉ exportNames os) :
    ∃ done a n,
      (self.linkOutput w fileName entryPoint).result
        = .error (.runtime_error (msgUndefined n)) ∧
      (self.linkOutput w fileName entryPoint).output = none ∧
      n ∉ exportNames os ∧ Reachable (self.symbols w) entryPoint a ∧
      Calls (self.symbols w) a n ∧
      ((self.symbols w).bfs entryPoint []).2 = done ++ [a] ∧
      (∀ x ∈ done, ∀ y, Calls (self.symbols w) x y → y ∈ exportNames os) ∧
      FirstUndefined (self.symbols w) a n := by
  obtain ⟨hread, hsym, _, hfits⟩ := readFiles_symbols w self os hfiles hnd
  rw [hsym] at hreach hcall ⊢
  have hnw : ∀ n fi,
      mapFind (CLinker.FunInfoMap ⟨self.m_Files, os, []⟩).m_FunctionInfoMap n = some fi →
        fi.offset + fi.size < 4294967296 :=
    entry_no_wrap ⟨self.m_Files, os, []⟩ hfits hwf
  have hkeys := FunInfoMap_isSome_iff ⟨self.m_Files, os, []⟩
  simp only at hkeys
  rcases bfs_spec (CLinker.FunInfoMap ⟨self.m_Files, os, []⟩) entryPoint
      (FunInfoMap_fileIdx ⟨self.m_Files, os, []⟩) ((hkeys entryPoint).mpr hentry) with
    ⟨rest, _, h1, _, h4⟩ | ⟨done, a, n, hres, _, h3, h4, h5⟩
  · exfalso
    have hF := (h1 F).mpr ((reach_uses_iff_calls _ hnw entryPoint F).mpr hreach)
    have hb := h4 F hF b ((uses_iff_calls _ hnw F b).mpr hcall)
    exact hund ((hkeys b).mp hb)
  · obtain ⟨huse, hnone⟩ := firstUnresolved_uses _ a n h5
    obtain ⟨r1, r2⟩ := linkOutput_bfs_error w self _ fileName entryPoint _ _ hread hres
    refine ⟨done, a, n, r1, r2, ?_, ?_, (uses_iff_calls _ hnw a n).mp huse, ?_, ?_,
      (firstUnresolved_iff _ hnw a n).mp h5⟩
    · intro hmem
      have := (hkeys n).mpr hmem
      rw [hnone] at this
      simp at this
    · exact (reach_uses_iff_calls _ hnw entryPoint a).mp (h3 a (by simp))
    · rw [hres]
    · intro x hx y hxy
      exact (hkeys y).mp (h4 x hx y ((uses_iff_calls _ hnw x y).mpr hxy))

/-! ## The instance between calls -/

theorem readFiles_files_only (w : World) (files : List String) (objs : List ObjFile)
    (m : List (Name × FunInfo)) :
    CLinker.readFiles w ⟨files, objs, m⟩ = CLinker.readFiles w ⟨files, [], []⟩ := rfl

theorem linkOutput_files_only (w : World) (files : List String) (objs : List ObjFile)
    (m : List (Name × FunInfo)) (fileName : String) (entryPoint : Name) :
    CLinker.linkOutput w ⟨files, objs, m⟩ fileName entryPoint
      = CLinker.linkOutput w ⟨files, [], []⟩ fileName entryPoint := by
  unfold CLinker.linkOutput
  rw [readFiles_files_only]

theorem readFiles_m_Files (w : World) (self : CLinker) :
    (self.readFiles w).2.m_Files = self.m_Files := rfl

theorem linkOutput_m_Files (w : World) (self : CLinker) (fileName : String)
    (entryPoint : Name) : (self.linkOutput w fileName entryPoint).self.m_Files = self.m_Files := by
  have h := readFiles_m_Files w self
  unfold CLinker.linkOutput
  cases hrf : self.readFiles w with
  | mk r s1 =>
    rw [hrf] at h
    simp only at h
    cases r with
    | error e => exact h
    | ok u =>
      cases u
      simp only
      split
      · exact h
      · split
        · exact h
        · split
          · exact h
          · split
            · split
              · exact h
              · split
                · exact h
                · exact h
            · exact h

/-- C16: what `linkOutput` returns (how it ends, the output bytes, the instance it
leaves) depends on the instance through the registered file list only, not on the
object-file list and symbol table it holds; so a call after any earlier call on
the same instance, whatever that call was given and however it ended, returns
what a call on a fresh instance with the same files returns. -/
theorem C16_no_stale_state (w w0 : World) (files : List String) (objs : List ObjFile)
    (m : List (Name × FunInfo)) (fileName fileName0 : String) (entryPoint entryPoint0 : Name) :
    CLinker.linkOutput w ⟨files, objs, m⟩ fileName entryPoint
        = CLinker.linkOutput w ⟨files, [], []⟩ fileName entryPoint ∧
      (CLinker.linkOutput w0 ⟨files, objs, m⟩ fileName0 entryPoint0).self.linkOutput w fileName
          entryPoint
        = CLinker.linkOutput w ⟨files, [], []⟩ fileName entryPoint := by
  refine ⟨linkOutput_files_only w files objs m fileName entryPoint, ?_⟩
  have h := linkOutput_m_Files w0 ⟨files, objs, m⟩ fileName0 entryPoint0
  generalize (CLinker.linkOutput w0 ⟨files, objs, m⟩ fileName0 entryPoint0).self = s at h
  obtain ⟨f1, o1, m1⟩ := s
  simp only at h
  subst h
  exact linkOutput_files_only w f1 o1 m1 fileName entryPoint

/-! ## The kinds of failure -/

theorem msgUndefined_ne_msgRead (n : Name) : msgUndefined n ≠ msgRead := by
  intro h
  have h1 : (msgUndefined n).head? = some 85 := rfl
  have h2 : msgRead.head? = some 70 := rfl
  rw [h, h2] at h1
  exact absurd h1 (by decide)

theorem msgUndefined_ne_msgWrite (n : Name) : msgUndefined n ≠ msgWrite := by
  intro h
  have h1 : (msgUndefined n).head? = some 85 := rfl
  have h2 : msgWrite.head? = some 70 := rfl
  rw [h, h2] at h1
  exact absurd h1 (by decide)

theorem msgDuplicate_ne_msgRead (n : Name) : msgDuplicate n ≠ msgRead := by
  intro h
  have h1 : (msgDuplicate n).head? = some 68 := rfl
  have h2 : msgRead.head? = some 70 := rfl
  rw [h, h2] at h1
  exact absurd h1 (by decide)

theorem msgWrite_ne_msgRead : msgWrite ≠ msgRead := by decide

theorem loadCode_error (w : World) (self : CLinker) (fi : FunInfo) (e : Failure)
    (h : self.loadCode w fi = .error e) :
    e = .undefined_behaviour ∨ e = .runtime_error msgRead := by
  unfold CLinker.loadCode at h
  split at h
  · simp only [Except.error.injEq] at h
    exact Or.inl h.symm
  · split at h
    · simp only [Except.error.injEq] at h
      exact Or.inr h.symm
    · simp only at h
      split at h
      · simp only [Except.error.injEq] at h
        exact Or.inr h.symm
      · simp at h

theorem patchRefs_error (fi : FunInfo) (target : Nat) (refs : List Nat) (body : List Byte)
    (e : Failure) (h : patchRefs fi target refs body = .error e) :
    e = .undefined_behaviour := by
  induction refs generalizing body with
  | nil => simp [patchRefs] at h
  | cons r rest ih =>
    simp only [patchRefs] at h
    split at h
    · split at h
      · simp only [Except.error.injEq] at h
        exact h.symm
      · exact ih _ h
    · exact ih _ h

theorem patchImports_error (offs : List (Name × Nat)) (fi : FunInfo)
    (imports : List ImportFun) (body : List Byte) (e : Failure)
    (h : patchImports offs fi imports body = .error e) : e = .undefined_behaviour := by
  induction imports generalizing body with
  | nil => simp [patchImports] at h
  | cons imp rest ih =>
    simp only [patchImports] at h
    split at h
    · exact ih _ h
    · split at h
      · rename_i e1 he1
        simp only [Except.error.injEq] at h
        rw [← h]
        exact patchRefs_error _ _ _ _ _ he1
      · exact ih _ h

theorem emitLoop_error (w : World) (self : CLinker) (offs : List (Name × Nat))
    (order : List Name) (out : List Byte) (e : Failure)
    (h : (emitLoop w self offs order out).1 = .error e) :
    e = .undefined_behaviour ∨ e = .runtime_error msgRead := by
  induction order generalizing out with
  | nil => simp [emitLoop] at h
  | cons f rest ih =>
    simp only [emitLoop] at h
    split at h
    · simp only [Except.error.injEq] at h
      exact Or.inl h.symm
    · split at h
      · rename_i e1 he1
        simp only [Except.error.injEq] at h
        rw [← h]
        exact loadCode_error _ _ _ _ he1
      · split at h
        · simp only [Except.error.injEq] at h
          exact Or.inl h.symm
        · split at h
          · rename_i e1 he1
            simp only [Except.error.injEq] at h
            rw [← h]
            exact Or.inl (patchImports_error _ _ _ _ _ he1)
          · exact ih _ h

theorem assignOffsets_error (m : List (Name × FunInfo)) (order : List Name)
    (offs : List (Name × Nat)) (cur : Nat) (e : Failure)
    (h : assignOffsets m order offs cur = .error e) : e = .undefined_behaviour := by
  induction order generalizing offs cur with
  | nil => simp [assignOffsets] at h
  | cons f rest ih =>
    simp only [assignOffsets] at h
    split at h
    · simp only [Except.error.injEq] at h
      exact h.symm
    · exact ih _ _ h

theorem linkOutput_after_bfs (w : World) (self self1 : CLinker) (fileName : String)
    (entryPoint : Name) (needed : List Name)
    (hread : self.readFiles w = (.ok (), self1))
    (hbfs : self1.FunInfoMap.bfs entryPoint [] = (.ok (), needed)) :
    (self.linkOutput w fileName entryPoint).result = .ok () ∨
      (self.linkOutput w fileName entryPoint).result = .error .undefined_behaviour ∨
      (self.linkOutput w fileName entryPoint).result = .error (.runtime_error msgRead) ∨
      (self.linkOutput w fileName entryPoint).result = .error (.runtime_error msgWrite) := by
  unfold CLinker.linkOutput
  simp only [hread, hbfs]
  split
  · exact Or.inr (Or.inl rfl)
  · split
    · rename_i e he
      rw [assignOffsets_error _ _ _ _ _ he]
      exact Or.inr (Or.inl rfl)
    · split
      · split
        · rename_i e out he
          have := emitLoop_error w _ _ _ _ e (by rw [he])
          rcases this with h1 | h1
          · rw [h1]
            exact Or.inr (Or.inl rfl)
          · rw [h1]
            exact Or.inr (Or.inr (Or.inl rfl))
        · split
          · exact Or.inl rfl
          · exact Or.inr (Or.inr (Or.inr rfl))
      · exact Or.inr (Or.inr (Or.inr rfl))

/-! ## Calls, computed -/

theorem mem_callees (self : CLinker) (a b : Name) : b ∈ callees self a ↔ Calls self a b := by
  unfold callees Calls
  constructor
  · intro h
    split at h
    · simp at h
    · rename_i fi hfi
      split at h
      · simp at h
      · rename_i obj hobj
        simp only [List.mem_map, List.mem_filter, List.any_eq_true, decide_eq_true_eq] at h
        obtain ⟨imp, ⟨himp, r, hr, hin⟩, hname⟩ := h
        exact ⟨fi, obj, hfi, hobj, imp, himp, hname, r, hr, hin⟩
  · rintro ⟨fi, obj, hfi, hobj, imp, himp, hname, r, hr, hin⟩
    simp only [hfi, hobj, List.mem_map, List.mem_filter, List.any_eq_true, decide_eq_true_eq]
    exact ⟨imp, ⟨himp, r, hr, hin⟩, hname⟩

theorem reachable_mem_of_closed (self : CLinker) (entryPoint : Name) (l : List Name)
    (hentry : entryPoint ∈ l) (hclosed : ∀ a ∈ l, ∀ b ∈ callees self a, b ∈ l) (n : Name)
    (h : Reachable self entryPoint n) : n ∈ l := by
  unfold Reachable at h
  induction h with
  | refl => exact hentry
  | tail _ hstep ih => exact hclosed _ ih _ ((mem_callees self _ _).mpr hstep)

/-! ## Imports that nothing reachable uses -/

theorem no_undefined_error (w : World) (self : CLinker) (fileName : String)
    (entryPoint : Name) (os : List ObjFile) (hfiles : FilesHold w self.m_Files os)
    (hnd : (exportNames os).Nodup) (hwf : ∀ o ∈ os, OffsetsInCode o)
    (hentry : entryPoint ∈ exportNames os)
    (hdef : ∀ F b, Reachable (self.symbols w) entryPoint F → Calls (self.symbols w) F b →
      b ∈ exportNames os) :
    (∃ order, self.neededFunctions w entryPoint = .ok order) ∧
      ∀ n, (self.linkOutput w fileName entryPoint).result
        ≠ .error (.runtime_error (msgUndefined n)) := by
  obtain ⟨hread, hsym, _, hfits⟩ := readFiles_symbols w self os hfiles hnd
  rw [hsym] at hdef
  have hnw : ∀ n fi,
      mapFind (CLinker.FunInfoMap ⟨self.m_Files, os, []⟩).m_FunctionInfoMap n = some fi →
        fi.offset + fi.size < 4294967296 :=
    entry_no_wrap ⟨self.m_Files, os, []⟩ hfits hwf
  have hkeys := FunInfoMap_isSome_iff ⟨self.m_Files, os, []⟩
  simp only at hkeys
  rcases bfs_spec (CLinker.FunInfoMap ⟨self.m_Files, os, []⟩) entryPoint
      (FunInfoMap_fileIdx ⟨self.m_Files, os, []⟩) ((hkeys entryPoint).mpr hentry) with
    ⟨rest, hres, _, _, _⟩ | ⟨done, a, n, _, _, h3, _, h5⟩
  · constructor
    · obtain ⟨order, hsort⟩ : ∃ order, sortTail (entryPoint :: rest) = some order :=
        ⟨_, rfl⟩
      exact ⟨order, neededFunctions_of_stages w self _ entryPoint _ order hread hres hsort⟩
    · intro n hn
      rcases linkOutput_after_bfs w self _ fileName entryPoint _ hread hres with h | h | h | h
      · rw [h] at hn
        simp at hn
      · rw [h] at hn
        simp at hn
      · rw [h] at hn
        simp only [Except.error.injEq, Failure.runtime_error.injEq] at hn
        exact msgUndefined_ne_msgRead n hn.symm
      · rw [h] at hn
        simp only [Except.error.injEq, Failure.runtime_error.injEq] at hn
        exact msgUndefined_ne_msgWrite n hn.symm
  · exfalso
    obtain ⟨huse, hnone⟩ := firstUnresolved_uses _ a n h5
    have hr := (reach_uses_iff_calls _ hnw entryPoint a).mp (h3 a (by simp))
    have hc := (uses_iff_calls _ hnw a n).mp huse
    have := (hkeys n).mpr (hdef a n hr hc)
    rw [hnone] at this
    simp at this

/-- C11: when every registered file holds a laid-out object file whose export
offsets are at most `codeSz`, no export name occurs twice, the entry point is
exported, and every import with a reference offset in the byte range of a
function reachable from the entry point is exported by some file, then `bfs`
succeeds and `linkOutput` does not fail with an `Undefined symbol` error,
whatever other imports lack an export. -/
theorem C11_unused_imports (w : World) (self : CLinker) (fileName : String)
    (entryPoint : Name) (os : List ObjFile) (hfiles : FilesHold w self.m_Files os)
    (hnd : (exportNames os).Nodup) (hwf : ∀ o ∈ os, OffsetsInCode o)
    (hentry : entryPoint ∈ exportNames os)
    (hdef : ∀ F b, Reachable (self.symbols w) entryPoint F → Calls (self.symbols w) F b →
      b ∈ exportNames os) :
    (∃ order, self.neededFunctions w entryPoint = .ok order) ∧
      ∀ n, (self.linkOutput w fileName entryPoint).result
        ≠ .error (.runtime_error (msgUndefined n)) :=
  no_undefined_error w self fileName entryPoint os hfiles hnd hwf hentry hdef

theorem objLibIdle_encodable : objLibIdle.Encodable :=
  ⟨by decide, by decide, by decide, by decide, by decide, by decide, by decide, by decide,
    by decide, by decide, by decide⟩

theorem worldIdle_holds : FilesHold worldIdle linkerTwo.m_Files [objMain, objLibIdle] :=
  List.Forall₂.cons ⟨_, rfl, objMain_encodable, _, rfl⟩
    (List.Forall₂.cons ⟨_, rfl, objLibIdle_encodable, _, rfl⟩ List.Forall₂.nil)

theorem C11_unused_imports_witness :
    (∃ order, linkerTwo.neededFunctions worldIdle (str "main") = .ok order) ∧
      ∀ n, (linkerTwo.linkOutput worldIdle "out" (str "main")).result
        ≠ .error (.runtime_error (msgUndefined n)) :=
  C11_unused_imports worldIdle linkerTwo "out" (str "main") [objMain, objLibIdle]
    worldIdle_holds (by decide) (by decide) (by decide)
    (fun F b hF hC =>
      (by decide : ∀ F ∈ [str "main", str "f", str "g"],
          ∀ b ∈ callees (linkerTwo.symbols worldIdle) F, b ∈ exportNames [objMain, objLibIdle])
        F
        (reachable_mem_of_closed (linkerTwo.symbols worldIdle) (str "main")
          [str "main", str "f", str "g"] (by decide) (by decide) F hF)
        b ((mem_callees _ F b).mpr hC))

/-! ## A patch at the end of a function -/

/-- C18 fails on the code: `main.o` holds a reference to `f` at 6 in the 8 bytes
of `main`. The files parse to `objEdge` and `objLib`, `main` and `f` are needed,
the reference passes the range test of `linkOutput`, the buffer loaded for
`main` has 8 bytes, and the four patched positions 6, 7, 8, 9 do not all lie in
it: the `memcpy` at 6 runs past the end of the buffer. -/
theorem C18_patch_past_buffer :
    (linkerTwo.symbols worldEdge).m_ObjFiles = [objEdge, objLib] ∧
      linkerTwo.neededFunctions worldEdge (str "main") = .ok [str "main", str "f"] ∧
      mapFind (linkerTwo.symbols worldEdge).m_FunctionInfoMap (str "main")
        = some ⟨0, 0, 8, 31⟩ ∧
      (⟨str "f", [6]⟩ : ImportFun) ∈ objEdge.imports ∧
      inRange ⟨0, 0, 8, 31⟩ 6 = true ∧
      (linkerTwo.symbols worldEdge).loadCode worldEdge ⟨0, 0, 8, 31⟩
        = .ok [1, 2, 3, 4, 5, 6, 7, 8] ∧
      ¬ (subU32 6 0 + 3 < ([1, 2, 3, 4, 5, 6, 7, 8] : List Byte).length) ∧
      memcpyU32 [1, 2, 3, 4, 5, 6, 7, 8] (subU32 6 0) 8 = none ∧
      (linkerTwo.linkOutput worldEdge "out" (str "main")).result
        = .error .undefined_behaviour :=
  ⟨by decide, by rfl, by decide, by decide, by decide, by rfl, by decide, by decide, by rfl⟩

/-! ## The ranges of the exports of a file -/

theorem nextOffset_le_of_greater (o : ObjFile) (e x : ExportFun) (hx : x ∈ o.exports)
    (h : e.offset < x.offset) : nextOffset o e ≤ x.offset :=
  (foldl_next_spec e.offset o.exports o.fileHeader.codeSz).2.1 x hx h

theorem nextOffset_congr (o : ObjFile) (e1 e2 : ExportFun) (h : e1.offset = e2.offset) :
    nextOffset o e1 = nextOffset o e2 := by
  unfold nextOffset
  rw [h]

theorem exists_greatest_below (l : List ExportFun) (x : Nat)
    (h : ∃ e ∈ l, e.offset ≤ x) :
    ∃ e ∈ l, e.offset ≤ x ∧ ∀ e1 ∈ l, e1.offset ≤ x → e1.offset ≤ e.offset := by
  induction l with
  | nil => simp at h
  | cons a rest ih =>
    by_cases hr : ∃ e ∈ rest, e.offset ≤ x
    · obtain ⟨e, he, hle, hmax⟩ := ih hr
      by_cases ha : a.offset ≤ x ∧ e.offset < a.offset
      · refine ⟨a, List.mem_cons_self _ _, ha.1, ?_⟩
        intro e1 he1 hle1
        rcases List.mem_cons.mp he1 with rfl | he1
        · exact Nat.le_refl _
        · have := hmax e1 he1 hle1
          omega
      · refine ⟨e, List.mem_cons_of_mem _ he, hle, ?_⟩
        intro e1 he1 hle1
        rcases List.mem_cons.mp he1 with rfl | he1
        · omega
        · exact hmax e1 he1 hle1
    · obtain ⟨e, he, hle⟩ := h
      rcases List.mem_cons.mp he with rfl | he
      · refine ⟨e, List.mem_cons_self _ _, hle, ?_⟩
        intro e1 he1 hle1
        rcases List.mem_cons.mp he1 with rfl | he1
        · exact Nat.le_refl _
        · exact absurd ⟨e1, he1, hle1⟩ hr
      · exact absurd ⟨e, he, hle⟩ hr

theorem export_ranges (i : Nat) (o : ObjFile) (hc : o.fileHeader.codeSz < 4294967296)
    (hin : OffsetsInCode o) :
    (∀ e1 ∈ o.exports, ∀ e2 ∈ o.exports, e1.offset ≠ e2.offset → ∀ x,
        ¬ ((e1.offset ≤ x ∧ x < e1.offset + (funInfoOf i o e1).size) ∧
          (e2.offset ≤ x ∧ x < e2.offset + (funInfoOf i o e2).size))) ∧
      (∀ e1 ∈ o.exports, ∀ e2 ∈ o.exports, e1.offset = e2.offset →
        (funInfoOf i o e1).offset = (funInfoOf i o e2).offset ∧
          (funInfoOf i o e1).size = (funInfoOf i o e2).size) ∧
      ∀ x, (∃ e ∈ o.exports, e.offset ≤ x ∧ x < e.offset + (funInfoOf i o e).size) ↔
        ((∃ e ∈ o.exports, e.offset ≤ x) ∧ x < o.fileHeader.codeSz) := by
  have hsz : ∀ e ∈ o.exports, e.offset + (funInfoOf i o e).size = nextOffset o e :=
    fun e he => funInfoOf_size i o e hc (hin e he)
  refine ⟨?_, ?_, ?_⟩
  · intro e1 h1 e2 h2 hne x hx
    rw [hsz e1 h1, hsz e2 h2] at hx
    rcases Nat.lt_or_gt_of_ne hne with hlt | hgt
    · have := nextOffset_le_of_greater o e1 e2 h2 hlt
      omega
    · have := nextOffset_le_of_greater o e2 e1 h1 hgt
      omega
  · intro e1 h1 e2 h2 heq
    have a1 := hsz e1 h1
    have a2 := hsz e2 h2
    rw [nextOffset_congr o e1 e2 heq] at a1
    refine ⟨heq, ?_⟩
    omega
  · intro x
    constructor
    · rintro ⟨e, he, hlo, hhi⟩
      rw [hsz e he] at hhi
      have := nextOffset_le_codeSz o e
      exact ⟨⟨e, he, hlo⟩, by omega⟩
    · rintro ⟨hex, hx⟩
      obtain ⟨e, he, hle, hmax⟩ := exists_greatest_below o.exports x hex
      refine ⟨e, he, hle, ?_⟩
      rw [hsz e he]
      obtain ⟨_, _, h3⟩ := foldl_next_spec e.offset o.exports o.fileHeader.codeSz
      unfold nextOffset
      rcases h3 with h3 | ⟨z, hz, hzo, _, hze⟩
      · omega
      · rw [← hze]
        by_contra hcon
        have := hmax z hz (by omega)
        omega

/-- C20: in an object file whose export offsets are all at most `codeSz`, the
byte ranges `[offset, offset + size)` that `FunInfoMap` computes for two exports
with different offsets have no byte in common, two exports with the same offset
get the same range, and a byte lies in the range of some export exactly when it
is at or after some export offset (so at or after the smallest) and before
`codeSz`. -/
theorem C20_export_ranges (i : Nat) (o : ObjFile) (hc : o.fileHeader.codeSz < 4294967296)
    (hin : OffsetsInCode o) :
    (∀ e1 ∈ o.exports, ∀ e2 ∈ o.exports, e1.offset ≠ e2.offset → ∀ x,
        ¬ ((e1.offset ≤ x ∧ x < e1.offset + (funInfoOf i o e1).size) ∧
          (e2.offset ≤ x ∧ x < e2.offset + (funInfoOf i o e2).size))) ∧
      (∀ e1 ∈ o.exports, ∀ e2 ∈ o.exports, e1.offset = e2.offset →
        (funInfoOf i o e1).offset = (funInfoOf i o e2).offset ∧
          (funInfoOf i o e1).size = (funInfoOf i o e2).size) ∧
      ∀ x, (∃ e ∈ o.exports, e.offset ≤ x ∧ x < e.offset + (funInfoOf i o e).size) ↔
        ((∃ e ∈ o.exports, e.offset ≤ x) ∧ x < o.fileHeader.codeSz) :=
  export_ranges i o hc hin

theorem C20_export_ranges_witness :
    (∀ e1 ∈ objLib.exports, ∀ e2 ∈ objLib.exports, e1.offset ≠ e2.offset → ∀ x,
        ¬ ((e1.offset ≤ x ∧ x < e1.offset + (funInfoOf 1 objLib e1).size) ∧
          (e2.offset ≤ x ∧ x < e2.offset + (funInfoOf 1 objLib e2).size))) ∧
      (∀ e1 ∈ objLib.exports, ∀ e2 ∈ objLib.exports, e1.offset = e2.offset →
        (funInfoOf 1 objLib e1).offset = (funInfoOf 1 objLib e2).offset ∧
          (funInfoOf 1 objLib e1).size = (funInfoOf 1 objLib e2).size) ∧
      ∀ x, (∃ e ∈ objLib.exports, e.offset ≤ x ∧ x < e.offset + (funInfoOf 1 objLib e).size) ↔
        ((∃ e ∈ objLib.exports, e.offset ≤ x) ∧ x < objLib.fileHeader.codeSz) :=
  C20_export_ranges 1 objLib (by decide) (by decide)

/-! ## Parsing undoes the layout -/

theorem flatMap_encodeU32_length (refs : List Nat) :
    (refs.flatMap encodeU32).length = 4 * refs.length := by
  induction refs with
  | nil => rfl
  | cons r rs ih =>
    simp only [List.flatMap_cons, List.length_append, encodeU32_length, ih, List.length_cons]
    omega

theorem encodeExport_length (e : ExportFun) : (encodeExport e).length = 5 + e.name.length := by
  simp only [encodeExport, List.length_cons, List.length_append, encodeU32_length]
  omega

theorem encodeImport_length (i : ImportFun) :
    (encodeImport i).length = 5 + i.name.length + 4 * i.references.length := by
  simp only [encodeImport, List.length_cons, List.length_append, encodeU32_length,
    flatMap_encodeU32_length]
  omega

theorem flatMap_encodeExport_length (es : List ExportFun) :
    (es.flatMap encodeExport).length = (es.map (fun e => 5 + e.name.length)).sum := by
  induction es with
  | nil => rfl
  | cons e es ih =>
    simp only [List.flatMap_cons, List.length_append, encodeExport_length, ih, List.map_cons,
      List.sum_cons]

theorem flatMap_encodeImport_length (is : List ImportFun) :
    (is.flatMap encodeImport).length
      = (is.map (fun i => 5 + i.name.length + 4 * i.references.length)).sum := by
  induction is with
  | nil => rfl
  | cons i is ih =>
    simp only [List.flatMap_cons, List.length_append, encodeImport_length, ih, List.map_cons,
      List.sum_cons]

theorem layout_length_eq (o : ObjFile) :
    o.layout.length = tablesLength o.exports o.imports := by
  rw [layout_length, flatMap_encodeExport_length, flatMap_encodeImport_length]
  rfl

theorem laidOut_encodable (es : List ExportFun) (is : List ImportFun) (codeSz : Nat)
    (hes : es.length < 4294967296) (his : is.length < 4294967296)
    (hc : codeSz < 4294967296)
    (hen : ∀ e ∈ es, e.name.length < 256) (heo : ∀ e ∈ es, e.offset < 4294967296)
    (hin : ∀ i ∈ is, i.name.length < 256)
    (hic : ∀ i ∈ is, i.references.length < 4294967296)
    (hir : ∀ i ∈ is, ∀ r ∈ i.references, r < 4294967296) :
    (laidOut es is codeSz).Encodable :=
  ⟨rfl, rfl, hes, his, hc, hen, heo, hin, hic, hir, by
    rw [layout_length_eq]
    rfl⟩

theorem readFiles_laidOut (w : World) (f : String) (es : List ExportFun)
    (is : List ImportFun) (codeSz : Nat) (code : List Byte) (objs0 : List ObjFile)
    (m0 : List (Name × FunInfo))
    (hes : es.length < 4294967296) (his : is.length < 4294967296)
    (hc : codeSz < 4294967296)
    (hen : ∀ e ∈ es, e.name.length < 256) (heo : ∀ e ∈ es, e.offset < 4294967296)
    (hin : ∀ i ∈ is, i.name.length < 256)
    (hic : ∀ i ∈ is, i.references.length < 4294967296)
    (hir : ∀ i ∈ is, ∀ r ∈ i.references, r < 4294967296)
    (hnd : (es.map (fun e => e.name)).Nodup)
    (hfile : w.readable f = some ((laidOut es is codeSz).layout ++ code)) :
    CLinker.readFiles w ⟨[f], objs0, m0⟩ = (.ok (), ⟨[f], [laidOut es is codeSz], []⟩) := by
  have henc := laidOut_encodable es is codeSz hes his hc hen heo hin hic hir
  have hfiles : FilesHold w (CLinker.mk [f] objs0 m0).m_Files [laidOut es is codeSz] :=
    List.Forall₂.cons ⟨_, hfile, henc, code, rfl⟩ List.Forall₂.nil
  have hnd2 : (exportNames [laidOut es is codeSz]).Nodup := by
    simpa [exportNames, laidOut] using hnd
  exact (readFiles_holds w ⟨[f], objs0, m0⟩ _ hfiles).1 hnd2

/-- C13 (as amended): for exports with pairwise distinct names of at most 255
bytes, imports with names of at most 255 bytes, and counts, offsets and a code
size that fit 32 bits, `readFiles` applied to a file that holds the header, the
export records and the import records followed by any bytes yields exactly that
header, those exports and those imports in the same order, and records as base
offset of the code section, modulo `2 ^ 32`, the number of bytes before it:
`12 + sum (5 + nameLen) + sum (5 + nameLen + 4 * refCount)`. -/
theorem C13_parse_layout (w : World) (f : String) (es : List ExportFun)
    (is : List ImportFun) (codeSz : Nat) (code : List Byte) (objs0 : List ObjFile)
    (m0 : List (Name × FunInfo))
    (hes : es.length < 4294967296) (his : is.length < 4294967296)
    (hc : codeSz < 4294967296)
    (hen : ∀ e ∈ es, e.name.length < 256) (heo : ∀ e ∈ es, e.offset < 4294967296)
    (hin : ∀ i ∈ is, i.name.length < 256)
    (hic : ∀ i ∈ is, i.references.length < 4294967296)
    (hir : ∀ i ∈ is, ∀ r ∈ i.references, r < 4294967296)
    (hnd : (es.map (fun e => e.name)).Nodup)
    (hfile : w.readable f = some ((laidOut es is codeSz).layout ++ code)) :
    CLinker.readFiles w ⟨[f], objs0, m0⟩
        = (.ok (), ⟨[f], [⟨is, es, ⟨es.length, is.length, codeSz⟩,
            tablesLength es is % 4294967296⟩], []⟩) ∧
      (laidOut es is codeSz).layout.length = tablesLength es is :=
  ⟨readFiles_laidOut w f es is codeSz code objs0 m0 hes his hc hen heo hin hic hir hnd hfile,
    layout_length_eq _⟩

theorem C13_parse_layout_witness :
    CLinker.readFiles worldTwo ⟨["lib.o"], [objMain], []⟩
        = (.ok (), ⟨["lib.o"], [⟨[], objLib.exports,
            ⟨objLib.exports.length, ([] : List ImportFun).length, 8⟩,
            tablesLength objLib.exports [] % 4294967296⟩], []⟩) ∧
      (laidOut objLib.exports [] 8).layout.length = tablesLength objLib.exports [] :=
  C13_parse_layout worldTwo "lib.o" objLib.exports [] 8
    [11, 12, 13, 14, 15, 16, 17, 18] [objMain] [] (by decide) (by decide) (by decide)
    (by decide) (by decide) (by decide) (by decide) (by decide) (by decide) (by rfl)

theorem manyRefs_length : manyRefs.length = 1073741824 :=
  List.length_replicate _ _

theorem manyRefs_lt (r : Nat) (h : r ∈ manyRefs) : r < 4294967296 := by
  have h2 := (List.mem_replicate.mp h).2
  omega

theorem readFiles_many_refs (w : World) (refs : List Nat) (hlen : refs.length = 1073741824)
    (hlt : ∀ r ∈ refs, r < 4294967296)
    (hfile : w.readable "huge.o" = some ((laidOut [] [⟨[], refs⟩] 0).layout ++ [])) :
    CLinker.readFiles w ⟨["huge.o"], [], []⟩
        = (.ok (), ⟨["huge.o"], [⟨[⟨[], refs⟩], [], ⟨0, 1, 0⟩, 17⟩], []⟩) ∧
      (laidOut [] [⟨[], refs⟩] 0).layout.length = 4294967313 ∧
      12 + (([] : List ExportFun).map (fun e => 5 + e.name.length)).sum +
        ([(⟨[], refs⟩ : ImportFun)].map
          (fun i => 5 + i.name.length + 4 * i.references.length)).sum = 4294967313 := by
  have ht : tablesLength [] [⟨[], refs⟩] = 4294967313 := by
    simp only [tablesLength, List.map_nil, List.sum_nil, List.map_cons, List.sum_cons,
      List.length_nil, hlen]
    omega
  have h := readFiles_laidOut w "huge.o" [] [⟨[], refs⟩] 0 [] [] []
    (by simp) (by simp) (by omega) (by simp) (by simp)
    (by
      intro i hi
      rw [List.mem_singleton] at hi
      subst hi
      simp)
    (by
      intro i hi
      rw [List.mem_singleton] at hi
      subst hi
      simp only [hlen]
      omega)
    (by
      intro i hi r hr
      rw [List.mem_singleton] at hi
      subst hi
      exact hlt r hr)
    (by simp) hfile
  refine ⟨?_, ?_, ht⟩
  · rw [h]
    simp only [laidOut, ht, List.length_nil, List.length_singleton]
  · rw [layout_length_eq]
    exact ht

/-- C13 fails as stated: `huge.o` holds the layout of an object file whose
only import has `2 ^ 30` references. `readFiles` parses it to that object file and
records 17 as the base offset of the code section, while 4294967313 bytes stand
before the code section. -/
theorem C13_counterexample :
    CLinker.readFiles worldHuge ⟨["huge.o"], [], []⟩
        = (.ok (), ⟨["huge.o"], [⟨[⟨[], manyRefs⟩], [], ⟨0, 1, 0⟩, 17⟩], []⟩) ∧
      (laidOut [] [⟨[], manyRefs⟩] 0).layout.length = 4294967313 ∧
      12 + (([] : List ExportFun).map (fun e => 5 + e.name.length)).sum +
        ([(⟨[], manyRefs⟩ : ImportFun)].map
          (fun i => 5 + i.name.length + 4 * i.references.length)).sum = 4294967313 :=
  readFiles_many_refs worldHuge manyRefs manyRefs_length manyRefs_lt rfl

/-! ## Reading a truncated file -/

theorem take_append_ge (a rest : List Byte) (n : Nat) (h : a.length ≤ n) :
    (a ++ rest).take n = a ++ rest.take (n - a.length) := by
  rw [List.take_append_eq_append_take, List.take_of_length_le h]

theorem read_take (a rest : List Byte) (n p : Nat) :
    IFStream.read ⟨(a ++ rest).take n, p⟩ a.length
      = if a.length ≤ n then some (a, ⟨rest.take (n - a.length), p + a.length⟩) else none := by
  by_cases h : a.length ≤ n
  · rw [if_pos h, take_append_ge a rest n h, read_append]
  · rw [if_neg h]
    have hl : ((a ++ rest).take n).length < a.length := by
      rw [List.length_take, List.length_append]
      omega
    simp only [IFStream.read]
    rw [if_neg (by omega)]

theorem readU32_take (v : Nat) (hv : v < 4294967296) (rest : List Byte) (n p : Nat) :
    IFStream.readU32 ⟨(encodeU32 v ++ rest).take n, p⟩
      = if 4 ≤ n then some (v, ⟨rest.take (n - 4), p + 4⟩) else none := by
  have h := read_take (encodeU32 v) rest n p
  rw [encodeU32_length] at h
  simp only [IFStream.readU32, h]
  by_cases h4 : 4 ≤ n
  · simp only [if_pos h4, decode_encodeU32 v hv]
  · simp only [if_neg h4]

theorem readU8_take (b : Nat) (hb : b < 256) (rest : List Byte) (n p : Nat) :
    IFStream.readU8 ⟨(toByte b :: rest).take n, p⟩
      = if 1 ≤ n then some (b, ⟨rest.take (n - 1), p + 1⟩) else none := by
  have h := read_take [toByte b] rest n p
  simp only [List.length_singleton, List.singleton_append] at h
  simp only [IFStream.readU8, h]
  by_cases h1 : 1 ≤ n
  · simp only [if_pos h1, List.headD_cons, toByte, Nat.mod_eq_of_lt hb]
  · simp only [if_neg h1]

theorem readRefs_take (refs : List Nat) (hr : ∀ r ∈ refs, r < 4294967296)
    (rest : List Byte) (n p : Nat) (acc : List Nat) :
    readRefs refs.length ⟨(refs.flatMap encodeU32 ++ rest).take n, p⟩ acc
      = if (refs.flatMap encodeU32).length ≤ n then
          .ok (⟨rest.take (n - (refs.flatMap encodeU32).length),
            p + (refs.flatMap encodeU32).length⟩, acc ++ refs)
        else .error (.runtime_error msgRead) := by
  induction refs generalizing n p acc with
  | nil => simp [readRefs]
  | cons r rs ih =>
    simp only [List.flatMap_cons, List.append_assoc, List.length_cons, readRefs,
      List.length_append, encodeU32_length]
    rw [readU32_take r (hr r (List.mem_cons_self _ _))]
    by_cases h4 : 4 ≤ n
    · rw [if_pos h4]
      simp only
      rw [ih (fun x hx => hr x (List.mem_cons_of_mem _ hx))]
      by_cases h : (rs.flatMap encodeU32).length ≤ n - 4
      · rw [if_pos h, if_pos (by omega)]
        simp only [List.append_assoc, List.singleton_append]
        congr 3
        · congr 1
          omega
        · omega
      · rw [if_neg h, if_neg (by omega)]
    · rw [if_neg h4, if_neg (by omega)]

theorem readImports_take (imports : List ImportFun)
    (hname : ∀ i ∈ imports, i.name.length < 256)
    (hcount : ∀ i ∈ imports, i.references.length < 4294967296)
    (hrefs : ∀ i ∈ imports, ∀ r ∈ i.references, r < 4294967296)
    (rest : List Byte) (n p : Nat) (acc : List ImportFun) :
    readImports imports.length ⟨(imports.flatMap encodeImport ++ rest).take n, p⟩ acc
      = if (imports.flatMap encodeImport).length ≤ n then
          .ok (⟨rest.take (n - (imports.flatMap encodeImport).length),
            p + (imports.flatMap encodeImport).length⟩, acc ++ imports)
        else .error (.runtime_error msgRead) := by
  induction imports generalizing n p acc with
  | nil => simp [readImports]
  | cons i is ih =>
    have hi := List.mem_cons_self i is
    simp only [List.flatMap_cons, List.length_cons, readImports, encodeImport,
      List.cons_append, List.append_assoc, List.length_append, encodeU32_length]
    rw [readU8_take _ (hname i hi)]
    by_cases h1 : 1 ≤ n
    · rw [if_pos h1]
      simp only
      rw [read_take]
      by_cases h2 : i.name.length ≤ n - 1
      · rw [if_pos h2]
        simp only
        rw [readU32_take _ (hcount i hi)]
        by_cases h3 : 4 ≤ n - 1 - i.name.length
        · rw [if_pos h3]
          simp only
          rw [readRefs_take _ (hrefs i hi)]
          by_cases h4 : (i.references.flatMap encodeU32).length ≤ n - 1 - i.name.length - 4
          · rw [if_pos h4]
            simp only
            rw [ih (fun x hx => hname x (List.mem_cons_of_mem _ hx))
              (fun x hx => hcount x (List.mem_cons_of_mem _ hx))
              (fun x hx => hrefs x (List.mem_cons_of_mem _ hx))]
            by_cases h5 : (is.flatMap encodeImport).length
                ≤ n - 1 - i.name.length - 4 - (i.references.flatMap encodeU32).length
            · rw [if_pos h5, if_pos (by omega)]
              simp only [List.nil_append, List.append_assoc, List.singleton_append]
              congr 3
              · congr 1
                omega
              · omega
            · rw [if_neg h5, if_neg (by omega)]
          · rw [if_neg h4, if_neg (by omega)]
        · rw [if_neg h3, if_neg (by omega)]
      · rw [if_neg h2, if_neg (by omega)]
    · rw [if_neg h1, if_neg (by omega)]

theorem readExports_take (k : Nat) (es : List ExportFun)
    (hname : ∀ e ∈ es, e.name.length < 256) (hoff : ∀ e ∈ es, e.offset < 4294967296)
    (rest : List Byte) (n p : Nat) (exportDup : List (Name × Nat)) (acc : List ExportFun)
    (hnr : firstRepeat (exportDup.map Prod.fst) (es.map (fun e => e.name)) = none) :
    readExports k es.length ⟨(es.flatMap encodeExport ++ rest).take n, p⟩ exportDup acc
      = if (es.flatMap encodeExport).length ≤ n then
          .ok (⟨rest.take (n - (es.flatMap encodeExport).length),
            p + (es.flatMap encodeExport).length⟩,
            exportDup ++ es.map (fun e => (e.name, k)), acc ++ es)
        else .error (.runtime_error msgRead) := by
  induction es generalizing n p exportDup acc with
  | nil => simp [readExports]
  | cons e es ih =>
    have he := List.mem_cons_self e es
    simp only [List.map_cons, firstRepeat] at hnr
    split at hnr
    · simp at hnr
    rename_i hnot
    have hf : mapFind exportDup e.name = none := (mapFind_eq_none_iff _ _).mpr hnot
    simp only [List.flatMap_cons, List.length_cons, readExports, encodeExport,
      List.cons_append, List.append_assoc, List.length_append, encodeU32_length]
    rw [readU8_take _ (hname e he)]
    by_cases h1 : 1 ≤ n
    · rw [if_pos h1]
      simp only
      rw [read_take]
      by_cases h2 : e.name.length ≤ n - 1
      · rw [if_pos h2]
        simp only
        rw [readU32_take _ (hoff e he)]
        by_cases h3 : 4 ≤ n - 1 - e.name.length
        · rw [if_pos h3]
          simp only [hf]
          rw [ih (fun x hx => hname x (List.mem_cons_of_mem _ hx))
            (fun x hx => hoff x (List.mem_cons_of_mem _ hx)) _ _ _ _
            (by rw [mapSet_of_none _ _ _ hf]; simpa using hnr),
            mapSet_of_none _ _ _ hf]
          by_cases h5 : (es.flatMap encodeExport).length ≤ n - 1 - e.name.length - 4
          · rw [if_pos h5, if_pos (by omega)]
            simp only [List.map_cons, List.append_assoc, List.singleton_append]
            congr 3
            · congr 1
              omega
            · omega
          · rw [if_neg h5, if_neg (by omega)]
        · rw [if_neg h3, if_neg (by omega)]
      · rw [if_neg h2, if_neg (by omega)]
    · rw [if_neg h1, if_neg (by omega)]

theorem readObjFile_take (k : Nat) (o : ObjFile) (code : List Byte) (n : Nat)
    (exportDup : List (Name × Nat)) (henc : o.Encodable)
    (hnr : firstRepeat (exportDup.map Prod.fst) (o.exports.map (fun e => e.name)) = none) :
    readObjFile k ⟨(o.layout ++ code).take n, 0⟩ exportDup
      = if o.layout.length ≤ n then
          .ok (o, exportDup ++ o.exports.map (fun e => (e.name, k)))
        else .error (.runtime_error msgRead) := by
  have hlen := layout_length o
  have hod := henc.offsetData_eq
  obtain ⟨imports, exports, ⟨expCnt, imCnt, codeSz⟩, offsetData⟩ := o
  have h1 := henc.expCnt_eq
  have h2 := henc.imCnt_eq
  simp only at h1 h2 hlen hod hnr
  subst h1 h2
  rw [hlen]
  simp only [readObjFile, ObjFile.layout, List.append_assoc]
  rw [readU32_take _ henc.expCnt_lt]
  by_cases h4 : 4 ≤ n
  · rw [if_pos h4]
    simp only
    rw [readU32_take _ henc.imCnt_lt]
    by_cases h8 : 4 ≤ n - 4
    · rw [if_pos h8]
      simp only
      rw [readU32_take _ henc.codeSz_lt]
      by_cases h12 : 4 ≤ n - 4 - 4
      · rw [if_pos h12]
        simp only
        rw [readExports_take k exports henc.exp_name henc.exp_offset _ _ _ _ _ hnr]
        by_cases he : (exports.flatMap encodeExport).length ≤ n - 4 - 4 - 4
        · rw [if_pos he]
          simp only
          rw [readImports_take imports henc.imp_name henc.imp_count henc.imp_refs]
          by_cases hi : (imports.flatMap encodeImport).length
              ≤ n - 4 - 4 - 4 - (exports.flatMap encodeExport).length
          · rw [if_pos hi, if_pos (by omega)]
            simp only [List.nil_append]
            congr 3
            rw [hod, hlen]
          · rw [if_neg hi, if_neg (by omega)]
        · rw [if_neg he, if_neg (by omega)]
      · rw [if_neg h12, if_neg (by omega)]
    · rw [if_neg h8, if_neg (by omega)]
  · rw [if_neg h4, if_neg (by omega)]

theorem readFilesLoop_prefix (w : World) (pre : List String) (os : List ObjFile)
    (h : FilesHold w pre os) (rest : List String) (k : Nat) (exportDup : List (Name × Nat))
    (objs : List ObjFile)
    (hnr : firstRepeat (exportDup.map Prod.fst) (exportNames os) = none) :
    ∃ exportDup1, exportDup1.map Prod.fst = exportDup.map Prod.fst ++ exportNames os ∧
      readFilesLoop w (pre ++ rest) k exportDup objs
        = readFilesLoop w rest (k + pre.length) exportDup1 (objs ++ os) := by
  unfold FilesHold at h
  induction h generalizing k exportDup objs with
  | nil => exact ⟨exportDup, by simp [exportNames], by simp⟩
  | cons hfo htail ih =>
    rename_i f o fs os2
    obtain ⟨content, hread, henc, code, hcontent⟩ := hfo
    subst hcontent
    rw [exportNames_cons, firstRepeat_append] at hnr
    cases hfr : firstRepeat (exportDup.map Prod.fst) (o.exports.map (fun e => e.name)) with
    | some m =>
      rw [hfr] at hnr
      simp at hnr
    | none =>
      rw [hfr] at hnr
      simp only at hnr
      have hkeys : (exportDup ++ o.exports.map (fun e => (e.name, k))).map Prod.fst
          = exportDup.map Prod.fst ++ o.exports.map (fun e => e.name) := by
        simp [List.map_append, Function.comp_def]
      obtain ⟨d1, hd1, hrun⟩ :=
        ih (k + 1) (exportDup ++ o.exports.map (fun e => (e.name, k))) (objs ++ [o])
          (by rw [hkeys]; exact hnr)
      refine ⟨d1, ?_, ?_⟩
      · rw [hd1, hkeys, exportNames_cons, List.append_assoc]
      · rw [List.cons_append]
        simp only [readFilesLoop, hread, readObjFile_layout k o code exportDup henc, hfr]
        rw [hrun]
        simp only [List.length_cons, List.append_assoc, List.singleton_append]
        congr 1
        omega

theorem readFiles_truncated (w : World) (self : CLinker) (pre post : List String)
    (f : String) (os : List ObjFile) (o : ObjFile)
    (hfiles : self.m_Files = pre ++ f :: post) (hpre : FilesHold w pre os)
    (henc : o.Encodable) (hnd : (exportNames (os ++ [o])).Nodup)
    (hbad : w.readable f = none ∨
      ∃ n, n < o.layout.length ∧ w.readable f = some (o.layout.take n)) :
    (self.readFiles w).1 = .error (.runtime_error msgRead) := by
  have hfr : firstRepeat [] (exportNames (os ++ [o])) = none :=
    (firstRepeat_none_iff [] _).mpr ⟨by simp, hnd⟩
  have hsplit : exportNames (os ++ [o]) = exportNames os ++ o.exports.map (fun e => e.name) := by
    simp [exportNames]
  rw [hsplit, firstRepeat_append] at hfr
  cases hfr1 : firstRepeat [] (exportNames os) with
  | some m =>
    rw [hfr1] at hfr
    simp at hfr
  | none =>
    rw [hfr1] at hfr
    simp only [List.nil_append] at hfr
    obtain ⟨d1, hd1, hrun⟩ := readFilesLoop_prefix w pre os hpre (f :: post) 0 [] []
      (by simpa using hfr1)
    simp only [List.map_nil, List.nil_append] at hd1
    simp only [CLinker.readFiles, hfiles, hrun]
    rcases hbad with hnone | ⟨n, hn, hsome⟩
    · simp only [readFilesLoop, hnone]
    · have ht := readObjFile_take (0 + pre.length) o [] n d1 henc (by rw [hd1]; exact hfr)
      rw [List.append_nil, if_neg (by omega)] at ht
      simp only [readFilesLoop, hsome, ht]

/-! ## The scenario of two files -/

theorem scenarioA_layout_length (codeSz r : Nat) : (scenarioA codeSz r).layout.length = 36 := by
  rw [layout_length_eq]
  rfl

theorem scenarioB_layout_length (codeSz : Nat) : (scenarioB codeSz).layout.length = 23 := by
  rw [layout_length_eq]
  rfl

theorem scenarioA_encodable (codeSz r : Nat) (hc : codeSz < 4294967296)
    (hr : r < 4294967296) : (scenarioA codeSz r).Encodable := by
  refine ⟨rfl, rfl, ?_, ?_, hc, ?_, ?_, ?_, ?_, ?_, ?_⟩
  · show [(⟨str "main", 0⟩ : ExportFun)].length < 4294967296
    decide
  · show [(⟨str "helper", [r]⟩ : ImportFun)].length < 4294967296
    simp
  · intro e he
    simp only [scenarioA, List.mem_singleton] at he
    subst he
    decide
  · intro e he
    simp only [scenarioA, List.mem_singleton] at he
    subst he
    decide
  · intro i hi
    simp only [scenarioA, List.mem_singleton] at hi
    subst hi
    show (str "helper").length < 256
    decide
  · intro i hi
    simp only [scenarioA, List.mem_singleton] at hi
    subst hi
    simp
  · intro i hi x hx
    simp only [scenarioA, List.mem_singleton] at hi
    subst hi
    simp only [List.mem_singleton] at hx
    subst hx
    exact hr
  · rw [scenarioA_layout_length]
    rfl

theorem scenarioB_encodable (codeSz : Nat) (hc : codeSz < 4294967296) :
    (scenarioB codeSz).Encodable := by
  refine ⟨rfl, rfl, ?_, ?_, hc, ?_, ?_, ?_, ?_, ?_, ?_⟩
  · show [(⟨str "helper", 0⟩ : ExportFun)].length < 4294967296
    decide
  · show ([] : List ImportFun).length < 4294967296
    decide
  · intro e he
    simp only [scenarioB, List.mem_singleton] at he
    subst he
    decide
  · intro e he
    simp only [scenarioB, List.mem_singleton] at he
    subst he
    decide
  · intro i hi
    simp [scenarioB] at hi
  · intro i hi
    simp [scenarioB] at hi
  · intro i hi
    simp [scenarioB] at hi
  · rw [scenarioB_layout_length]
    rfl

theorem subU32_zero (a : Nat) (h : a < 4294967296) : subU32 a 0 = a := by
  unfold subU32
  omega

theorem addU32_zero_left (a : Nat) (h : a < 4294967296) : addU32 0 a = a := by
  unfold addU32
  omega

theorem main_ne_helper : str "main" ≠ str "helper" := by decide

theorem helper_ne_main : str "helper" ≠ str "main" := by decide

theorem drop_layout (l code : List Byte) (n : Nat) (h : l.length = n) :
    (l ++ code).drop n = code := by
  subst h
  exact List.drop_left _ _

theorem read_all (code : List Byte) (p n : Nat) (h : code.length = n) :
    IFStream.read ⟨code, p⟩ n = some (code, ⟨[], p + n⟩) := by
  subst h
  simp [IFStream.read]

theorem two_files_read (w : World) (fA fB : String) (objs : List ObjFile)
    (m : List (Name × FunInfo)) (codeSzA codeSzB r : Nat) (codeA codeB : List Byte)
    (hA : w.readable fA = some ((scenarioA codeSzA r).layout ++ codeA))
    (hB : w.readable fB = some ((scenarioB codeSzB).layout ++ codeB))
    (hszA : codeSzA < 4294967296) (hszB : codeSzB < 4294967296) (hr : r + 4 ≤ codeSzA) :
    CLinker.readFiles w ⟨[fA, fB], objs, m⟩
      = (.ok (), ⟨[fA, fB], [scenarioA codeSzA r, scenarioB codeSzB], []⟩) := by
  have hold : FilesHold w (⟨[fA, fB], objs, m⟩ : CLinker).m_Files
      [scenarioA codeSzA r, scenarioB codeSzB] :=
    List.Forall₂.cons ⟨_, hA, scenarioA_encodable codeSzA r hszA (by omega), _, rfl⟩
      (List.Forall₂.cons ⟨_, hB, scenarioB_encodable codeSzB hszB, _, rfl⟩ List.Forall₂.nil)
  have hnd : (exportNames [scenarioA codeSzA r, scenarioB codeSzB]).Nodup := by
    show [str "main", str "helper"].Nodup
    decide
  exact (readFiles_holds w _ _ hold).1 hnd

theorem two_files_link (w : World) (fA fB : String) (objs : List ObjFile)
    (m : List (Name × FunInfo)) (fileName : String) (codeSzA codeSzB r : Nat)
    (codeA codeB : List Byte)
    (hA : w.readable fA = some ((scenarioA codeSzA r).layout ++ codeA))
    (hB : w.readable fB = some ((scenarioB codeSzB).layout ++ codeB))
    (hlA : codeA.length = codeSzA) (hlB : codeB.length = codeSzB)
    (hszA : codeSzA < 4294967296) (hszB : codeSzB < 4294967296) (hr : r + 4 ≤ codeSzA)
    (hw : w.writable fileName = true) (hg : w.streamGood fileName = true) :
    (CLinker.linkOutput w ⟨[fA, fB], objs, m⟩ fileName (str "main")).result = .ok () ∧
      (CLinker.linkOutput w ⟨[fA, fB], objs, m⟩ fileName (str "main")).output
        = some (codeA.take r ++ encodeU32 codeSzA ++ codeA.drop (r + 4) ++ codeB) ∧
      (codeA.take r ++ encodeU32 codeSzA ++ codeA.drop (r + 4) ++ codeB).length
        = codeSzA + codeSzB := by
  have hread := two_files_read w fA fB objs m codeSzA codeSzB r codeA codeB hA hB hszA hszB hr
  have hmap : (⟨[fA, fB], [scenarioA codeSzA r, scenarioB codeSzB], []⟩ : CLinker).FunInfoMap
      = ⟨[fA, fB], [scenarioA codeSzA r, scenarioB codeSzB],
          [(str "main", ⟨0, 0, codeSzA, 36⟩), (str "helper", ⟨1, 0, codeSzB, 23⟩)]⟩ := by
    simp only [CLinker.FunInfoMap, funInfoFiles, funInfoExports, scenarioA, scenarioB, mapSet,
      funInfoOf, nextOffset, List.foldl, subU32_zero _ hszA, subU32_zero _ hszB,
      main_ne_helper, if_false, Nat.lt_irrefl, gt_iff_lt, false_and]
  have hin : inRange ⟨0, 0, codeSzA, 36⟩ r = true := by
    simp only [inRange, addU32_zero_left _ hszA, decide_eq_true_eq]
    omega
  have hbfs : CLinker.bfs ⟨[fA, fB], [scenarioA codeSzA r, scenarioB codeSzB],
      [(str "main", ⟨0, 0, codeSzA, 36⟩), (str "helper", ⟨1, 0, codeSzB, 23⟩)]⟩ (str "main") []
      = (.ok (), [str "main", str "helper"]) := by
    simp [CLinker.bfs, bfsLoop, mapFind, bfsImports, scenarioA, scenarioB, hin,
      main_ne_helper, helper_ne_main]
  have hsort : sortTail [str "main", str "helper"] = some [str "main", str "helper"] := rfl
  have hassign : assignOffsets
      [(str "main", ⟨0, 0, codeSzA, 36⟩), (str "helper", ⟨1, 0, codeSzB, 23⟩)]
      [str "main", str "helper"] [] 0 = .ok [(str "main", 0), (str "helper", codeSzA)] := by
    simp [assignOffsets, mapFind, mapSet, main_ne_helper, addU32_zero_left _ hszA]
  have hloadA : CLinker.loadCode w ⟨[fA, fB], [scenarioA codeSzA r, scenarioB codeSzB],
      [(str "main", ⟨0, 0, codeSzA, 36⟩), (str "helper", ⟨1, 0, codeSzB, 23⟩)]⟩
      ⟨0, 0, codeSzA, 36⟩ = .ok codeA := by
    simp only [CLinker.loadCode, List.getElem?_cons_zero, hA]
    rw [show addU32 0 36 = 36 from rfl,
      drop_layout _ codeA 36 (scenarioA_layout_length codeSzA r), read_all codeA 36 codeSzA hlA]
  have hloadB : CLinker.loadCode w ⟨[fA, fB], [scenarioA codeSzA r, scenarioB codeSzB],
      [(str "main", ⟨0, 0, codeSzA, 36⟩), (str "helper", ⟨1, 0, codeSzB, 23⟩)]⟩
      ⟨1, 0, codeSzB, 23⟩ = .ok codeB := by
    simp only [CLinker.loadCode, List.getElem?_cons_succ, List.getElem?_cons_zero, hB]
    rw [show addU32 0 23 = 23 from rfl,
      drop_layout _ codeB 23 (scenarioB_layout_length codeSzB), read_all codeB 23 codeSzB hlB]
  have hpatch : patchImports [(str "main", 0), (str "helper", codeSzA)] ⟨0, 0, codeSzA, 36⟩
      (scenarioA codeSzA r).imports codeA
      = .ok (codeA.take r ++ encodeU32 codeSzA ++ codeA.drop (r + 4)) := by
    have hrel : subU32 r 0 = r := subU32_zero r (by omega)
    simp only [scenarioA, patchImports, mapFind, main_ne_helper, if_false, if_true,
      patchRefs, hin, hrel, memcpyU32]
    rw [if_pos (by omega)]
  have hemit : emitLoop w ⟨[fA, fB], [scenarioA codeSzA r, scenarioB codeSzB],
      [(str "main", ⟨0, 0, codeSzA, 36⟩), (str "helper", ⟨1, 0, codeSzB, 23⟩)]⟩
      [(str "main", 0), (str "helper", codeSzA)] [str "main", str "helper"] []
      = (.ok (), codeA.take r ++ encodeU32 codeSzA ++ codeA.drop (r + 4) ++ codeB) := by
    simp only [emitLoop, mapFind, if_true, main_ne_helper, if_false, hloadA, hloadB,
      List.getElem?_cons_zero, List.getElem?_cons_succ, hpatch, List.nil_append]
    simp only [scenarioB, patchImports]
  refine ⟨?_, ?_, ?_⟩
  · simp only [CLinker.linkOutput, hread, hmap, hbfs, hsort, hassign, hw, hg, hemit, if_true]
  · simp only [CLinker.linkOutput, hread, hmap, hbfs, hsort, hassign, hw, hg, hemit, if_true]
  · simp only [List.length_append, List.length_take, List.length_drop, encodeU32_length, hlA, hlB]
    omega

/-- C12: let `fA` hold an object file that exports only `main` at offset 0 and
whose only import is `helper` with the single reference offset `r`,
`r + 4 <= codeSzA`, and let `fB` hold an object file that exports only `helper`
at offset 0 and imports nothing, each followed by its code section. When the
output path is neither `fA` nor `fB` and the output file can be opened and
written, linking `[fA, fB]` with entry `main` succeeds, and the output is the
code section of `fA` with the four bytes at `r` replaced by the little-endian
`codeSzA`, followed by the code section of `fB`; its length is
`codeSzA + codeSzB`. -/
theorem C12_two_files (w : World) (fA fB : String) (objs : List ObjFile)
    (m : List (Name × FunInfo)) (fileName : String) (codeSzA codeSzB r : Nat)
    (codeA codeB : List Byte)
    (hA : w.readable fA = some ((scenarioA codeSzA r).layout ++ codeA))
    (hB : w.readable fB = some ((scenarioB codeSzB).layout ++ codeB))
    (hlA : codeA.length = codeSzA) (hlB : codeB.length = codeSzB)
    (hszA : codeSzA < 4294967296) (hszB : codeSzB < 4294967296) (hr : r + 4 ≤ codeSzA)
    (hout : fileName ∉ [fA, fB])
    (hw : w.writable fileName = true) (hg : w.streamGood fileName = true) :
    (CLinker.linkOutput w ⟨[fA, fB], objs, m⟩ fileName (str "main")).result = .ok () ∧
      (CLinker.linkOutput w ⟨[fA, fB], objs, m⟩ fileName (str "main")).output
        = some (codeA.take r ++ encodeU32 codeSzA ++ codeA.drop (r + 4) ++ codeB) ∧
      (codeA.take r ++ encodeU32 codeSzA ++ codeA.drop (r + 4) ++ codeB).length
        = codeSzA + codeSzB :=
  two_files_link w fA fB objs m fileName codeSzA codeSzB r codeA codeB hA hB hlA hlB hszA hszB
    hr hw hg

theorem C12_two_files_witness :
    (CLinker.linkOutput worldScenario ⟨["a.o", "b.o"], [], []⟩ "out" (str "main")).result
        = .ok () ∧
      (CLinker.linkOutput worldScenario ⟨["a.o", "b.o"], [], []⟩ "out" (str "main")).output
        = some [1, 2, 8, 0, 0, 0, 7, 8, 9, 10, 11, 12] ∧
      ([1, 2, 8, 0, 0, 0, 7, 8, 9, 10, 11, 12] : List Byte).length = 8 + 4 :=
  C12_two_files worldScenario "a.o" "b.o" [] [] "out" 8 4 2 [1, 2, 3, 4, 5, 6, 7, 8]
    [9, 10, 11, 12] rfl rfl rfl rfl (by decide) (by decide) (by decide) (by decide) rfl rfl

/-! ## Loading the code of a function -/

theorem addU32_le (a b : Nat) : addU32 a b ≤ a + b := Nat.mod_le _ _

theorem addU32_eq (a b : Nat) (h : a + b < 4294967296) : addU32 a b = a + b :=
  Nat.mod_eq_of_lt h

theorem loadCode_spec (w : World) (self : CLinker) (fi : FunInfo) (file : String)
    (content : List Byte) (hfile : self.m_Files[fi.fileIdx]? = some file)
    (hc : w.readable file = some content) :
    self.loadCode w fi
      = if fi.size ≤ content.length - addU32 fi.offset fi.offsetData then
          .ok ((content.drop (addU32 fi.offset fi.offsetData)).take fi.size)
        else .error (.runtime_error msgRead) := by
  simp only [CLinker.loadCode, hfile, hc, IFStream.read, List.length_drop]
  by_cases h : fi.size ≤ content.length - addU32 fi.offset fi.offsetData
  · simp only [if_pos h]
  · simp only [if_neg h]

theorem bytesPresent_iff (content : List Byte) (fi : FunInfo) :
    BytesPresent content fi
      ↔ fi.size = 0 ∨ fi.offsetData + fi.offset + fi.size ≤ content.length := by
  unfold BytesPresent
  constructor
  · intro h
    by_cases hz : fi.size = 0
    · exact Or.inl hz
    · have := h (fi.size - 1) (by omega)
      omega
  · intro h j hj
    omega

theorem loadCode_ok_present (w : World) (self : CLinker) (fi : FunInfo) (file : String)
    (content code : List Byte) (hfile : self.m_Files[fi.fileIdx]? = some file)
    (hc : w.readable file = some content) (hnw : fi.offset + fi.offsetData < 4294967296)
    (h : self.loadCode w fi = .ok code) : BytesPresent content fi := by
  rw [loadCode_spec w self fi file content hfile hc, addU32_eq _ _ hnw] at h
  rw [bytesPresent_iff]
  split at h
  · omega
  · simp at h

theorem loadCode_read_error (w : World) (self : CLinker) (fi : FunInfo) (file : String)
    (content : List Byte) (hfile : self.m_Files[fi.fileIdx]? = some file)
    (hc : w.readable file = some content)
    (h : self.loadCode w fi = .error (.runtime_error msgRead)) :
    ¬ BytesPresent content fi := by
  rw [loadCode_spec w self fi file content hfile hc] at h
  rw [bytesPresent_iff]
  have := addU32_le fi.offset fi.offsetData
  split at h
  · simp at h
  · omega

theorem emitLoop_read_error (w : World) (self : CLinker) (offs : List (Name × Nat))
    (order : List Name) (out : List Byte)
    (h : (emitLoop w self offs order out).1 = .error (.runtime_error msgRead)) :
    ∃ F ∈ order, ∃ fi, mapFind self.m_FunctionInfoMap F = some fi ∧
      self.loadCode w fi = .error (.runtime_error msgRead) := by
  induction order generalizing out with
  | nil => simp [emitLoop] at h
  | cons f rest ih =>
    simp only [emitLoop] at h
    cases hm : mapFind self.m_FunctionInfoMap f with
    | none =>
      rw [hm] at h
      simp at h
    | some fi =>
      rw [hm] at h
      simp only at h
      cases hl : self.loadCode w fi with
      | error e =>
        rw [hl] at h
        simp only [Except.error.injEq] at h
        subst h
        exact ⟨f, List.mem_cons_self _ _, fi, hm, hl⟩
      | ok body =>
        rw [hl] at h
        simp only at h
        cases ho : self.m_ObjFiles[fi.fileIdx]? with
        | none =>
          rw [ho] at h
          simp at h
        | some obj =>
          rw [ho] at h
          simp only at h
          cases hp : patchImports offs fi obj.imports body with
          | error e =>
            rw [hp] at h
            simp only [Except.error.injEq] at h
            have := patchImports_error _ _ _ _ _ hp
            rw [this] at h
            simp at h
          | ok body1 =>
            rw [hp] at h
            simp only at h
            obtain ⟨F, hF, fi2, h1, h2⟩ := ih _ h
            exact ⟨F, List.mem_cons_of_mem _ hF, fi2, h1, h2⟩

theorem emitLoop_ok_loads (w : World) (self : CLinker) (offs : List (Name × Nat))
    (order : List Name) (out0 out : List Byte)
    (h : emitLoop w self offs order out0 = (.ok (), out)) :
    ∀ F ∈ order, ∃ fi code, mapFind self.m_FunctionInfoMap F = some fi ∧
      self.loadCode w fi = .ok code := by
  induction order generalizing out0 with
  | nil => simp
  | cons f rest ih =>
    simp only [emitLoop] at h
    cases hm : mapFind self.m_FunctionInfoMap f with
    | none =>
      rw [hm] at h
      simp at h
    | some fi =>
      rw [hm] at h
      simp only at h
      cases hl : self.loadCode w fi with
      | error e =>
        rw [hl] at h
        simp at h
      | ok body =>
        rw [hl] at h
        simp only at h
        cases ho : self.m_ObjFiles[fi.fileIdx]? with
        | none =>
          rw [ho] at h
          simp at h
        | some obj =>
          rw [ho] at h
          simp only at h
          cases hp : patchImports offs fi obj.imports body with
          | error e =>
            rw [hp] at h
            simp at h
          | ok body1 =>
            rw [hp] at h
            simp only at h
            intro F hF
            rcases List.mem_cons.mp hF with rfl | hF
            · exact ⟨fi, body, hm, hl⟩
            · exact ih _ h F hF

theorem filesHold_readable (w : World) (files : List String) (os : List ObjFile)
    (h : FilesHold w files os) (i : Nat) (file : String) (hf : files[i]? = some file) :
    ∃ content, w.readable file = some content := by
  obtain ⟨o, _, ⟨content, hc, _⟩, _, _⟩ := forall₂_split _ files os h i file hf
  exact ⟨content, hc⟩

theorem read_failure_iff (w : World) (self : CLinker) (fileName : String)
    (entryPoint : Name) (os : List ObjFile) (order : List Name)
    (hfiles : FilesHold w self.m_Files os)
    (hord : self.neededFunctions w entryPoint = .ok order)
    (hw : w.writable fileName = true)
    (hdef : (self.linkOutput w fileName entryPoint).result ≠ .error .undefined_behaviour)
    (hnw : ∀ F ∈ order, ∀ fi, mapFind (self.symbols w).m_FunctionInfoMap F = some fi →
      fi.offset + fi.offsetData < 4294967296) :
    (self.linkOutput w fileName entryPoint).result = .error (.runtime_error msgRead)
      ↔ ∃ F ∈ order, ∃ fi file content,
          mapFind (self.symbols w).m_FunctionInfoMap F = some fi ∧
          self.m_Files[fi.fileIdx]? = some file ∧ w.readable file = some content ∧
          ¬ BytesPresent content fi := by
  obtain ⟨self1, needed, hread, hbfs, hsort⟩ := neededFunctions_ok w self entryPoint order hord
  have hsym : self.symbols w = self1.FunInfoMap := by simp [CLinker.symbols, hread]
  have hmf : self1.FunInfoMap.m_Files = self.m_Files := (readFiles_ok w self self1 hread).1
  rw [hsym] at hnw
  rw [hsym]
  cases ha : assignOffsets self1.FunInfoMap.m_FunctionInfoMap order [] 0 with
  | error e =>
    have hr : (self.linkOutput w fileName entryPoint).result = .error e := by
      simp only [CLinker.linkOutput, hread, hbfs, hsort, ha]
    rw [assignOffsets_error _ _ _ _ _ ha] at hr
    exact absurd hr hdef
  | ok offs =>
    cases he : emitLoop w self1.FunInfoMap offs order [] with
    | mk r out =>
      cases r with
      | error e =>
        have hr : (self.linkOutput w fileName entryPoint).result = .error e := by
          simp only [CLinker.linkOutput, hread, hbfs, hsort, ha, hw, he, if_true]
        have he1 : (emitLoop w self1.FunInfoMap offs order []).1 = .error e := by rw [he]
        rcases emitLoop_error _ _ _ _ _ _ he1 with hub | hrd
        · rw [hub] at hr
          exact absurd hr hdef
        · subst hrd
          refine ⟨fun _ => ?_, fun _ => hr⟩
          obtain ⟨F, hF, fi, hfi, hl⟩ := emitLoop_read_error _ _ _ _ _ he1
          cases hfile : self.m_Files[fi.fileIdx]? with
          | none =>
            simp only [CLinker.loadCode, hmf, hfile] at hl
            simp at hl
          | some file =>
            obtain ⟨content, hc⟩ := filesHold_readable w _ _ hfiles _ _ hfile
            exact ⟨F, hF, fi, file, content, hfi, hfile, hc,
              loadCode_read_error w _ fi file content (by rw [hmf]; exact hfile) hc hl⟩
      | ok u =>
        have hr : (self.linkOutput w fileName entryPoint).result
            ≠ .error (.runtime_error msgRead) := by
          simp only [CLinker.linkOutput, hread, hbfs, hsort, ha, hw, he, if_true]
          split
          · simp
          · simp only [ne_eq, Except.error.injEq, Failure.runtime_error.injEq]
            exact msgWrite_ne_msgRead
        refine ⟨fun h => absurd h hr, ?_⟩
        rintro ⟨F, hF, fi, file, content, hfi, hfile, hc, hmiss⟩
        obtain ⟨fi2, code, hfi2, hl⟩ := emitLoop_ok_loads _ _ _ _ _ _ he F hF
        rw [hfi] at hfi2
        simp only [Option.some.injEq] at hfi2
        subst hfi2
        exact absurd (loadCode_ok_present w _ fi file content code (by rw [hmf]; exact hfile)
          hc (hnw F hF fi hfi) hl) hmiss

/-- C15 (as amended): let the registered files hold laid-out object files, let
`bfs` succeed with the needed functions `order`, let the output path be none of
the registered files, let the output file open, let the run have defined
behaviour, and let `offset + base` of every needed function be below `2 ^ 32`.
Then `linkOutput` fails with the read failure exactly when
the bytes `[base + offset, base + offset + size)` of some needed function are
not all present in its owning file; the code bytes of the other functions do
not matter. -/
theorem C15_missing_code (w : World) (self : CLinker) (fileName : String)
    (entryPoint : Name) (os : List ObjFile) (order : List Name)
    (hfiles : FilesHold w self.m_Files os)
    (hord : self.neededFunctions w entryPoint = .ok order)
    (hout : fileName ∉ self.m_Files)
    (hw : w.writable fileName = true)
    (hdef : (self.linkOutput w fileName entryPoint).result ≠ .error .undefined_behaviour)
    (hnw : ∀ F ∈ order, ∀ fi, mapFind (self.symbols w).m_FunctionInfoMap F = some fi →
      fi.offset + fi.offsetData < 4294967296) :
    (self.linkOutput w fileName entryPoint).result = .error (.runtime_error msgRead)
      ↔ ∃ F ∈ order, ∃ fi file content,
          mapFind (self.symbols w).m_FunctionInfoMap F = some fi ∧
          self.m_Files[fi.fileIdx]? = some file ∧ w.readable file = some content ∧
          ¬ BytesPresent content fi :=
  read_failure_iff w self fileName entryPoint os order hfiles hord hw hdef hnw

theorem worldShort_holds : FilesHold worldShort linkerTwo.m_Files [objMain, objLib] :=
  List.Forall₂.cons ⟨_, rfl, objMain_encodable, _, rfl⟩
    (List.Forall₂.cons ⟨_, rfl, objLib_encodable, _, rfl⟩ List.Forall₂.nil)

theorem worldShort_symbols : (linkerTwo.symbols worldShort).m_FunctionInfoMap
    = [(str "main", ⟨0, 0, 8, 41⟩), (str "g", ⟨1, 4, 2, 33⟩), (str "f", ⟨1, 0, 4, 33⟩),
        (str "idle", ⟨1, 6, 2, 33⟩)] := by decide

theorem worldShort_no_wrap (F : Name) (hF : F ∈ [str "main", str "f", str "g"])
    (fi : FunInfo) (h : mapFind (linkerTwo.symbols worldShort).m_FunctionInfoMap F = some fi) :
    fi.offset + fi.offsetData < 4294967296 := by
  rw [worldShort_symbols] at h
  simp only [List.mem_cons, List.mem_singleton, List.not_mem_nil, or_false] at hF
  rcases hF with rfl | rfl | rfl
  · have h2 : fi = ⟨0, 0, 8, 41⟩ := (Option.some.inj h).symm
    subst h2
    decide
  · have h2 : fi = ⟨1, 0, 4, 33⟩ := (Option.some.inj h).symm
    subst h2
    decide
  · have h2 : fi = ⟨1, 4, 2, 33⟩ := (Option.some.inj h).symm
    subst h2
    decide

theorem worldShort_result :
    (linkerTwo.linkOutput worldShort "out" (str "main")).result
      = .error (.runtime_error msgRead) := by rfl

theorem C15_missing_code_witness :
    (linkerTwo.linkOutput worldShort "out" (str "main")).result
        = .error (.runtime_error msgRead)
      ↔ ∃ F ∈ [str "main", str "f", str "g"], ∃ fi file content,
          mapFind (linkerTwo.symbols worldShort).m_FunctionInfoMap F = some fi ∧
          linkerTwo.m_Files[fi.fileIdx]? = some file ∧
          worldShort.readable file = some content ∧ ¬ BytesPresent content fi :=
  C15_missing_code worldShort linkerTwo "out" (str "main") [objMain, objLib]
    [str "main", str "f", str "g"] worldShort_holds (by rfl) (by decide) rfl
    (by rw [worldShort_result]; simp) worldShort_no_wrap

theorem objWrap_encodable : objWrap.Encodable :=
  ⟨by decide, by decide, by decide, by decide, by decide, by decide, by decide, by decide,
    by decide, by decide, by decide⟩

/-- C15 fails as stated: `w.o` holds an object file that exports `main` at
offset `2 ^ 32 - 21` in a code section of `2 ^ 32 - 20` bytes, and the file ends
after its 21 bytes of tables. The tables parse, no export name occurs twice and
`main` is the only needed function; its byte at `21 + (2 ^ 32 - 21)` is not in
the file. The link succeeds all the same: the seek position wraps to 0 and the
first byte of the header is written as the code of `main`. -/
theorem C15_counterexample :
    FilesHold worldWrap ["w.o"] [objWrap] ∧ (exportNames [objWrap]).Nodup ∧
      CLinker.neededFunctions worldWrap ⟨["w.o"], [], []⟩ (str "main") = .ok [str "main"] ∧
      mapFind (CLinker.symbols worldWrap ⟨["w.o"], [], []⟩).m_FunctionInfoMap (str "main")
        = some ⟨0, 4294967275, 1, 21⟩ ∧
      worldWrap.readable "w.o" = some (objWrap.layout ++ []) ∧
      ¬ BytesPresent (objWrap.layout ++ []) ⟨0, 4294967275, 1, 21⟩ ∧
      (CLinker.linkOutput worldWrap ⟨["w.o"], [], []⟩ "out" (str "main")).result = .ok () ∧
      (CLinker.linkOutput worldWrap ⟨["w.o"], [], []⟩ "out" (str "main")).output
        = some [1] :=
  ⟨List.Forall₂.cons ⟨_, rfl, objWrap_encodable, _, rfl⟩ List.Forall₂.nil, by decide, by rfl,
    by decide, rfl, by rw [bytesPresent_iff]; decide, by rfl, by decide⟩

/-! ## The bytes the patching leaves alone -/

theorem inRange_true (fi : FunInfo) (r : Nat) (h : inRange fi r = true) :
    fi.offset ≤ r ∧ r < fi.offset + fi.size ∧ subU32 r fi.offset = r - fi.offset := by
  simp only [inRange, decide_eq_true_eq] at h
  have h1 := addU32_le fi.offset fi.size
  have h2 : addU32 fi.offset fi.size < 4294967296 := Nat.mod_lt _ (by decide)
  refine ⟨h.1, by omega, ?_⟩
  unfold subU32
  omega

theorem patchRefs_frame (fi : FunInfo) (target : Nat) (refs : List Nat)
    (body body1 : List Byte) (p : Nat) (h : patchRefs fi target refs body = .ok body1)
    (hfree : ∀ r ∈ refs, fi.offset ≤ r → r < fi.offset + fi.size →
      p < r - fi.offset ∨ r - fi.offset + 4 ≤ p) :
    body1[p]? = body[p]? := by
  induction refs generalizing body with
  | nil =>
    simp only [patchRefs, Except.ok.injEq] at h
    rw [h]
  | cons r rest ih =>
    simp only [patchRefs] at h
    have hrest : ∀ x ∈ rest, fi.offset ≤ x → x < fi.offset + fi.size →
        p < x - fi.offset ∨ x - fi.offset + 4 ≤ p :=
      fun x hx => hfree x (List.mem_cons_of_mem _ hx)
    cases hin : inRange fi r with
    | false =>
      rw [hin] at h
      exact ih body h hrest
    | true =>
      rw [hin] at h
      simp only [if_true] at h
      obtain ⟨hlo, hhi, hsub⟩ := inRange_true fi r hin
      cases hm : memcpyU32 body (subU32 r fi.offset) target with
      | none =>
        rw [hm] at h
        simp at h
      | some body2 =>
        rw [hm] at h
        simp only at h
        rw [ih body2 h hrest]
        apply memcpyU32_getElem?_outside _ _ _ _ _ hm
        rw [hsub]
        exact hfree r (List.mem_cons_self _ _) hlo hhi

theorem patchImports_frame (offs : List (Name × Nat)) (fi : FunInfo)
    (imports : List ImportFun) (body body1 : List Byte) (p : Nat)
    (h : patchImports offs fi imports body = .ok body1)
    (hfree : ∀ imp ∈ imports, (mapFind offs imp.name).isSome → ∀ r ∈ imp.references,
      fi.offset ≤ r → r < fi.offset + fi.size → p < r - fi.offset ∨ r - fi.offset + 4 ≤ p) :
    body1[p]? = body[p]? := by
  induction imports generalizing body with
  | nil =>
    simp only [patchImports, Except.ok.injEq] at h
    rw [h]
  | cons imp rest ih =>
    simp only [patchImports] at h
    have hrest : ∀ x ∈ rest, (mapFind offs x.name).isSome → ∀ r ∈ x.references,
        fi.offset ≤ r → r < fi.offset + fi.size → p < r - fi.offset ∨ r - fi.offset + 4 ≤ p :=
      fun x hx => hfree x (List.mem_cons_of_mem _ hx)
    cases hm : mapFind offs imp.name with
    | none =>
      rw [hm] at h
      exact ih body h hrest
    | some target =>
      rw [hm] at h
      simp only at h
      cases hp : patchRefs fi target imp.references body with
      | error e =>
        rw [hp] at h
        simp at h
      | ok body2 =>
        rw [hp] at h
        simp only at h
        rw [ih body2 h hrest]
        exact patchRefs_frame fi target _ body body2 p hp
          (hfree imp (List.mem_cons_self _ _) (by simp [hm]))

theorem loadCode_getElem? (w : World) (self : CLinker) (fi : FunInfo) (file : String)
    (content code : List Byte) (p : Nat) (hfile : self.m_Files[fi.fileIdx]? = some file)
    (hc : w.readable file = some content) (hnw : fi.offset + fi.offsetData < 4294967296)
    (h : self.loadCode w fi = .ok code) (hp : p < fi.size) :
    code[p]? = content[fi.offsetData + fi.offset + p]? := by
  rw [loadCode_spec w self fi file content hfile hc, addU32_eq _ _ hnw] at h
  split at h
  · simp only [Except.ok.injEq] at h
    rw [← h, List.getElem?_take_of_lt hp, List.getElem?_drop]
    congr 1
    omega
  · simp at h

theorem getElem?_middle (pre body post : List Byte) (p : Nat) (hp : p < body.length) :
    (pre ++ body ++ post)[pre.length + p]? = body[p]? := by
  rw [List.append_assoc, List.getElem?_append_right (by omega)]
  rw [show pre.length + p - pre.length = p by omega, List.getElem?_append_left hp]

theorem untouched_byte (w : World) (self : CLinker) (fileName : String) (entryPoint : Name)
    (order : List Name) (i : Nat) (F : Name) (fi : FunInfo) (obj : ObjFile) (file : String)
    (content : List Byte) (p : Nat)
    (hok : (self.linkOutput w fileName entryPoint).result = .ok ())
    (hord : self.neededFunctions w entryPoint = .ok order)
    (hi : order[i]? = some F)
    (hfi : mapFind (self.symbols w).m_FunctionInfoMap F = some fi)
    (hobj : (self.symbols w).m_ObjFiles[fi.fileIdx]? = some obj)
    (hfile : self.m_Files[fi.fileIdx]? = some file) (hc : w.readable file = some content)
    (hnw : fi.offset + fi.offsetData < 4294967296) (hp : p < fi.size)
    (hfree : ∀ imp ∈ obj.imports, imp.name ∈ order → ∀ r ∈ imp.references,
      fi.offset ≤ r → r < fi.offset + fi.size → p < r - fi.offset ∨ r - fi.offset + 4 ≤ p) :
    ∃ out b, (self.linkOutput w fileName entryPoint).output = some out ∧
      out[sumSizes (self.symbols w).m_FunctionInfoMap (order.take i) + p]? = some b ∧
      content[fi.offsetData + fi.offset + p]? = some b := by
  obtain ⟨self1, needed, order2, offs, out, hread, hbfs, hsort, hassign, _, hemit, _, hout, _⟩ :=
    linkOutput_ok w self fileName entryPoint hok
  have hord2 := neededFunctions_of_stages w self self1 entryPoint needed order2 hread hbfs hsort
  rw [hord] at hord2
  simp only [Except.ok.injEq] at hord2
  subst hord2
  have hsym : self.symbols w = self1.FunInfoMap := by simp [CLinker.symbols, hread]
  have hmf : self1.FunInfoMap.m_Files = self.m_Files := (readFiles_ok w self self1 hread).1
  obtain ⟨_, _, _, hnd, hdef, _⟩ := neededFunctions_facts w self entryPoint order hord
  rw [hsym] at hfi hobj hdef
  rw [hsym]
  obtain ⟨offs2, hassign2, hnot, _, _⟩ :=
    assignOffsets_spec self1.FunInfoMap.m_FunctionInfoMap order [] 0 hdef hnd
  rw [hassign] at hassign2
  simp only [Except.ok.injEq] at hassign2
  subst hassign2
  obtain ⟨bodies, hall, hflat⟩ := emitLoop_ok _ _ _ _ _ _ hemit
  obtain ⟨body, pre, post, hwb, hsplit, hpre, _⟩ := emitted_layout _ _ _ _ _ hall i F hi
  obtain ⟨fi2, code, obj2, hfi2, hload, hobj2, hpatch, hlen⟩ := writtenBody_ok _ _ _ _ _ hwb
  rw [hfi] at hfi2
  simp only [Option.some.injEq] at hfi2
  subst hfi2
  rw [hobj] at hobj2
  simp only [Option.some.injEq] at hobj2
  subst hobj2
  have hframe : body[p]? = code[p]? := by
    apply patchImports_frame offs fi obj.imports code body p hpatch
    intro imp himp hsome r hr hlo hhi
    apply hfree imp himp _ r hr hlo hhi
    by_contra hno
    rw [hnot imp.name hno] at hsome
    simp [mapFind] at hsome
  have hcode := loadCode_getElem? w _ fi file content code p (by rw [hmf]; exact hfile) hc hnw
    hload hp
  have hb : body[p]? = some (body.get ⟨p, by omega⟩) := List.getElem?_eq_getElem _
  refine ⟨out, body.get ⟨p, by omega⟩, hout, ?_, ?_⟩
  · rw [hflat, List.nil_append, hsplit, ← hpre, getElem?_middle _ _ _ _ (by omega)]
    exact hb
  · rw [← hcode, ← hframe]
    exact hb

/-- C17 (as amended): when `linkOutput` succeeds, `F` is the needed function at
index `i` of the final order and `F.offset + base` is below `2 ^ 32`, then every
position `p < size(F)` that lies in no field `[r - F.offset, r - F.offset + 4)`
of a reference `r` in the range of `F` of an import that names a needed function
holds, in the output, the byte at `base + F.offset + p` of the owning file; the
bytes of `F` start in the output after those of the functions before it. -/
theorem C17_untouched_bytes (w : World) (self : CLinker) (fileName : String)
    (entryPoint : Name) (order : List Name) (i : Nat) (F : Name) (fi : FunInfo)
    (obj : ObjFile) (file : String) (content : List Byte) (p : Nat)
    (hok : (self.linkOutput w fileName entryPoint).result = .ok ())
    (hord : self.neededFunctions w entryPoint = .ok order)
    (hi : order[i]? = some F)
    (hfi : mapFind (self.symbols w).m_FunctionInfoMap F = some fi)
    (hobj : (self.symbols w).m_ObjFiles[fi.fileIdx]? = some obj)
    (hfile : self.m_Files[fi.fileIdx]? = some file) (hc : w.readable file = some content)
    (hnw : fi.offset + fi.offsetData < 4294967296) (hp : p < fi.size)
    (hfree : ∀ imp ∈ obj.imports, imp.name ∈ order → ∀ r ∈ imp.references,
      fi.offset ≤ r → r < fi.offset + fi.size → p < r - fi.offset ∨ r - fi.offset + 4 ≤ p) :
    ∃ out b, (self.linkOutput w fileName entryPoint).output = some out ∧
      out[sumSizes (self.symbols w).m_FunctionInfoMap (order.take i) + p]? = some b ∧
      content[fi.offsetData + fi.offset + p]? = some b :=
  untouched_byte w self fileName entryPoint order i F fi obj file content p hok hord hi hfi
    hobj hfile hc hnw hp hfree

theorem C17_untouched_bytes_witness :
    ∃ out b, (linkerTwo.linkOutput worldTwo "out" (str "main")).output = some out ∧
      out[sumSizes (linkerTwo.symbols worldTwo).m_FunctionInfoMap
        ([str "main", str "f", str "g"].take 1) + 2]? = some b ∧
      (objLib.layout ++ [11, 12, 13, 14, 15, 16, 17, 18])[
        (⟨1, 0, 4, 33⟩ : FunInfo).offsetData + (⟨1, 0, 4, 33⟩ : FunInfo).offset + 2]?
        = some b :=
  C17_untouched_bytes worldTwo linkerTwo "out" (str "main") [str "main", str "f", str "g"] 1
    (str "f") ⟨1, 0, 4, 33⟩ objLib "lib.o" (objLib.layout ++ [11, 12, 13, 14, 15, 16, 17, 18]) 2
    (by rfl) (by rfl) (by decide) (by decide) (by decide) (by decide) rfl (by decide)
    (by decide) (by decide)

/-- C17 fails as stated: on `w.o`, which ends after its tables, the link
succeeds and `main`, the only needed function, has size 1 and offset
`2 ^ 32 - 21`; its file imports nothing, so no reference touches a byte. The
output byte of `main` at position 0 is 1, the first byte of the header, while the
code section of the file is empty and has no byte at position `2 ^ 32 - 21`. -/
theorem C17_counterexample :
    (CLinker.linkOutput worldWrap ⟨["w.o"], [], []⟩ "out" (str "main")).result = .ok () ∧
      CLinker.neededFunctions worldWrap ⟨["w.o"], [], []⟩ (str "main") = .ok [str "main"] ∧
      mapFind (CLinker.symbols worldWrap ⟨["w.o"], [], []⟩).m_FunctionInfoMap (str "main")
        = some ⟨0, 4294967275, 1, 21⟩ ∧
      (CLinker.symbols worldWrap ⟨["w.o"], [], []⟩).m_ObjFiles[0]? = some objWrap ∧
      objWrap.imports = [] ∧
      (CLinker.linkOutput worldWrap ⟨["w.o"], [], []⟩ "out" (str "main")).output
        = some [1] ∧
      ([1] : List Byte)[0]? = some 1 ∧
      worldWrap.readable "w.o" = some (objWrap.layout ++ []) ∧
      (objWrap.layout ++ []).drop 21 = [] ∧
      ((objWrap.layout ++ []).drop 21)[4294967275 + 0]? = none :=
  ⟨by rfl, by rfl, by decide, by decide, by decide, by decide, by decide, rfl, by decide,
    by decide⟩

/-! ## The order of the traversal -/

theorem mem_usedNames (self : CLinker) (a b : Name) : b ∈ usedNames self a ↔ Uses self a b := by
  unfold usedNames Uses
  constructor
  · intro h
    split at h
    · simp at h
    · rename_i fi hfi
      split at h
      · simp at h
      · rename_i obj hobj
        simp only [List.mem_map, List.mem_filter] at h
        obtain ⟨imp, ⟨himp, hany⟩, hname⟩ := h
        exact ⟨fi, obj, hfi, hobj, imp, himp, hname, hany⟩
  · rintro ⟨fi, obj, hfi, hobj, imp, himp, hname, hany⟩
    simp only [hfi, hobj, List.mem_map, List.mem_filter]
    exact ⟨imp, ⟨himp, hany⟩, hname⟩

theorem firstNew_spec (seen l : List Name) :
    (∀ n ∈ firstNew seen l, n ∈ l ∧ n ∉ seen) ∧ (firstNew seen l).Nodup ∧
      ∀ n ∈ l, n ∈ seen ∨ n ∈ firstNew seen l := by
  induction l generalizing seen with
  | nil => simp [firstNew]
  | cons x xs ih =>
    simp only [firstNew]
    by_cases hx : x ∈ seen
    · rw [if_pos hx]
      obtain ⟨h1, h2, h3⟩ := ih seen
      refine ⟨fun n hn => ⟨List.mem_cons_of_mem _ (h1 n hn).1, (h1 n hn).2⟩, h2, ?_⟩
      intro n hn
      rcases List.mem_cons.mp hn with rfl | hn
      · exact Or.inl hx
      · exact h3 n hn
    · rw [if_neg hx]
      obtain ⟨h1, h2, h3⟩ := ih (seen ++ [x])
      refine ⟨?_, ?_, ?_⟩
      · intro n hn
        rcases List.mem_cons.mp hn with rfl | hn
        · exact ⟨List.mem_cons_self _ _, hx⟩
        · obtain ⟨ha, hb⟩ := h1 n hn
          exact ⟨List.mem_cons_of_mem _ ha, fun hs => hb (List.mem_append_left _ hs)⟩
      · rw [List.nodup_cons]
        refine ⟨fun hmem => (h1 x hmem).2 (by simp), h2⟩
      · intro n hn
        rcases List.mem_cons.mp hn with rfl | hn
        · exact Or.inr (List.mem_cons_self _ _)
        · rcases h3 n hn with hs | hs
          · rcases List.mem_append.mp hs with hs | hs
            · exact Or.inl hs
            · simp only [List.mem_singleton] at hs
              subst hs
              exact Or.inr (List.mem_cons_self _ _)
          · exact Or.inr (List.mem_cons_of_mem _ hs)

theorem bfsImports_firstNew (m : List (Name × FunInfo)) (fi : FunInfo)
    (imports : List ImportFun) (visited q v1 q1 : List Name)
    (h : bfsImports m fi imports visited q = .ok (v1, q1)) :
    v1 = visited ++ firstNew visited
        ((imports.filter (fun imp => imp.references.any (inRange fi))).map (fun imp => imp.name)) ∧
      q1 = q ++ firstNew visited
        ((imports.filter (fun imp => imp.references.any (inRange fi))).map
          (fun imp => imp.name)) := by
  induction imports generalizing visited q with
  | nil =>
    simp only [bfsImports, Except.ok.injEq, Prod.mk.injEq] at h
    simp [firstNew, h.1.symm, h.2.symm]
  | cons imp rest ih =>
    simp only [bfsImports] at h
    cases hany : imp.references.any (inRange fi) with
    | false =>
      rw [hany] at h
      simp only [Bool.false_eq_true, if_false] at h
      simp only [List.filter_cons, hany, Bool.false_eq_true, if_false]
      exact ih visited q h
    | true =>
      rw [hany] at h
      simp only [if_true] at h
      simp only [List.filter_cons, hany, if_true, List.map_cons, firstNew]
      cases hm : mapFind m imp.name with
      | none =>
        rw [hm] at h
        simp at h
      | some x =>
        rw [hm] at h
        simp only at h
        by_cases hv : imp.name ∈ visited
        · rw [if_pos hv] at h
          rw [if_pos hv]
          exact ih visited q h
        · rw [if_neg hv] at h
          rw [if_neg hv]
          obtain ⟨h1, h2⟩ := ih _ _ h
          rw [h1, h2]
          simp

theorem reachIn_dist_unique (self : CLinker) (entryPoint n : Name) (d1 d2 : Nat)
    (h1 : IsDist self entryPoint n d1) (h2 : IsDist self entryPoint n d2) : d1 = d2 := by
  rcases Nat.lt_trichotomy d1 d2 with h | h | h
  · exact absurd h1.1 (h2.2 d1 h)
  · exact h
  · exact absurd h2.1 (h1.2 d2 h)

theorem exists_isDist (self : CLinker) (entryPoint n : Name) (k : Nat)
    (h : ReachIn self entryPoint k n) : ∃ d, d ≤ k ∧ IsDist self entryPoint n d := by
  induction k using Nat.strong_induction_on with
  | _ k ih =>
    by_cases hmin : ∀ j, j < k → ¬ ReachIn self entryPoint j n
    · exact ⟨k, Nat.le_refl _, h, hmin⟩
    · push_neg at hmin
      obtain ⟨j, hj, hr⟩ := hmin
      obtain ⟨d, hd, hdist⟩ := ih j hj hr
      exact ⟨d, by omega, hdist⟩

theorem exists_dist_fun (self : CLinker) (entryPoint : Name) :
    ∃ d : Name → Nat, ∀ x k, ReachIn self entryPoint k x →
      IsDist self entryPoint x (d x) ∧ d x ≤ k := by
  have h : ∀ x, ∃ dx, ∀ k, ReachIn self entryPoint k x →
      IsDist self entryPoint x dx ∧ dx ≤ k := by
    intro x
    by_cases hx : ∃ k, ReachIn self entryPoint k x
    · obtain ⟨k, hk⟩ := hx
      obtain ⟨d, _, hd⟩ := exists_isDist self entryPoint x k hk
      refine ⟨d, fun j hj => ⟨hd, ?_⟩⟩
      by_contra hlt
      exact hd.2 j (by omega) hj
    · exact ⟨0, fun k hk => absurd ⟨k, hk⟩ hx⟩
  choose d hd using h
  exact ⟨d, hd⟩

theorem pairwise_of_mem {α : Type} (R : α → α → Prop) (l : List α)
    (h : ∀ x ∈ l, ∀ y ∈ l, R x y) : l.Pairwise R := by
  induction l with
  | nil => exact List.Pairwise.nil
  | cons a rest ih =>
    exact List.Pairwise.cons (fun y hy => h a (List.mem_cons_self _ _) y (List.mem_cons_of_mem _ hy))
      (ih (fun x hx y hy => h x (List.mem_cons_of_mem _ hx) y (List.mem_cons_of_mem _ hy)))

theorem orderInv_init (lk : CLinker) (entryPoint : Name) (d : Name → Nat)
    (hd : ∀ x k, ReachIn lk entryPoint k x → IsDist lk entryPoint x (d x) ∧ d x ≤ k) :
    OrderInv lk entryPoint d [entryPoint] [entryPoint] [] := by
  have h0 : ReachIn lk entryPoint 0 entryPoint := rfl
  have hd0 : d entryPoint = 0 := Nat.le_zero.mp (hd _ _ h0).2
  refine ⟨rfl, by simp, ?_, by simp, by simp, ?_, ?_, ⟨[], rfl, by simp, by simp⟩⟩
  · intro x hx
    simp only [List.nil_append, List.mem_singleton] at hx
    subst hx
    exact ⟨0, h0⟩
  · intro a ha x hx
    simp only [List.head?_cons, Option.some.injEq] at ha
    simp only [List.mem_singleton] at hx
    subst ha hx
    omega
  · intro a ha x k hk hle
    simp only [List.head?_cons, Option.some.injEq] at ha
    subst ha
    rw [hd0] at hle
    have hk0 : k = 0 := Nat.le_zero.mp hle
    subst hk0
    have hx : x = entryPoint := hk
    simp [hx]

theorem orderInv_step (lk : CLinker) (entryPoint : Name) (d : Name → Nat)
    (hd : ∀ x k, ReachIn lk entryPoint k x → IsDist lk entryPoint x (d x) ∧ d x ≤ k)
    (visited qt needed : List Name) (a : Name)
    (hinv : OrderInv lk entryPoint d visited (a :: qt) needed) :
    OrderInv lk entryPoint d (visited ++ firstNew visited (usedNames lk a))
      (qt ++ firstNew visited (usedNames lk a)) (needed ++ [a]) := by
  obtain ⟨hvis, hnodup, hreach, hclosed, hsorted, hwindow, hcomplete, bl, hlen, hL, hall⟩ := hinv
  obtain ⟨hn1, hn2, hn3⟩ := firstNew_spec visited (usedNames lk a)
  obtain ⟨new, hnewdef⟩ : ∃ new, new = firstNew visited (usedNames lk a) := ⟨_, rfl⟩
  rw [← hnewdef] at hn1 hn2 hn3 ⊢
  have hamem : a ∈ needed ++ a :: qt := by simp
  obtain ⟨ka, hka⟩ := hreach a hamem
  have hra : ReachIn lk entryPoint (d a) a := (hd a ka hka).1.1
  have hentry : entryPoint ∈ needed ++ a :: qt := by
    rw [hL]
    exact List.mem_cons_self _ _
  have hsplit := List.pairwise_append.mp hsorted
  have hq := List.pairwise_cons.mp hsplit.2.1
  have hpre : ∀ x ∈ needed, d x ≤ d a := fun x hx => hsplit.2.2 x hx a (List.mem_cons_self _ _)
  have hold : ∀ x ∈ needed ++ a :: qt, d x ≤ d a + 1 := by
    intro x hx
    rcases List.mem_append.mp hx with hx | hx
    · have := hpre x hx
      omega
    · exact hwindow a rfl x hx
  have hdnew : ∀ b ∈ new, d b = d a + 1 := by
    intro b hb
    obtain ⟨hused, hnot⟩ := hn1 b hb
    have huse : Uses lk a b := (mem_usedNames lk a b).mp hused
    have hrb : ReachIn lk entryPoint (d a + 1) b := ⟨a, hra, huse⟩
    obtain ⟨hdist, hle⟩ := hd b _ hrb
    by_contra hne
    have hlt : d b ≤ d a := by omega
    have hmin := hdist.1
    cases hdb : d b with
    | zero =>
      rw [hdb] at hmin
      have hbe : b = entryPoint := hmin
      rw [hbe, hvis] at hnot
      exact hnot hentry
    | succ k =>
      rw [hdb] at hmin
      obtain ⟨c, hc, hcb⟩ := hmin
      have hcL := hcomplete a rfl c k hc (by omega)
      have hdc := (hd c k hc).2
      rcases List.mem_append.mp hcL with hcn | hcq
      · rw [hvis] at hnot
        exact hnot (hclosed c hcn b hcb)
      · rcases List.mem_cons.mp hcq with rfl | hcq
        · omega
        · have := hq.1 c hcq
          omega
  have hmemL : ∀ x, x ∈ needed ++ a :: qt → x ∈ needed ++ [a] ++ (qt ++ new) := by
    intro x hx
    simp only [List.mem_append, List.mem_cons, List.mem_singleton, List.not_mem_nil,
      or_false] at hx ⊢
    tauto
  have hmemN : ∀ x, x ∈ new → x ∈ needed ++ [a] ++ (qt ++ new) := by
    intro x hx
    simp only [List.mem_append]
    exact Or.inr (Or.inr hx)
  have hmem' : ∀ x, x ∈ needed ++ [a] ++ (qt ++ new) → x ∈ needed ++ a :: qt ∨ x ∈ new := by
    intro x hx
    simp only [List.mem_append, List.mem_cons, List.mem_singleton, List.not_mem_nil,
      or_false] at hx ⊢
    tauto
  have hassoc : needed ++ [a] ++ (qt ++ new) = (needed ++ a :: qt) ++ new := by simp
  have hused : ∀ b, Uses lk a b → b ∈ needed ++ [a] ++ (qt ++ new) := by
    intro b hb
    rcases hn3 b ((mem_usedNames lk a b).mpr hb) with h | h
    · rw [hvis] at h
      exact hmemL b h
    · exact hmemN b h
  have hhead : ∀ a2, (qt ++ new).head? = some a2 → d a ≤ d a2 ∧ d a2 ≤ d a + 1 ∧
      (∀ c ∈ qt, d a2 ≤ d c) := by
    intro a2 ha2
    cases qt with
    | nil =>
      simp only [List.nil_append] at ha2
      have hm : a2 ∈ new := List.mem_of_mem_head? ha2
      have := hdnew a2 hm
      refine ⟨by omega, by omega, by simp⟩
    | cons c0 rest =>
      simp only [List.cons_append, List.head?_cons, Option.some.injEq] at ha2
      subst ha2
      have h1 := hq.1 c0 (List.mem_cons_self _ _)
      have h2 := hwindow a rfl c0 (by simp)
      refine ⟨h1, h2, ?_⟩
      intro c hc
      rcases List.mem_cons.mp hc with rfl | hc
      · exact Nat.le_refl _
      · exact (List.pairwise_cons.mp hq.2).1 c hc
  refine ⟨by rw [hvis]; simp, ?_, ?_, ?_, ?_, ?_, ?_, ⟨bl ++ [new], ?_, ?_, ?_⟩⟩
  · rw [hassoc, List.nodup_append]
    refine ⟨hnodup, hn2, ?_⟩
    intro x hx hx2
    exact (hn1 x hx2).2 (by rw [hvis]; exact hx)
  · intro x hx
    rcases hmem' x hx with h | h
    · exact hreach x h
    · exact ⟨d a + 1, a, hra, (mem_usedNames lk a x).mp (hn1 x h).1⟩
  · intro a0 ha0 b hb
    rcases List.mem_append.mp ha0 with h | h
    · exact hmemL b (hclosed a0 h b hb)
    · simp only [List.mem_singleton] at h
      subst h
      exact hused b hb
  · rw [hassoc, List.pairwise_append]
    refine ⟨hsorted, ?_, ?_⟩
    · apply pairwise_of_mem
      intro x hx y hy
      rw [hdnew x hx, hdnew y hy]
    · intro x hx y hy
      rw [hdnew y hy]
      exact hold x hx
  · intro a2 ha2 x hx
    obtain ⟨h1, _, _⟩ := hhead a2 ha2
    rcases List.mem_append.mp hx with h | h
    · have := hwindow a rfl x (List.mem_cons_of_mem _ h)
      omega
    · have := hdnew x h
      omega
  · intro a2 ha2 x k hk hle
    obtain ⟨h1, h2, h3⟩ := hhead a2 ha2
    by_cases hka : k ≤ d a
    · exact hmemL x (hcomplete a rfl x k hk hka)
    · have hk1 : k = d a + 1 := by omega
      subst hk1
      obtain ⟨c, hc, hcx⟩ := hk
      have hcL := hcomplete a rfl c (d a) hc (Nat.le_refl _)
      have hdc := (hd c _ hc).2
      rcases List.mem_append.mp hcL with hcn | hcq
      · exact hmemL x (hclosed c hcn x hcx)
      · rcases List.mem_cons.mp hcq with rfl | hcq
        · exact hused x hcx
        · have := h3 c hcq
          omega
  · simp [hlen]
  · rw [hassoc, hL, List.flatten_append]
    simp
  · intro i x hx
    rcases Nat.lt_trichotomy i needed.length with hi | hi | hi
    · rw [List.getElem?_append_left hi] at hx
      rw [List.getElem?_append_left (by omega), List.take_append_of_le_length (by omega)]
      exact hall i x hx
    · subst hi
      rw [List.getElem?_append_right (Nat.le_refl _)] at hx
      simp only [Nat.sub_self, List.getElem?_cons_zero, Option.some.injEq] at hx
      subst hx
      rw [← hlen, List.getElem?_append_right (Nat.le_refl _)]
      simp only [Nat.sub_self, List.getElem?_cons_zero, Option.some.injEq, List.take_left']
      rw [hnewdef, hvis, hL]
    · rw [List.getElem?_append_right (by omega)] at hx
      have : i - needed.length ≥ 1 := by omega
      rw [List.getElem?_eq_none (by simp; omega)] at hx
      simp at hx

theorem bfsLoop_order (lk : CLinker) (entryPoint : Name) (d : Name → Nat)
    (hd : ∀ x k, ReachIn lk entryPoint k x → IsDist lk entryPoint x (d x) ∧ d x ≤ k)
    (fuel : Nat) (visited q needed res : List Name)
    (hinv : OrderInv lk entryPoint d visited q needed)
    (h : bfsLoop lk fuel visited q needed = (.ok (), res)) :
    ∃ v, OrderInv lk entryPoint d v [] res := by
  induction fuel generalizing visited q needed with
  | zero =>
    cases q with
    | nil =>
      simp only [bfsLoop, Prod.mk.injEq, true_and] at h
      subst h
      exact ⟨visited, hinv⟩
    | cons a qt => simp [bfsLoop] at h
  | succ fuel ih =>
    cases q with
    | nil =>
      simp only [bfsLoop, Prod.mk.injEq, true_and] at h
      subst h
      exact ⟨visited, hinv⟩
    | cons a qt =>
      simp only [bfsLoop] at h
      cases hfi : mapFind lk.m_FunctionInfoMap a with
      | none =>
        rw [hfi] at h
        simp at h
      | some fi =>
        rw [hfi] at h
        simp only at h
        cases hobj : lk.m_ObjFiles[fi.fileIdx]? with
        | none =>
          rw [hobj] at h
          simp at h
        | some obj =>
          rw [hobj] at h
          simp only at h
          cases hb : bfsImports lk.m_FunctionInfoMap fi obj.imports visited qt with
          | error e =>
            rw [hb] at h
            simp at h
          | ok r =>
            obtain ⟨v1, q1⟩ := r
            rw [hb] at h
            simp only at h
            obtain ⟨hv1, hq1⟩ := bfsImports_firstNew _ _ _ _ _ _ _ hb
            have hu : usedNames lk a
                = (obj.imports.filter (fun imp => imp.references.any (inRange fi))).map
                    (fun imp => imp.name) := by
              simp only [usedNames, hfi, hobj]
            rw [← hu] at hv1 hq1
            have hstep := orderInv_step lk entryPoint d hd visited qt needed a hinv
            rw [← hv1, ← hq1] at hstep
            exact ih v1 q1 (needed ++ [a]) hstep h

theorem bfs_order (self : CLinker) (entryPoint : Name) (needed : List Name)
    (h : self.bfs entryPoint [] = (.ok (), needed)) :
    (∃ rest, needed = entryPoint :: rest) ∧ needed.Nodup ∧
      (∀ a ∈ needed, ∃ da, IsDist self entryPoint a da) ∧
      (∀ (i j : Nat) (a b : Name) (da db : Nat), i ≤ j → needed[i]? = some a →
        needed[j]? = some b → IsDist self entryPoint a da → IsDist self entryPoint b db →
        da ≤ db) ∧
      ∃ blocks : List (List Name), blocks.length = needed.length ∧
        needed = entryPoint :: blocks.flatten ∧
        ∀ (i : Nat) (a : Name), needed[i]? = some a →
          blocks[i]? = some (firstNew (entryPoint :: (blocks.take i).flatten)
            (usedNames self a)) := by
  obtain ⟨d, hd⟩ := exists_dist_fun self entryPoint
  unfold CLinker.bfs at h
  cases hm : mapFind self.m_FunctionInfoMap entryPoint with
  | none =>
    rw [hm] at h
    simp at h
  | some fi =>
    rw [hm] at h
    simp only at h
    obtain ⟨v, hvis, hnodup, hreach, _, hsorted, _, _, bl, hlen, hL, hall⟩ :=
      bfsLoop_order self entryPoint d hd _ _ _ _ _ (orderInv_init self entryPoint d hd) h
    rw [List.append_nil] at hnodup hreach hsorted hL
    have hdist : ∀ a ∈ needed, IsDist self entryPoint a (d a) := by
      intro a ha
      obtain ⟨k, hk⟩ := hreach a ha
      exact (hd a k hk).1
    refine ⟨⟨_, hL⟩, hnodup, fun a ha => ⟨d a, hdist a ha⟩, ?_, ⟨bl, hlen, hL, hall⟩⟩
    intro i j a b da db hij hi hj hda hdb
    have hai : a ∈ needed := by
      obtain ⟨hi1, hi2⟩ := List.getElem?_eq_some.mp hi
      rw [← hi2]
      exact List.getElem_mem _
    have hbj : b ∈ needed := by
      obtain ⟨hj1, hj2⟩ := List.getElem?_eq_some.mp hj
      rw [← hj2]
      exact List.getElem_mem _
    rw [reachIn_dist_unique _ _ _ _ _ hda (hdist a hai),
      reachIn_dist_unique _ _ _ _ _ hdb (hdist b hbj)]
    rcases Nat.lt_or_eq_of_le hij with hlt | heq
    · obtain ⟨hi1, hi2⟩ := List.getElem?_eq_some.mp hi
      obtain ⟨hj1, hj2⟩ := List.getElem?_eq_some.mp hj
      have := List.pairwise_iff_getElem.mp hsorted i j hi1 hj1 hlt
      rw [hi2, hj2] at this
      exact this
    · subst heq
      rw [hi] at hj
      simp only [Option.some.injEq] at hj
      subst hj
      exact Nat.le_refl _

/-- C19: when `bfs` succeeds, the list it returns starts with the entry point
and holds no name twice; every name in it has a shortest call-distance from the
entry point, and a name at an earlier index has a distance not greater than a
name at a later index. The list is the entry point followed by one block per
listed function, in list order: the block of a function holds the names for
which its import loop sets `used` and that were not listed before, each once, in
the import-list order of its file. -/
theorem C19_bfs_order (self : CLinker) (entryPoint : Name) (needed : List Name)
    (h : self.bfs entryPoint [] = (.ok (), needed)) :
    (∃ rest, needed = entryPoint :: rest) ∧ needed.Nodup ∧
      (∀ a ∈ needed, ∃ da, IsDist self entryPoint a da) ∧
      (∀ (i j : Nat) (a b : Name) (da db : Nat), i ≤ j → needed[i]? = some a →
        needed[j]? = some b → IsDist self entryPoint a da → IsDist self entryPoint b db →
        da ≤ db) ∧
      ∃ blocks : List (List Name), blocks.length = needed.length ∧
        needed = entryPoint :: blocks.flatten ∧
        ∀ (i : Nat) (a : Name), needed[i]? = some a →
          blocks[i]? = some (firstNew (entryPoint :: (blocks.take i).flatten)
            (usedNames self a)) :=
  bfs_order self entryPoint needed h

theorem C19_bfs_order_witness :
    (∃ rest, [str "main", str "f", str "g"] = str "main" :: rest) ∧
      [str "main", str "f", str "g"].Nodup ∧
      (∀ a ∈ [str "main", str "f", str "g"],
        ∃ da, IsDist (linkerTwo.symbols worldTwo) (str "main") a da) ∧
      (∀ (i j : Nat) (a b : Name) (da db : Nat), i ≤ j →
        [str "main", str "f", str "g"][i]? = some a →
        [str "main", str "f", str "g"][j]? = some b →
        IsDist (linkerTwo.symbols worldTwo) (str "main") a da →
        IsDist (linkerTwo.symbols worldTwo) (str "main") b db → da ≤ db) ∧
      ∃ blocks : List (List Name), blocks.length = [str "main", str "f", str "g"].length ∧
        [str "main", str "f", str "g"] = str "main" :: blocks.flatten ∧
        ∀ (i : Nat) (a : Name), [str "main", str "f", str "g"][i]? = some a →
          blocks[i]? = some (firstNew (str "main" :: (blocks.take i).flatten)
            (usedNames (linkerTwo.symbols worldTwo) a)) :=
  C19_bfs_order (linkerTwo.symbols worldTwo) (str "main") [str "main", str "f", str "g"]
    (by rfl)

/-! ## Every in-range import is needed -/

theorem neededFunctions_of_ok (w : World) (self : CLinker) (fileName : String)
    (entryPoint : Name) (hok : (self.linkOutput w fileName entryPoint).result = .ok ()) :
    ∃ order, self.neededFunctions w entryPoint = .ok order := by
  obtain ⟨self1, needed, order, _, _, hread, hbfs, hsort, _⟩ :=
    linkOutput_ok w self fileName entryPoint hok
  exact ⟨order, neededFunctions_of_stages w self self1 entryPoint needed order hread hbfs hsort⟩

theorem needed_imports (w : World) (self : CLinker) (fileName : String) (entryPoint : Name)
    (hok : (self.linkOutput w fileName entryPoint).result = .ok ()) :
    ∃ order offs, self.neededFunctions w entryPoint = .ok order ∧
      self.functionOffsets w entryPoint = .ok offs ∧
      ∀ F ∈ order, ∀ (fi : FunInfo) (obj : ObjFile) (imp : ImportFun) (r : Nat),
        mapFind (self.symbols w).m_FunctionInfoMap F = some fi →
        (self.symbols w).m_ObjFiles[fi.fileIdx]? = some obj →
        imp ∈ obj.imports → r ∈ imp.references → inRange fi r = true →
        imp.name ∈ order ∧ ∃ a, mapFind offs imp.name = some a := by
  obtain ⟨order, hord⟩ := neededFunctions_of_ok w self fileName entryPoint hok
  obtain ⟨offs, hoffs, hsome, _⟩ := functionOffsets_spec w self entryPoint order hord
  obtain ⟨_, _, _, _, _, hreach⟩ := neededFunctions_facts w self entryPoint order hord
  refine ⟨order, offs, hord, hoffs, ?_⟩
  intro F hF fi obj imp r hfi hobj himp hr hin
  have huse : Uses (self.symbols w) F imp.name :=
    ⟨fi, obj, hfi, hobj, imp, himp, rfl, List.any_eq_true.mpr ⟨r, hr, hin⟩⟩
  have hmem : imp.name ∈ order := (hreach _).mpr (((hreach F).mp hF).tail huse)
  exact ⟨hmem, Option.isSome_iff_exists.mp ((hsome _).mpr hmem)⟩

/-- C21: when `linkOutput` succeeds, `bfs` has succeeded with a list of needed
functions and the layout loop has assigned them offsets; for every needed
function `F` and every import of the file that owns `F` with a reference offset
that passes the range test for `F`, the name of the import is a needed function
and has an assigned offset, so the test `functionOffsets.find(name)` of the
patch loop holds for it. -/
theorem C21_in_range_imports_needed (w : World) (self : CLinker) (fileName : String)
    (entryPoint : Name)
    (hok : (self.linkOutput w fileName entryPoint).result = .ok ()) :
    ∃ order offs, self.neededFunctions w entryPoint = .ok order ∧
      self.functionOffsets w entryPoint = .ok offs ∧
      ∀ F ∈ order, ∀ (fi : FunInfo) (obj : ObjFile) (imp : ImportFun) (r : Nat),
        mapFind (self.symbols w).m_FunctionInfoMap F = some fi →
        (self.symbols w).m_ObjFiles[fi.fileIdx]? = some obj →
        imp ∈ obj.imports → r ∈ imp.references → inRange fi r = true →
        imp.name ∈ order ∧ ∃ a, mapFind offs imp.name = some a :=
  needed_imports w self fileName entryPoint hok

theorem C21_in_range_imports_needed_witness :
    ∃ order offs, linkerTwo.neededFunctions worldTwo (str "main") = .ok order ∧
      linkerTwo.functionOffsets worldTwo (str "main") = .ok offs ∧
      ∀ F ∈ order, ∀ (fi : FunInfo) (obj : ObjFile) (imp : ImportFun) (r : Nat),
        mapFind (linkerTwo.symbols worldTwo).m_FunctionInfoMap F = some fi →
        (linkerTwo.symbols worldTwo).m_ObjFiles[fi.fileIdx]? = some obj →
        imp ∈ obj.imports → r ∈ imp.references → inRange fi r = true →
        imp.name ∈ order ∧ ∃ a, mapFind offs imp.name = some a :=
  C21_in_range_imports_needed worldTwo linkerTwo "out" (str "main") (by rfl)

/-! ## Failures and the output file -/

theorem msgUndefined_ne (n : Name) :
    (Failure.runtime_error (msgUndefined n)) ≠ .undefined_behaviour ∧
      (Failure.runtime_error (msgUndefined n)) ≠ .runtime_error msgRead ∧
      (Failure.runtime_error (msgUndefined n)) ≠ .runtime_error msgWrite := by
  refine ⟨by simp, ?_, ?_⟩
  · simp only [ne_eq, Failure.runtime_error.injEq]
    exact msgUndefined_ne_msgRead n
  · simp only [ne_eq, Failure.runtime_error.injEq]
    exact msgUndefined_ne_msgWrite n

theorem output_after_failure (w : World) (self : CLinker) (fileName : String)
    (entryPoint : Name) (e : Failure) (out : List Byte)
    (herr : (self.linkOutput w fileName entryPoint).result = .error e)
    (hout : (self.linkOutput w fileName entryPoint).output = some out) :
    ∃ self1 needed order offs, self.readFiles w = (.ok (), self1) ∧
      self1.FunInfoMap.bfs entryPoint [] = (.ok (), needed) ∧
      sortTail needed = some order ∧
      assignOffsets self1.FunInfoMap.m_FunctionInfoMap order [] 0 = .ok offs ∧
      w.writable fileName = true ∧
      ((emitLoop w self1.FunInfoMap offs order [] = (.error e, out) ∧
          (e = .undefined_behaviour ∨
            (e = .runtime_error msgRead ∧ ∃ F ∈ order, ∃ fi,
              mapFind self1.FunInfoMap.m_FunctionInfoMap F = some fi ∧
              self1.FunInfoMap.loadCode w fi = .error (.runtime_error msgRead)))) ∨
        (emitLoop w self1.FunInfoMap offs order [] = (.ok (), out) ∧
          w.streamGood fileName = false ∧ e = .runtime_error msgWrite)) := by
  unfold CLinker.linkOutput at herr hout
  cases hread : self.readFiles w with
  | mk r self1 =>
    rw [hread] at herr hout
    cases r with
    | error e1 => simp at hout
    | ok u =>
      cases u
      simp only at herr hout
      cases hbfs : self1.FunInfoMap.bfs entryPoint [] with
      | mk rb needed =>
        rw [hbfs] at herr hout
        cases rb with
        | error e1 => simp at hout
        | ok u =>
          cases u
          simp only at herr hout
          cases hsort : sortTail needed with
          | none =>
            rw [hsort] at hout
            simp at hout
          | some order =>
            rw [hsort] at herr hout
            simp only at herr hout
            cases ha : assignOffsets self1.FunInfoMap.m_FunctionInfoMap order [] 0 with
            | error e1 =>
              rw [ha] at hout
              simp at hout
            | ok offs =>
              rw [ha] at herr hout
              simp only at herr hout
              cases hw : w.writable fileName with
              | false =>
                rw [hw] at hout
                simp at hout
              | true =>
                rw [hw] at herr hout
                simp only [if_true] at herr hout
                refine ⟨self1, needed, order, offs, rfl, hbfs, hsort, ha, rfl, ?_⟩
                cases hemit : emitLoop w self1.FunInfoMap offs order [] with
                | mk re out1 =>
                  rw [hemit] at herr hout
                  cases re with
                  | error e1 =>
                    simp only [Except.error.injEq, Option.some.injEq] at herr hout
                    subst herr hout
                    refine Or.inl ⟨rfl, ?_⟩
                    have h1 : (emitLoop w self1.FunInfoMap offs order []).1 = .error e1 := by
                      rw [hemit]
                    rcases emitLoop_error _ _ _ _ _ _ h1 with hub | hrd
                    · exact Or.inl hub
                    · subst hrd
                      exact Or.inr ⟨rfl, emitLoop_read_error _ _ _ _ _ h1⟩
                  | ok u =>
                    cases u
                    simp only at herr hout
                    cases hg : w.streamGood fileName with
                    | true =>
                      rw [hg] at herr
                      simp at herr
                    | false =>
                      rw [hg] at herr hout
                      simp only [Bool.false_eq_true, if_false, Except.error.injEq,
                        Option.some.injEq] at herr hout
                      subst herr hout
                      exact Or.inr ⟨rfl, rfl, rfl⟩

theorem failure_before_output (w : World) (self : CLinker) (fileName : String)
    (entryPoint : Name) (e : Failure)
    (herr : (self.linkOutput w fileName entryPoint).result = .error e) :
    ((∃ n, e = .runtime_error (msgUndefined n)) →
        (self.linkOutput w fileName entryPoint).output = none) ∧
      ((∃ e1, (self.readFiles w).1 = .error e1) →
        (self.readFiles w).1 = .error e ∧
          (self.linkOutput w fileName entryPoint).output = none) ∧
      ∀ out, (self.linkOutput w fileName entryPoint).output = some out →
        ∃ self1 needed order offs, self.readFiles w = (.ok (), self1) ∧
          self1.FunInfoMap.bfs entryPoint [] = (.ok (), needed) ∧
          sortTail needed = some order ∧
          assignOffsets self1.FunInfoMap.m_FunctionInfoMap order [] 0 = .ok offs ∧
          w.writable fileName = true ∧
          ((emitLoop w self1.FunInfoMap offs order [] = (.error e, out) ∧
              (e = .undefined_behaviour ∨
                (e = .runtime_error msgRead ∧ ∃ F ∈ order, ∃ fi,
                  mapFind self1.FunInfoMap.m_FunctionInfoMap F = some fi ∧
                  self1.FunInfoMap.loadCode w fi = .error (.runtime_error msgRead)))) ∨
            (emitLoop w self1.FunInfoMap offs order [] = (.ok (), out) ∧
              w.streamGood fileName = false ∧ e = .runtime_error msgWrite)) := by
  refine ⟨?_, ?_, fun out hout => output_after_failure w self fileName entryPoint e out herr hout⟩
  · rintro ⟨n, rfl⟩
    cases ho : (self.linkOutput w fileName entryPoint).output with
    | none => rfl
    | some out =>
      obtain ⟨_, _, _, _, _, _, _, _, _, h⟩ :=
        output_after_failure w self fileName entryPoint _ out herr ho
      obtain ⟨h1, h2, h3⟩ := msgUndefined_ne n
      rcases h with ⟨_, h | ⟨h, _⟩⟩ | ⟨_, _, h⟩
      · exact absurd h h1
      · exact absurd h h2
      · exact absurd h h3
  · rintro ⟨e1, he1⟩
    obtain ⟨h1, h2⟩ := linkOutput_read_error w self fileName entryPoint e1 he1
    rw [herr] at h1
    simp only [Except.error.injEq] at h1
    subst h1
    exact ⟨he1, h2⟩

/-- C23: let `linkOutput` fail with `e`. When `e` is an undefined-symbol error,
the output file was never opened. When `readFiles` failed (a read failure or a
duplicate symbol while parsing headers and tables), `e` is that failure and the
output file was never opened. When the output file was opened, every stage
before the emission loop had succeeded and the file had opened, and `e` comes
from the emission loop (a read failure of `loadCode` for a needed function, or
an out-of-bounds patch) or is the write failure of the final stream check. -/
theorem C23_failure_before_output (w : World) (self : CLinker) (fileName : String)
    (entryPoint : Name) (e : Failure)
    (herr : (self.linkOutput w fileName entryPoint).result = .error e) :
    ((∃ n, e = .runtime_error (msgUndefined n)) →
        (self.linkOutput w fileName entryPoint).output = none) ∧
      ((∃ e1, (self.readFiles w).1 = .error e1) →
        (self.readFiles w).1 = .error e ∧
          (self.linkOutput w fileName entryPoint).output = none) ∧
      ∀ out, (self.linkOutput w fileName entryPoint).output = some out →
        ∃ self1 needed order offs, self.readFiles w = (.ok (), self1) ∧
          self1.FunInfoMap.bfs entryPoint [] = (.ok (), needed) ∧
          sortTail needed = some order ∧
          assignOffsets self1.FunInfoMap.m_FunctionInfoMap order [] 0 = .ok offs ∧
          w.writable fileName = true ∧
          ((emitLoop w self1.FunInfoMap offs order [] = (.error e, out) ∧
              (e = .undefined_behaviour ∨
                (e = .runtime_error msgRead ∧ ∃ F ∈ order, ∃ fi,
                  mapFind self1.FunInfoMap.m_FunctionInfoMap F = some fi ∧
                  self1.FunInfoMap.loadCode w fi = .error (.runtime_error msgRead)))) ∨
            (emitLoop w self1.FunInfoMap offs order [] = (.ok (), out) ∧
              w.streamGood fileName = false ∧ e = .runtime_error msgWrite)) :=
  failure_before_output w self fileName entryPoint e herr

theorem C23_failure_before_output_witness :
    ((∃ n, Failure.runtime_error (msgUndefined (str "nothing"))
          = .runtime_error (msgUndefined n)) →
        (linkerTwo.linkOutput worldTwo "out" (str "nothing")).output = none) ∧
      ((∃ e1, (linkerTwo.readFiles worldTwo).1 = .error e1) →
        (linkerTwo.readFiles worldTwo).1
            = .error (.runtime_error (msgUndefined (str "nothing"))) ∧
          (linkerTwo.linkOutput worldTwo "out" (str "nothing")).output = none) ∧
      ∀ out, (linkerTwo.linkOutput worldTwo "out" (str "nothing")).output = some out →
        ∃ self1 needed order offs, linkerTwo.readFiles worldTwo = (.ok (), self1) ∧
          self1.FunInfoMap.bfs (str "nothing") [] = (.ok (), needed) ∧
          sortTail needed = some order ∧
          assignOffsets self1.FunInfoMap.m_FunctionInfoMap order [] 0 = .ok offs ∧
          worldTwo.writable "out" = true ∧
          ((emitLoop worldTwo self1.FunInfoMap offs order []
                = (.error (.runtime_error (msgUndefined (str "nothing"))), out) ∧
              (Failure.runtime_error (msgUndefined (str "nothing")) = .undefined_behaviour ∨
                (Failure.runtime_error (msgUndefined (str "nothing"))
                    = .runtime_error msgRead ∧
                  ∃ F ∈ order, ∃ fi,
                    mapFind self1.FunInfoMap.m_FunctionInfoMap F = some fi ∧
                    self1.FunInfoMap.loadCode worldTwo fi
                      = .error (.runtime_error msgRead)))) ∨
            (emitLoop worldTwo self1.FunInfoMap offs order [] = (.ok (), out) ∧
              worldTwo.streamGood "out" = false ∧
              Failure.runtime_error (msgUndefined (str "nothing"))
                = .runtime_error msgWrite)) :=
  C23_failure_before_output worldTwo linkerTwo "out" (str "nothing")
    (.runtime_error (msgUndefined (str "nothing"))) (by rfl)

/-! ## Termination and bounds of the traversal -/

theorem bfs_total (self : CLinker) (entryPoint : Name) :
    ((self.FunInfoMap.bfs entryPoint []).1 = .ok () ∨
        ∃ b, (self.FunInfoMap.bfs entryPoint []).1 = .error (.runtime_error (msgUndefined b))) ∧
      (self.FunInfoMap.bfs entryPoint []).2.Nodup := by
  have hidx := FunInfoMap_fileIdx self
  cases hentry : mapFind self.FunInfoMap.m_FunctionInfoMap entryPoint with
  | none =>
    simp only [CLinker.bfs, hentry]
    exact ⟨Or.inr ⟨entryPoint, rfl⟩, List.nodup_nil⟩
  | some fi =>
    rcases bfs_spec self.FunInfoMap entryPoint hidx (by simp [hentry]) with
      ⟨rest, hres, _, hnd, _⟩ | ⟨done, a, b, hres, hnd, _⟩
    · rw [hres]
      exact ⟨Or.inl rfl, hnd⟩
    · rw [hres]
      exact ⟨Or.inr ⟨b, rfl⟩, hnd⟩

theorem bfs_length_le (self : CLinker) (entryPoint : Name) (needed : List Name)
    (hbfs : self.FunInfoMap.bfs entryPoint [] = (.ok (), needed)) :
    needed.length ≤ self.FunInfoMap.m_FunctionInfoMap.length ∧
      needed.length ≤ (exportNames self.m_ObjFiles).length := by
  obtain ⟨_, _, _, hnd, hdef, _⟩ :=
    bfs_ok self.FunInfoMap entryPoint needed (FunInfoMap_fileIdx self) hbfs
  constructor
  · have hsub : needed ⊆ self.FunInfoMap.m_FunctionInfoMap.map Prod.fst :=
      fun n hn => (mapFind_isSome_iff _ _).mp (hdef n hn)
    have := (List.Nodup.subperm hnd hsub).length_le
    rwa [List.length_map] at this
  · have hsub : needed ⊆ exportNames self.m_ObjFiles :=
      fun n hn => (FunInfoMap_isSome_iff self n).mp (hdef n hn)
    exact (List.Nodup.subperm hnd hsub).length_le

/-- C24: for every list of object files and every entry name, `bfs` on the
symbol table that `FunInfoMap` builds ends within its budget of one iteration
per entry of the symbol table: it succeeds or fails with an undefined-symbol
error. The list of the names taken out of the queue holds no name twice, and on
success it has at most as many elements as the symbol table has entries, and as
the files have exports. -/
theorem C24_bfs_terminates (self : CLinker) (entryPoint : Name) :
    ((self.FunInfoMap.bfs entryPoint []).1 = .ok () ∨
        ∃ b, (self.FunInfoMap.bfs entryPoint []).1 = .error (.runtime_error (msgUndefined b))) ∧
      (self.FunInfoMap.bfs entryPoint []).2.Nodup ∧
      ∀ needed, self.FunInfoMap.bfs entryPoint [] = (.ok (), needed) →
        needed.length ≤ self.FunInfoMap.m_FunctionInfoMap.length ∧
          needed.length ≤ (exportNames self.m_ObjFiles).length :=
  ⟨(bfs_total self entryPoint).1, (bfs_total self entryPoint).2,
    fun needed h => bfs_length_le self entryPoint needed h⟩

theorem C24_bfs_terminates_witness :
    ((CLinker.bfs (CLinker.FunInfoMap ⟨["main.o", "lib.o"], [objMain, objLib], []⟩)
          (str "main") []).1 = .ok () ∨
        ∃ b, (CLinker.bfs (CLinker.FunInfoMap ⟨["main.o", "lib.o"], [objMain, objLib], []⟩)
          (str "main") []).1 = .error (.runtime_error (msgUndefined b))) ∧
      (CLinker.bfs (CLinker.FunInfoMap ⟨["main.o", "lib.o"], [objMain, objLib], []⟩)
        (str "main") []).2.Nodup ∧
      ∀ needed, CLinker.bfs (CLinker.FunInfoMap ⟨["main.o", "lib.o"], [objMain, objLib], []⟩)
          (str "main") [] = (.ok (), needed) →
        needed.length ≤ (CLinker.FunInfoMap
            ⟨["main.o", "lib.o"], [objMain, objLib], []⟩).m_FunctionInfoMap.length ∧
          needed.length ≤ (exportNames
            (⟨["main.o", "lib.o"], [objMain, objLib], []⟩ : CLinker).m_ObjFiles).length :=
  C24_bfs_terminates ⟨["main.o", "lib.o"], [objMain, objLib], []⟩ (str "main")

/-! ## Lookups never miss -/

theorem bfsLoop_dequeued (lk : CLinker) (fuel : Nat) (visited q needed : List Name)
    (hq : ∀ n ∈ q, (mapFind lk.m_FunctionInfoMap n).isSome)
    (hn : ∀ n ∈ needed, (mapFind lk.m_FunctionInfoMap n).isSome) :
    ∀ n ∈ (bfsLoop lk fuel visited q needed).2, (mapFind lk.m_FunctionInfoMap n).isSome := by
  induction fuel generalizing visited q needed with
  | zero =>
    cases q with
    | nil => simpa [bfsLoop] using hn
    | cons a qt => simpa [bfsLoop] using hn
  | succ fuel ih =>
    cases q with
    | nil => simpa [bfsLoop] using hn
    | cons a qt =>
      have ha := hq a (List.mem_cons_self _ _)
      have hn1 : ∀ n ∈ needed ++ [a], (mapFind lk.m_FunctionInfoMap n).isSome := by
        intro n hmem
        rcases List.mem_append.mp hmem with h | h
        · exact hn n h
        · simp only [List.mem_singleton] at h
          subst h
          exact ha
      simp only [bfsLoop]
      cases hfi : mapFind lk.m_FunctionInfoMap a with
      | none => exact hn1
      | some fi =>
        simp only
        cases hobj : lk.m_ObjFiles[fi.fileIdx]? with
        | none => exact hn1
        | some obj =>
          simp only
          cases hb : bfsImports lk.m_FunctionInfoMap fi obj.imports visited qt with
          | error e => exact hn1
          | ok r =>
            obtain ⟨v1, q1⟩ := r
            simp only
            obtain ⟨new, _, hq1, _, _, hnew, _⟩ := bfsImports_ok _ _ _ _ _ _ _ hb
            apply ih v1 q1 (needed ++ [a]) _ hn1
            intro n hmem
            rw [hq1] at hmem
            rcases List.mem_append.mp hmem with h | h
            · exact hq n (List.mem_cons_of_mem _ h)
            · exact (hnew n h).1

theorem bfs_dequeued (lk : CLinker) (entryPoint : Name) :
    ∀ n ∈ (lk.bfs entryPoint []).2, (mapFind lk.m_FunctionInfoMap n).isSome := by
  unfold CLinker.bfs
  cases hentry : mapFind lk.m_FunctionInfoMap entryPoint with
  | none => simp
  | some fi =>
    simp only
    apply bfsLoop_dequeued
    · intro n hn
      simp only [List.mem_singleton] at hn
      subst hn
      simp [hentry]
    · simp

theorem symbol_in_bounds (w : World) (self self1 : CLinker) (n : Name)
    (hread : self.readFiles w = (.ok (), self1))
    (h : (mapFind self1.FunInfoMap.m_FunctionInfoMap n).isSome) :
    ∃ fi obj file, mapFind self1.FunInfoMap.m_FunctionInfoMap n = some fi ∧
      fi.fileIdx < self1.m_ObjFiles.length ∧
      self1.FunInfoMap.m_ObjFiles[fi.fileIdx]? = some obj ∧
      self1.FunInfoMap.m_Files[fi.fileIdx]? = some file := by
  obtain ⟨fi, hfi⟩ := Option.isSome_iff_exists.mp h
  have hidx : fi.fileIdx < self1.m_ObjFiles.length := FunInfoMap_fileIdx self1 n fi hfi
  obtain ⟨hfiles, _, _, _, hlen⟩ := readFiles_ok w self self1 hread
  have hidx2 : fi.fileIdx < self1.m_Files.length := by
    rw [hfiles, ← hlen]
    exact hidx
  exact ⟨fi, self1.m_ObjFiles.get ⟨fi.fileIdx, hidx⟩, self1.m_Files.get ⟨fi.fileIdx, hidx2⟩, hfi,
    hidx, List.getElem?_eq_getElem hidx, List.getElem?_eq_getElem hidx2⟩

theorem lookups_in_bounds (w : World) (self self1 : CLinker) (entryPoint : Name)
    (hread : self.readFiles w = (.ok (), self1)) :
    (∀ n ∈ (self1.FunInfoMap.bfs entryPoint []).2, ∃ fi obj file,
        mapFind self1.FunInfoMap.m_FunctionInfoMap n = some fi ∧
        fi.fileIdx < self1.m_ObjFiles.length ∧
        self1.FunInfoMap.m_ObjFiles[fi.fileIdx]? = some obj ∧
        self1.FunInfoMap.m_Files[fi.fileIdx]? = some file) ∧
      (self1.FunInfoMap.bfs entryPoint []).1 ≠ .error .undefined_behaviour ∧
      ∀ needed, self1.FunInfoMap.bfs entryPoint [] = (.ok (), needed) →
        ∃ order offs, sortTail needed = some order ∧
          assignOffsets self1.FunInfoMap.m_FunctionInfoMap order [] 0 = .ok offs ∧
          ∀ n ∈ order, ∃ fi obj file,
            mapFind self1.FunInfoMap.m_FunctionInfoMap n = some fi ∧
            fi.fileIdx < self1.m_ObjFiles.length ∧
            self1.FunInfoMap.m_ObjFiles[fi.fileIdx]? = some obj ∧
            self1.FunInfoMap.m_Files[fi.fileIdx]? = some file := by
  refine ⟨fun n hn => symbol_in_bounds w self self1 n hread (bfs_dequeued _ _ n hn), ?_, ?_⟩
  · rcases (bfs_total self1 entryPoint).1 with h | ⟨b, h⟩
    · rw [h]
      simp
    · rw [h]
      simp
  · intro needed hbfs
    obtain ⟨rest, hneeded, _⟩ :=
      bfs_ok self1.FunInfoMap entryPoint needed (FunInfoMap_fileIdx self1) hbfs
    have hsort : sortTail needed
        = some (entryPoint :: rest.insertionSort (fun a b => a ≤ b)) := by
      rw [hneeded]
      rfl
    have hord := neededFunctions_of_stages w self self1 entryPoint needed _ hread hbfs hsort
    have hsym : self.symbols w = self1.FunInfoMap := by simp [CLinker.symbols, hread]
    obtain ⟨_, _, _, hnd, hdef, _⟩ := neededFunctions_facts w self entryPoint _ hord
    rw [hsym] at hdef
    obtain ⟨offs, hoffs, _⟩ :=
      assignOffsets_spec self1.FunInfoMap.m_FunctionInfoMap _ [] 0 hdef hnd
    exact ⟨_, offs, hsort, hoffs,
      fun n hn => symbol_in_bounds w self self1 n hread (hdef n hn)⟩

/-- C25: after `readFiles` has parsed the files, every name that `bfs` takes out
of the queue is a key of the symbol table `FunInfoMap` builds, with a file index
below the number of parsed object files, at which `m_ObjFiles` and `m_Files`
hold an entry; `bfs` never ends in undefined behaviour. When `bfs` succeeds the
sort and the layout loop succeed, and every name of the final order is such a
key, so the lookups and the indexing of the layout and emission loops do not
miss. -/
theorem C25_lookups_in_bounds (w : World) (self self1 : CLinker) (entryPoint : Name)
    (hread : self.readFiles w = (.ok (), self1)) :
    (∀ n ∈ (self1.FunInfoMap.bfs entryPoint []).2, ∃ fi obj file,
        mapFind self1.FunInfoMap.m_FunctionInfoMap n = some fi ∧
        fi.fileIdx < self1.m_ObjFiles.length ∧
        self1.FunInfoMap.m_ObjFiles[fi.fileIdx]? = some obj ∧
        self1.FunInfoMap.m_Files[fi.fileIdx]? = some file) ∧
      (self1.FunInfoMap.bfs entryPoint []).1 ≠ .error .undefined_behaviour ∧
      ∀ needed, self1.FunInfoMap.bfs entryPoint [] = (.ok (), needed) →
        ∃ order offs, sortTail needed = some order ∧
          assignOffsets self1.FunInfoMap.m_FunctionInfoMap order [] 0 = .ok offs ∧
          ∀ n ∈ order, ∃ fi obj file,
            mapFind self1.FunInfoMap.m_FunctionInfoMap n = some fi ∧
            fi.fileIdx < self1.m_ObjFiles.length ∧
            self1.FunInfoMap.m_ObjFiles[fi.fileIdx]? = some obj ∧
            self1.FunInfoMap.m_Files[fi.fileIdx]? = some file :=
  lookups_in_bounds w self self1 entryPoint hread

theorem C25_lookups_in_bounds_witness :
    (∀ n ∈ (CLinker.bfs (CLinker.FunInfoMap ⟨["main.o", "lib.o"], [objMain, objLib], []⟩)
          (str "main") []).2, ∃ fi obj file,
        mapFind (CLinker.FunInfoMap
          ⟨["main.o", "lib.o"], [objMain, objLib], []⟩).m_FunctionInfoMap n = some fi ∧
        fi.fileIdx < (⟨["main.o", "lib.o"], [objMain, objLib], []⟩ : CLinker).m_ObjFiles.length ∧
        (CLinker.FunInfoMap
          ⟨["main.o", "lib.o"], [objMain, objLib], []⟩).m_ObjFiles[fi.fileIdx]? = some obj ∧
        (CLinker.FunInfoMap
          ⟨["main.o", "lib.o"], [objMain, objLib], []⟩).m_Files[fi.fileIdx]? = some file) ∧
      (CLinker.bfs (CLinker.FunInfoMap ⟨["main.o", "lib.o"], [objMain, objLib], []⟩)
        (str "main") []).1 ≠ .error .undefined_behaviour ∧
      ∀ needed, CLinker.bfs (CLinker.FunInfoMap ⟨["main.o", "lib.o"], [objMain, objLib], []⟩)
          (str "main") [] = (.ok (), needed) →
        ∃ order offs, sortTail needed = some order ∧
          assignOffsets (CLinker.FunInfoMap
            ⟨["main.o", "lib.o"], [objMain, objLib], []⟩).m_FunctionInfoMap order [] 0
            = .ok offs ∧
          ∀ n ∈ order, ∃ fi obj file,
            mapFind (CLinker.FunInfoMap
              ⟨["main.o", "lib.o"], [objMain, objLib], []⟩).m_FunctionInfoMap n = some fi ∧
            fi.fileIdx
              < (⟨["main.o", "lib.o"], [objMain, objLib], []⟩ : CLinker).m_ObjFiles.length ∧
            (CLinker.FunInfoMap
              ⟨["main.o", "lib.o"], [objMain, objLib], []⟩).m_ObjFiles[fi.fileIdx]? = some obj ∧
            (CLinker.FunInfoMap
              ⟨["main.o", "lib.o"], [objMain, objLib], []⟩).m_Files[fi.fileIdx]? = some file :=
  C25_lookups_in_bounds worldTwo linkerTwo ⟨["main.o", "lib.o"], [objMain, objLib], []⟩
    (str "main") (by rfl)

/-! ## A file that parses holds a layout -/

theorem read_ok (s s1 : IFStream) (n : Nat) (bs : List Byte)
    (h : s.read n = some (bs, s1)) :
    s.rest = bs ++ s1.rest ∧ bs.length = n ∧ s1.pos = s.pos + n := by
  unfold IFStream.read at h
  split at h
  · rename_i hn
    simp only [Option.some.injEq, Prod.mk.injEq] at h
    obtain ⟨h1, h2⟩ := h
    subst h1 h2
    refine ⟨(List.take_append_drop n s.rest).symm, ?_, rfl⟩
    rw [List.length_take]
    omega
  · simp at h

theorem encode_decodeU32 (bs : List Byte) (h : bs.length = 4) :
    encodeU32 (decodeU32 bs) = bs := by
  match bs, h with
  | [b0, b1, b2, b3], _ =>
    have h0 := b0.isLt
    have h1 := b1.isLt
    have h2 := b2.isLt
    have h3 := b3.isLt
    simp only [decodeU32, encodeU32, toByte, List.cons.injEq, and_true]
    refine ⟨Fin.ext ?_, Fin.ext ?_, Fin.ext ?_, Fin.ext ?_⟩ <;> simp only <;> omega

theorem readU32_ok (s s1 : IFStream) (v : Nat) (h : s.readU32 = some (v, s1)) :
    s.rest = encodeU32 v ++ s1.rest ∧ v < 4294967296 ∧ s1.pos = s.pos + 4 := by
  have hlt := readU32_lt s s1 v h
  unfold IFStream.readU32 at h
  cases hr : s.read 4 with
  | none =>
    rw [hr] at h
    simp at h
  | some p =>
    obtain ⟨bs, s2⟩ := p
    rw [hr] at h
    simp only [Option.some.injEq, Prod.mk.injEq] at h
    obtain ⟨h1, h2⟩ := h
    subst h1 h2
    obtain ⟨hrest, hlen, hpos⟩ := read_ok s s2 4 bs hr
    rw [encode_decodeU32 bs hlen]
    exact ⟨hrest, hlt, hpos⟩

theorem readU8_ok (s s1 : IFStream) (n : Nat) (h : s.readU8 = some (n, s1)) :
    s.rest = toByte n :: s1.rest ∧ n < 256 ∧ s1.pos = s.pos + 1 := by
  unfold IFStream.readU8 at h
  cases hr : s.read 1 with
  | none =>
    rw [hr] at h
    simp at h
  | some p =>
    obtain ⟨bs, s2⟩ := p
    rw [hr] at h
    simp only [Option.some.injEq, Prod.mk.injEq] at h
    obtain ⟨h1, h2⟩ := h
    subst h1 h2
    obtain ⟨hrest, hlen, hpos⟩ := read_ok s s2 1 bs hr
    match bs, hlen with
    | [b], _ =>
      refine ⟨?_, b.isLt, hpos⟩
      rw [hrest]
      simp only [List.headD_cons, List.singleton_append, List.cons.injEq, and_true]
      apply Fin.ext
      simp only [toByte]
      exact (Nat.mod_eq_of_lt b.isLt).symm

theorem readRefs_layout (n : Nat) (s : IFStream) (acc : List Nat) (s1 : IFStream)
    (acc1 : List Nat) (h : readRefs n s acc = .ok (s1, acc1)) :
    ∃ new, acc1 = acc ++ new ∧ new.length = n ∧ (∀ r ∈ new, r < 4294967296) ∧
      s.rest = new.flatMap encodeU32 ++ s1.rest ∧
      s1.pos = s.pos + (new.flatMap encodeU32).length := by
  induction n generalizing s acc with
  | zero =>
    simp only [readRefs, Except.ok.injEq, Prod.mk.injEq] at h
    obtain ⟨h1, h2⟩ := h
    subst h1 h2
    exact ⟨[], by simp⟩
  | succ n ih =>
    simp only [readRefs] at h
    cases hr : s.readU32 with
    | none =>
      rw [hr] at h
      simp at h
    | some p =>
      obtain ⟨v, s2⟩ := p
      rw [hr] at h
      simp only at h
      obtain ⟨hrest, hv, hpos⟩ := readU32_ok s s2 v hr
      obtain ⟨new, h1, h2, h3, h4, h5⟩ := ih s2 _ h
      refine ⟨v :: new, by simp [h1], by simp [h2], ?_, ?_, ?_⟩
      · intro r hr2
        rcases List.mem_cons.mp hr2 with rfl | hr2
        · exact hv
        · exact h3 r hr2
      · rw [hrest, h4]
        simp
      · rw [h5, hpos]
        simp only [List.flatMap_cons, List.length_append, encodeU32_length]
        omega

theorem readImports_layout (n : Nat) (s : IFStream) (acc : List ImportFun) (s1 : IFStream)
    (acc1 : List ImportFun) (h : readImports n s acc = .ok (s1, acc1)) :
    ∃ new, acc1 = acc ++ new ∧ new.length = n ∧
      (∀ i ∈ new, i.name.length < 256) ∧ (∀ i ∈ new, i.references.length < 4294967296) ∧
      (∀ i ∈ new, ∀ r ∈ i.references, r < 4294967296) ∧
      s.rest = new.flatMap encodeImport ++ s1.rest ∧
      s1.pos = s.pos + (new.flatMap encodeImport).length := by
  induction n generalizing s acc with
  | zero =>
    simp only [readImports, Except.ok.injEq, Prod.mk.injEq] at h
    obtain ⟨h1, h2⟩ := h
    subst h1 h2
    exact ⟨[], by simp⟩
  | succ n ih =>
    simp only [readImports] at h
    cases hr1 : s.readU8 with
    | none =>
      rw [hr1] at h
      simp at h
    | some p1 =>
      obtain ⟨nameLen, s2⟩ := p1
      rw [hr1] at h
      simp only at h
      cases hr2 : s2.read nameLen with
      | none =>
        rw [hr2] at h
        simp at h
      | some p2 =>
        obtain ⟨name, s3⟩ := p2
        rw [hr2] at h
        simp only at h
        cases hr3 : s3.readU32 with
        | none =>
          rw [hr3] at h
          simp at h
        | some p3 =>
          obtain ⟨refCnt, s4⟩ := p3
          rw [hr3] at h
          simp only at h
          cases hr4 : readRefs refCnt s4 [] with
          | error e =>
            rw [hr4] at h
            simp at h
          | ok p4 =>
            obtain ⟨s5, refs⟩ := p4
            rw [hr4] at h
            simp only at h
            obtain ⟨a1, a2, a3⟩ := readU8_ok s s2 nameLen hr1
            obtain ⟨b1, b2, b3⟩ := read_ok s2 s3 nameLen name hr2
            obtain ⟨c1, c2, c3⟩ := readU32_ok s3 s4 refCnt hr3
            obtain ⟨rs, d1, d2, d3, d4, d5⟩ := readRefs_layout refCnt s4 [] s5 refs hr4
            simp only [List.nil_append] at d1
            subst d1
            obtain ⟨new, h1, h2, h3, h4, h5, h6, h7⟩ := ih s5 _ h
            refine ⟨⟨name, refs⟩ :: new, by simp [h1], by simp [h2], ?_, ?_, ?_, ?_, ?_⟩
            · intro i hi
              rcases List.mem_cons.mp hi with rfl | hi
              · simp only
                omega
              · exact h3 i hi
            · intro i hi
              rcases List.mem_cons.mp hi with rfl | hi
              · simp only
                omega
              · exact h4 i hi
            · intro i hi
              rcases List.mem_cons.mp hi with rfl | hi
              · exact d3
              · exact h5 i hi
            · rw [a1, b1, c1, d4, h6]
              simp only [List.flatMap_cons, encodeImport, b2, d2, List.cons_append,
                List.append_assoc]
            · rw [h7, d5, c3, b3, a3]
              simp only [List.flatMap_cons, encodeImport, List.length_append, List.length_cons,
                encodeU32_length, b2]
              omega

theorem readExports_layout (k : Nat) (n : Nat) (s : IFStream) (exportDup : List (Name × Nat))
    (acc : List ExportFun) (s1 : IFStream) (exportDup1 : List (Name × Nat))
    (acc1 : List ExportFun) (h : readExports k n s exportDup acc = .ok (s1, exportDup1, acc1)) :
    ∃ new, acc1 = acc ++ new ∧ new.length = n ∧
      (∀ e ∈ new, e.name.length < 256) ∧ (∀ e ∈ new, e.offset < 4294967296) ∧
      s.rest = new.flatMap encodeExport ++ s1.rest ∧
      s1.pos = s.pos + (new.flatMap encodeExport).length := by
  induction n generalizing s exportDup acc with
  | zero =>
    simp only [readExports, Except.ok.injEq, Prod.mk.injEq] at h
    obtain ⟨h1, _, h2⟩ := h
    subst h1 h2
    exact ⟨[], by simp⟩
  | succ n ih =>
    simp only [readExports] at h
    cases hr1 : s.readU8 with
    | none =>
      rw [hr1] at h
      simp at h
    | some p1 =>
      obtain ⟨nameLen, s2⟩ := p1
      rw [hr1] at h
      simp only at h
      cases hr2 : s2.read nameLen with
      | none =>
        rw [hr2] at h
        simp at h
      | some p2 =>
        obtain ⟨name, s3⟩ := p2
        rw [hr2] at h
        simp only at h
        cases hr3 : s3.readU32 with
        | none =>
          rw [hr3] at h
          simp at h
        | some p3 =>
          obtain ⟨offset, s4⟩ := p3
          rw [hr3] at h
          simp only at h
          cases hm : mapFind exportDup name with
          | some x =>
            rw [hm] at h
            simp at h
          | none =>
            rw [hm] at h
            simp only at h
            obtain ⟨a1, a2, a3⟩ := readU8_ok s s2 nameLen hr1
            obtain ⟨b1, b2, b3⟩ := read_ok s2 s3 nameLen name hr2
            obtain ⟨c1, c2, c3⟩ := readU32_ok s3 s4 offset hr3
            obtain ⟨new, h1, h2, h3, h4, h6, h7⟩ := ih s4 _ _ h
            refine ⟨⟨name, offset⟩ :: new, by simp [h1], by simp [h2], ?_, ?_, ?_, ?_⟩
            · intro e he
              rcases List.mem_cons.mp he with rfl | he
              · simp only
                omega
              · exact h3 e he
            · intro e he
              rcases List.mem_cons.mp he with rfl | he
              · exact c2
              · exact h4 e he
            · rw [a1, b1, c1, h6]
              simp only [List.flatMap_cons, encodeExport, b2, List.cons_append,
                List.append_assoc]
            · rw [h7, c3, b3, a3]
              simp only [List.flatMap_cons, encodeExport, List.length_append, List.length_cons,
                encodeU32_length, b2]
              omega

theorem readObjFile_fileHolds (k : Nat) (content : List Byte) (exportDup : List (Name × Nat))
    (o : ObjFile) (exportDup1 : List (Name × Nat))
    (h : readObjFile k ⟨content, 0⟩ exportDup = .ok (o, exportDup1)) :
    FileHolds content o := by
  unfold readObjFile at h
  cases hr1 : IFStream.readU32 ⟨content, 0⟩ with
  | none =>
    rw [hr1] at h
    simp at h
  | some p1 =>
    obtain ⟨expCnt, s1⟩ := p1
    rw [hr1] at h
    simp only at h
    cases hr2 : s1.readU32 with
    | none =>
      rw [hr2] at h
      simp at h
    | some p2 =>
      obtain ⟨imCnt, s2⟩ := p2
      rw [hr2] at h
      simp only at h
      cases hr3 : s2.readU32 with
      | none =>
        rw [hr3] at h
        simp at h
      | some p3 =>
        obtain ⟨codeSz, s3⟩ := p3
        rw [hr3] at h
        simp only at h
        cases hr4 : readExports k expCnt s3 exportDup [] with
        | error e =>
          rw [hr4] at h
          simp at h
        | ok p4 =>
          obtain ⟨s4, dup1, exports⟩ := p4
          rw [hr4] at h
          simp only at h
          cases hr5 : readImports imCnt s4 [] with
          | error e =>
            rw [hr5] at h
            simp at h
          | ok p5 =>
            obtain ⟨s5, imports⟩ := p5
            rw [hr5] at h
            simp only [Except.ok.injEq, Prod.mk.injEq] at h
            obtain ⟨ho, _⟩ := h
            obtain ⟨a1, a2, a3⟩ := readU32_ok _ s1 expCnt hr1
            obtain ⟨b1, b2, b3⟩ := readU32_ok s1 s2 imCnt hr2
            obtain ⟨c1, c2, c3⟩ := readU32_ok s2 s3 codeSz hr3
            obtain ⟨es, d1, d2, d3, d4, d5, d6⟩ := readExports_layout _ _ _ _ _ _ _ _ hr4
            obtain ⟨is, e1, e2, e3, e4, e5, e6, e7⟩ := readImports_layout _ _ _ _ _ hr5
            simp only [List.nil_append] at d1 e1
            subst d1 e1
            simp only at a1 a3
            have hlay : content = (ObjFile.layout ⟨imports, exports, ⟨expCnt, imCnt, codeSz⟩,
                s5.pos % 4294967296⟩) ++ s5.rest := by
              rw [a1, b1, c1, d5, e6]
              simp only [ObjFile.layout, List.append_assoc]
            have hlen : (ObjFile.layout ⟨imports, exports, ⟨expCnt, imCnt, codeSz⟩,
                s5.pos % 4294967296⟩).length = s5.pos := by
              rw [layout_length, e7, d6, c3, b3, a3]
            subst ho
            refine ⟨⟨d2.symm, e2.symm, ?_, ?_, c2, d3, d4, e3, e4, e5, ?_⟩, s5.rest, hlay⟩
            · simp only
              omega
            · simp only
              omega
            · rw [hlen]

theorem readFilesLoop_filesHold (w : World) (files : List String) (k : Nat)
    (exportDup : List (Name × Nat)) (objs objs1 : List ObjFile)
    (h : readFilesLoop w files k exportDup objs = (.ok (), objs1)) :
    ∃ os, objs1 = objs ++ os ∧ FilesHold w files os := by
  induction files generalizing k exportDup objs with
  | nil =>
    simp only [readFilesLoop, Prod.mk.injEq, true_and] at h
    exact ⟨[], by simp [h], List.Forall₂.nil⟩
  | cons f rest ih =>
    simp only [readFilesLoop] at h
    cases hc : w.readable f with
    | none =>
      rw [hc] at h
      simp at h
    | some content =>
      rw [hc] at h
      simp only at h
      cases hr : readObjFile k ⟨content, 0⟩ exportDup with
      | error e =>
        rw [hr] at h
        simp at h
      | ok p =>
        obtain ⟨o, dup1⟩ := p
        rw [hr] at h
        simp only at h
        obtain ⟨os, h1, h2⟩ := ih _ _ _ h
        refine ⟨o :: os, by simp [h1], ?_⟩
        exact List.Forall₂.cons ⟨content, hc, readObjFile_fileHolds k content exportDup o dup1 hr⟩
          h2

theorem readFiles_filesHold (w : World) (self self1 : CLinker)
    (h : self.readFiles w = (.ok (), self1)) :
    self1 = ⟨self.m_Files, self1.m_ObjFiles, []⟩ ∧
      FilesHold w self.m_Files self1.m_ObjFiles ∧ (exportNames self1.m_ObjFiles).Nodup := by
  obtain ⟨_, _, hnd, _, _⟩ := readFiles_ok w self self1 h
  simp only [CLinker.readFiles, Prod.mk.injEq] at h
  obtain ⟨h1, h2⟩ := h
  obtain ⟨os, h3, h4⟩ := readFilesLoop_filesHold w self.m_Files 0 [] []
    (readFilesLoop w self.m_Files 0 [] []).2 (by rw [← h1])
  simp only [List.nil_append] at h3
  subst h2
  simp only at hnd ⊢
  rw [h3]
  exact ⟨trivial, h4, by rw [← h3]; exact hnd⟩

/-! ## The file index influences no stage -/

theorem inRange_congr (fi fi2 : FunInfo) (ho : fi.offset = fi2.offset)
    (hs : fi.size = fi2.size) : inRange fi = inRange fi2 := by
  funext r
  simp only [inRange, ho, hs]

theorem bfsImports_congr (m m2 : List (Name × FunInfo))
    (hm : ∀ n, (mapFind m n).isSome = (mapFind m2 n).isSome) (fi fi2 : FunInfo)
    (ho : fi.offset = fi2.offset) (hs : fi.size = fi2.size) (imports : List ImportFun)
    (visited q : List Name) :
    bfsImports m fi imports visited q = bfsImports m2 fi2 imports visited q := by
  induction imports generalizing visited q with
  | nil => rfl
  | cons imp rest ih =>
    simp only [bfsImports, inRange_congr fi fi2 ho hs, ih]
    have h := hm imp.name
    cases h1 : mapFind m imp.name with
    | none =>
      cases h2 : mapFind m2 imp.name with
      | none => rfl
      | some x => simp [h1, h2] at h
    | some x =>
      cases h2 : mapFind m2 imp.name with
      | none => simp [h1, h2] at h
      | some y => rfl

theorem sameTable_isSome (lk lk2 : CLinker) (h : SameTable lk lk2) (n : Name) :
    (mapFind lk.m_FunctionInfoMap n).isSome = (mapFind lk2.m_FunctionInfoMap n).isSome := by
  rcases h n with ⟨h1, h2⟩ | ⟨fi, fi2, h1, h2, _⟩
  · rw [h1, h2]
  · rw [h1, h2]
    rfl

theorem bfsLoop_congr (lk lk2 : CLinker) (h : SameTable lk lk2) (fuel : Nat)
    (visited q needed : List Name) :
    bfsLoop lk fuel visited q needed = bfsLoop lk2 fuel visited q needed := by
  induction fuel generalizing visited q needed with
  | zero =>
    cases q with
    | nil => rfl
    | cons a qt => rfl
  | succ fuel ih =>
    cases q with
    | nil => rfl
    | cons a qt =>
      simp only [bfsLoop]
      rcases h a with ⟨h1, h2⟩ | ⟨fi, fi2, h1, h2, ho, hs, _, hobj, _⟩
      · rw [h1, h2]
      · rw [h1, h2]
        simp only
        rw [hobj]
        cases lk2.m_ObjFiles[fi2.fileIdx]? with
        | none => rfl
        | some obj =>
          simp only
          rw [bfsImports_congr _ _ (sameTable_isSome lk lk2 h) fi fi2 ho hs]
          cases bfsImports lk2.m_FunctionInfoMap fi2 obj.imports visited qt with
          | error e => rfl
          | ok r =>
            simp only
            exact ih _ _ _

theorem bfs_congr (lk lk2 : CLinker) (h : SameTable lk lk2)
    (hlen : lk.m_FunctionInfoMap.length = lk2.m_FunctionInfoMap.length)
    (entryPoint : Name) (needed : List Name) :
    lk.bfs entryPoint needed = lk2.bfs entryPoint needed := by
  unfold CLinker.bfs
  have hs := sameTable_isSome lk lk2 h entryPoint
  cases h1 : mapFind lk.m_FunctionInfoMap entryPoint with
  | none =>
    cases h2 : mapFind lk2.m_FunctionInfoMap entryPoint with
    | none => rfl
    | some x => simp [h1, h2] at hs
  | some x =>
    cases h2 : mapFind lk2.m_FunctionInfoMap entryPoint with
    | none => simp [h1, h2] at hs
    | some y =>
      simp only
      rw [hlen]
      exact bfsLoop_congr lk lk2 h _ _ _ _

theorem assignOffsets_congr (lk lk2 : CLinker) (h : SameTable lk lk2) (order : List Name)
    (offs : List (Name × Nat)) (cur : Nat) :
    assignOffsets lk.m_FunctionInfoMap order offs cur
      = assignOffsets lk2.m_FunctionInfoMap order offs cur := by
  induction order generalizing offs cur with
  | nil => rfl
  | cons f rest ih =>
    simp only [assignOffsets]
    rcases h f with ⟨h1, h2⟩ | ⟨fi, fi2, h1, h2, _, hs, _⟩
    · rw [h1, h2]
    · rw [h1, h2]
      simp only
      rw [hs]
      exact ih _ _

theorem loadCode_congr (w : World) (lk lk2 : CLinker) (fi fi2 : FunInfo)
    (h : SameEntry lk lk2 fi fi2) : lk.loadCode w fi = lk2.loadCode w fi2 := by
  obtain ⟨ho, hs, hd, _, hf⟩ := h
  simp only [CLinker.loadCode, hf, ho, hs, hd]

theorem patchRefs_congr (fi fi2 : FunInfo) (ho : fi.offset = fi2.offset)
    (hs : fi.size = fi2.size) (target : Nat) (refs : List Nat) (body : List Byte) :
    patchRefs fi target refs body = patchRefs fi2 target refs body := by
  induction refs generalizing body with
  | nil => rfl
  | cons r rest ih =>
    simp only [patchRefs, inRange_congr fi fi2 ho hs, ho]
    split
    · split
      · rfl
      · exact ih _
    · exact ih _

theorem patchImports_congr (offs : List (Name × Nat)) (fi fi2 : FunInfo)
    (ho : fi.offset = fi2.offset) (hs : fi.size = fi2.size) (imports : List ImportFun)
    (body : List Byte) :
    patchImports offs fi imports body = patchImports offs fi2 imports body := by
  induction imports generalizing body with
  | nil => rfl
  | cons imp rest ih =>
    simp only [patchImports, patchRefs_congr fi fi2 ho hs]
    split
    · exact ih _
    · split
      · rfl
      · exact ih _

theorem emitLoop_congr (w : World) (lk lk2 : CLinker) (h : SameTable lk lk2)
    (offs : List (Name × Nat)) (order : List Name) (out : List Byte) :
    emitLoop w lk offs order out = emitLoop w lk2 offs order out := by
  induction order generalizing out with
  | nil => rfl
  | cons f rest ih =>
    simp only [emitLoop]
    rcases h f with ⟨h1, h2⟩ | ⟨fi, fi2, h1, h2, hsame⟩
    · rw [h1, h2]
    · rw [h1, h2]
      simp only
      rw [loadCode_congr w lk lk2 fi fi2 hsame]
      obtain ⟨ho, hs, _, hobj, _⟩ := hsame
      cases lk2.loadCode w fi2 with
      | error e => rfl
      | ok body =>
        simp only
        rw [hobj]
        cases lk2.m_ObjFiles[fi2.fileIdx]? with
        | none => rfl
        | some obj =>
          simp only
          rw [patchImports_congr offs fi fi2 ho hs]
          cases patchImports offs fi2 obj.imports body with
          | error e => rfl
          | ok body1 =>
            simp only
            exact ih _

theorem linkOutput_congr (w : World) (lk lk2 : CLinker) (fileName : String)
    (entryPoint : Name) (self1 self2 : CLinker)
    (hread1 : lk.readFiles w = (.ok (), self1)) (hread2 : lk2.readFiles w = (.ok (), self2))
    (h : SameTable self1.FunInfoMap self2.FunInfoMap)
    (hlen : self1.FunInfoMap.m_FunctionInfoMap.length
      = self2.FunInfoMap.m_FunctionInfoMap.length) :
    (lk.linkOutput w fileName entryPoint).result
        = (lk2.linkOutput w fileName entryPoint).result ∧
      (lk.linkOutput w fileName entryPoint).output
        = (lk2.linkOutput w fileName entryPoint).output := by
  simp only [CLinker.linkOutput, hread1, hread2,
    bfs_congr self1.FunInfoMap self2.FunInfoMap h hlen,
    assignOffsets_congr self1.FunInfoMap self2.FunInfoMap h,
    emitLoop_congr w self1.FunInfoMap self2.FunInfoMap h]
  cases self2.FunInfoMap.bfs entryPoint [] with
  | mk r needed =>
    cases r with
    | error e => exact ⟨rfl, rfl⟩
    | ok u =>
      cases u
      simp only
      cases sortTail needed with
      | none => exact ⟨rfl, rfl⟩
      | some order =>
        simp only
        cases assignOffsets self2.FunInfoMap.m_FunctionInfoMap order [] 0 with
        | error e => exact ⟨rfl, rfl⟩
        | ok offs =>
          simp only
          cases w.writable fileName with
          | false => exact ⟨rfl, rfl⟩
          | true =>
            simp only [if_true]
            cases emitLoop w self2.FunInfoMap offs order [] with
            | mk re out =>
              cases re with
              | error e => exact ⟨rfl, rfl⟩
              | ok u2 =>
                cases u2
                simp only
                cases w.streamGood fileName with
                | false => exact ⟨rfl, rfl⟩
                | true => exact ⟨rfl, rfl⟩

/-! ## Permuting the registered files -/

theorem mapSet_keys_nodup {β : Type} (m : List (Name × β)) (k : Name) (v : β)
    (h : (m.map Prod.fst).Nodup) : ((mapSet m k v).map Prod.fst).Nodup := by
  cases hf : mapFind m k with
  | none =>
    rw [mapSet_of_none m k v hf, List.map_append, List.nodup_append]
    refine ⟨h, by simp, ?_⟩
    intro x hx hx2
    simp only [List.map_cons, List.map_nil, List.mem_singleton] at hx2
    subst hx2
    exact (mapFind_eq_none_iff m x).mp hf hx
  | some x =>
    rw [mapSet_keys_of_some m k v (by simp [hf])]
    exact h

theorem funInfoExports_keys_nodup (i : Nat) (o : ObjFile) (es : List ExportFun)
    (m : List (Name × FunInfo)) (h : (m.map Prod.fst).Nodup) :
    ((funInfoExports i o es m).map Prod.fst).Nodup := by
  induction es generalizing m with
  | nil => exact h
  | cons e rest ih => exact ih _ (mapSet_keys_nodup m _ _ h)

theorem funInfoFiles_keys_nodup (objs : List ObjFile) (i : Nat) (m : List (Name × FunInfo))
    (h : (m.map Prod.fst).Nodup) : ((funInfoFiles objs i m).map Prod.fst).Nodup := by
  induction objs generalizing i m with
  | nil => exact h
  | cons o rest ih => exact ih _ _ (funInfoExports_keys_nodup i o o.exports m h)

theorem FunInfoMap_length (self : CLinker) (hnd : (exportNames self.m_ObjFiles).Nodup) :
    self.FunInfoMap.m_FunctionInfoMap.length = (exportNames self.m_ObjFiles).length := by
  have hk : (self.FunInfoMap.m_FunctionInfoMap.map Prod.fst).Nodup :=
    funInfoFiles_keys_nodup self.m_ObjFiles 0 [] List.nodup_nil
  have hperm : (self.FunInfoMap.m_FunctionInfoMap.map Prod.fst).Perm
      (exportNames self.m_ObjFiles) := by
    rw [List.perm_ext_iff_of_nodup hk hnd]
    intro n
    rw [← mapFind_isSome_iff, FunInfoMap_isSome_iff]
  have := hperm.length_eq
  rwa [List.length_map] at this

theorem exportNames_pairs (P : List (String × ObjFile)) :
    exportNames (P.map Prod.snd) = P.flatMap (fun p => p.2.exports.map (fun e => e.name)) := by
  induction P with
  | nil => rfl
  | cons p rest ih =>
    rw [List.map_cons, exportNames_cons, ih, List.flatMap_cons]

theorem owner_unique (P : List (String × ObjFile))
    (hnd : (exportNames (P.map Prod.snd)).Nodup) (p p2 : String × ObjFile)
    (e e2 : ExportFun) (hp : p ∈ P) (hp2 : p2 ∈ P) (he : e ∈ p.2.exports)
    (he2 : e2 ∈ p2.2.exports) (hname : e.name = e2.name) : p = p2 ∧ e = e2 := by
  rw [exportNames_pairs, List.nodup_flatMap] at hnd
  obtain ⟨h1, h2⟩ := hnd
  have hpp : p = p2 := by
    by_contra hne
    have hsymm : Symmetric (Function.onFun List.Disjoint
        (fun p : String × ObjFile => p.2.exports.map (fun e => e.name))) := by
      intro a b hab
      exact hab.symm
    have hdis := List.Pairwise.forall hsymm h2 hp hp2 hne
    have m1 : e.name ∈ p.2.exports.map (fun e => e.name) := List.mem_map_of_mem _ he
    have m2 : e.name ∈ p2.2.exports.map (fun e => e.name) := by
      rw [hname]
      exact List.mem_map_of_mem _ he2
    exact hdis m1 m2
  subst hpp
  exact ⟨rfl, List.inj_on_of_nodup_map (h1 p hp) he he2 hname⟩

theorem table_owner (P : List (String × ObjFile)) (n : Name) (fi : FunInfo)
    (h : mapFind (CLinker.FunInfoMap ⟨P.map Prod.fst, P.map Prod.snd, []⟩).m_FunctionInfoMap n
      = some fi) :
    ∃ p e, p ∈ P ∧ e ∈ p.2.exports ∧ e.name = n ∧ fi.offset = e.offset ∧
      fi.size = subU32 (nextOffset p.2 e) e.offset ∧ fi.offsetData = p.2.offsetData ∧
      (P.map Prod.snd)[fi.fileIdx]? = some p.2 ∧ (P.map Prod.fst)[fi.fileIdx]? = some p.1 := by
  obtain ⟨o, e, ho, he, hn, hfi⟩ := FunInfoMap_entry _ n fi h
  simp only [List.getElem?_map] at ho
  cases hp : P[fi.fileIdx]? with
  | none =>
    rw [hp] at ho
    simp at ho
  | some p =>
    rw [hp] at ho
    simp only [Option.map_some', Option.some.injEq] at ho
    subst ho
    refine ⟨p, e, List.mem_iff_getElem?.mpr ⟨_, hp⟩, he, hn, ?_, ?_, ?_, ?_, ?_⟩
    · rw [hfi]
      rfl
    · rw [hfi]
      rfl
    · rw [hfi]
      rfl
    · simp only [List.getElem?_map, hp, Option.map_some']
    · simp only [List.getElem?_map, hp, Option.map_some']

theorem exportNames_perm (os os2 : List ObjFile) (h : os.Perm os2) :
    (exportNames os).Perm (exportNames os2) :=
  List.Perm.flatMap_right _ h

theorem sameTable_perm (P P2 : List (String × ObjFile)) (hperm : P.Perm P2)
    (hnd : (exportNames (P.map Prod.snd)).Nodup) :
    SameTable (CLinker.FunInfoMap ⟨P.map Prod.fst, P.map Prod.snd, []⟩)
      (CLinker.FunInfoMap ⟨P2.map Prod.fst, P2.map Prod.snd, []⟩) := by
  have hen := exportNames_perm _ _ (hperm.map Prod.snd)
  intro n
  have h1 := FunInfoMap_isSome_iff ⟨P.map Prod.fst, P.map Prod.snd, []⟩ n
  have h2 := FunInfoMap_isSome_iff ⟨P2.map Prod.fst, P2.map Prod.snd, []⟩ n
  simp only at h1 h2
  cases hf : mapFind (CLinker.FunInfoMap ⟨P.map Prod.fst, P.map Prod.snd, []⟩).m_FunctionInfoMap n
    with
  | none =>
    cases hf2 : mapFind
        (CLinker.FunInfoMap ⟨P2.map Prod.fst, P2.map Prod.snd, []⟩).m_FunctionInfoMap n with
    | none => exact Or.inl ⟨rfl, rfl⟩
    | some fi2 =>
      rw [hf2] at h2
      rw [hf] at h1
      have := h1.mpr (hen.mem_iff.mpr (h2.mp rfl))
      simp at this
  | some fi =>
    cases hf2 : mapFind
        (CLinker.FunInfoMap ⟨P2.map Prod.fst, P2.map Prod.snd, []⟩).m_FunctionInfoMap n with
    | none =>
      rw [hf2] at h2
      rw [hf] at h1
      have := h2.mpr (hen.mem_iff.mp (h1.mp rfl))
      simp at this
    | some fi2 =>
      refine Or.inr ⟨fi, fi2, rfl, rfl, ?_⟩
      obtain ⟨p, e, hp, he, hn, a1, a2, a3, a4, a5⟩ := table_owner P n fi hf
      obtain ⟨p2, e2, hp2, he2, hn2, b1, b2, b3, b4, b5⟩ := table_owner P2 n fi2 hf2
      obtain ⟨hpp, hee⟩ := owner_unique P hnd p p2 e e2 hp (hperm.mem_iff.mpr hp2) he he2
        (by rw [hn, hn2])
      subst hpp hee
      refine ⟨by rw [a1, b1], by rw [a2, b2], by rw [a3, b3], ?_, ?_⟩
      · show (P.map Prod.snd)[fi.fileIdx]? = (P2.map Prod.snd)[fi2.fileIdx]?
        rw [a4, b4]
      · show (P.map Prod.fst)[fi.fileIdx]? = (P2.map Prod.fst)[fi2.fileIdx]?
        rw [a5, b5]

theorem filesHold_pairs (w : World) (P : List (String × ObjFile)) :
    FilesHold w (P.map Prod.fst) (P.map Prod.snd)
      ↔ ∀ p ∈ P, ∃ content, w.readable p.1 = some content ∧ FileHolds content p.2 := by
  unfold FilesHold
  rw [List.forall₂_map_left_iff, List.forall₂_map_right_iff, List.forall₂_same]

theorem filesHold_perm (w : World) (files files2 : List String) (os : List ObjFile)
    (hold : FilesHold w files os) (hperm : files.Perm files2) :
    ∃ P P2 : List (String × ObjFile), P.map Prod.fst = files ∧ P.map Prod.snd = os ∧
      P.Perm P2 ∧ P2.map Prod.fst = files2 ∧ FilesHold w files2 (P2.map Prod.snd) := by
  have hlen : files.length = os.length := List.Forall₂.length_eq hold
  have hfst : (files.zip os).map Prod.fst = files := List.map_fst_zip _ _ (by omega)
  have hsnd : (files.zip os).map Prod.snd = os := List.map_snd_zip _ _ (by omega)
  have hall := (filesHold_pairs w (files.zip os)).mp (by rw [hfst, hsnd]; exact hold)
  have hF : List.Forall₂ (fun (a : String) (p : String × ObjFile) => a = p.1) files
      (files.zip os) := by
    have : List.Forall₂ (fun (a : String) (p : String × ObjFile) => a = p.1)
        ((files.zip os).map Prod.fst) (files.zip os) := by
      rw [List.forall₂_map_left_iff, List.forall₂_same]
      intro x _
      rfl
    rwa [hfst] at this
  obtain ⟨P2, hF2, hP2⟩ := List.perm_comp_forall₂ hperm.symm hF
  have hfiles2 : P2.map Prod.fst = files2 := by
    have : List.Forall₂ (fun a b => a = b) files2 (P2.map Prod.fst) :=
      List.forall₂_map_right_iff.mpr hF2
    rw [List.forall₂_eq_eq_eq] at this
    exact this.symm
  refine ⟨files.zip os, P2, hfst, hsnd, hP2.symm, hfiles2, ?_⟩
  rw [← hfiles2, filesHold_pairs]
  intro p hp
  exact hall p (hP2.mem_iff.mp hp)

theorem perm_link (w : World) (files files2 : List String) (objs objs2 : List ObjFile)
    (m m2 : List (Name × FunInfo)) (fileName : String) (entryPoint : Name)
    (hperm : files.Perm files2)
    (hok : (CLinker.linkOutput w ⟨files, objs, m⟩ fileName entryPoint).result = .ok ()) :
    (CLinker.linkOutput w ⟨files2, objs2, m2⟩ fileName entryPoint).result = .ok () ∧
      (CLinker.linkOutput w ⟨files2, objs2, m2⟩ fileName entryPoint).output
        = (CLinker.linkOutput w ⟨files, objs, m⟩ fileName entryPoint).output := by
  obtain ⟨self1, _, _, _, _, hread, _⟩ := linkOutput_ok w _ fileName entryPoint hok
  obtain ⟨hself1, hold, hnd⟩ := readFiles_filesHold w _ self1 hread
  simp only at hself1 hold
  obtain ⟨P, P2, hP1, hP2, hPP, hP3, hold2⟩ :=
    filesHold_perm w files files2 self1.m_ObjFiles hold hperm
  have hnd1 : (exportNames (P.map Prod.snd)).Nodup := by rw [hP2]; exact hnd
  have hnd2 : (exportNames (P2.map Prod.snd)).Nodup :=
    (exportNames_perm _ _ (hPP.map Prod.snd)).nodup_iff.mp hnd1
  have hread2 : CLinker.readFiles w ⟨files2, objs2, m2⟩
      = (.ok (), ⟨files2, P2.map Prod.snd, []⟩) :=
    (readFiles_holds w ⟨files2, objs2, m2⟩ (P2.map Prod.snd) hold2).1 hnd2
  have hs1 : self1 = ⟨P.map Prod.fst, P.map Prod.snd, []⟩ := by
    rw [hP1, hP2]
    exact hself1
  have hsame := sameTable_perm P P2 hPP hnd1
  have hlen : (CLinker.FunInfoMap ⟨P.map Prod.fst, P.map Prod.snd, []⟩).m_FunctionInfoMap.length
      = (CLinker.FunInfoMap ⟨P2.map Prod.fst, P2.map Prod.snd, []⟩).m_FunctionInfoMap.length := by
    rw [FunInfoMap_length _ hnd1, FunInfoMap_length _ hnd2]
    exact (exportNames_perm _ _ (hPP.map Prod.snd)).length_eq
  rw [hs1] at hread
  rw [← hP3] at hread2
  obtain ⟨h1, h2⟩ := linkOutput_congr w ⟨files, objs, m⟩ ⟨files2, objs2, m2⟩ fileName entryPoint
    _ _ hread (by rw [← hP3]; exact hread2) hsame hlen
  exact ⟨by rw [← h1]; exact hok, h2.symm⟩

/-- C22: when `linkOutput` succeeds on an instance with the registered files
`files`, it also succeeds on every instance whose registered files are a
permutation of `files`, with the same entry point and output path, and the
bytes written to the output are the same. -/
theorem C22_file_order (w : World) (files files2 : List String) (objs objs2 : List ObjFile)
    (m m2 : List (Name × FunInfo)) (fileName : String) (entryPoint : Name)
    (hperm : files.Perm files2)
    (hok : (CLinker.linkOutput w ⟨files, objs, m⟩ fileName entryPoint).result = .ok ()) :
    (CLinker.linkOutput w ⟨files2, objs2, m2⟩ fileName entryPoint).result = .ok () ∧
      (CLinker.linkOutput w ⟨files2, objs2, m2⟩ fileName entryPoint).output
        = (CLinker.linkOutput w ⟨files, objs, m⟩ fileName entryPoint).output :=
  perm_link w files files2 objs objs2 m m2 fileName entryPoint hperm hok

theorem C22_file_order_witness :
    (CLinker.linkOutput worldTwo ⟨["lib.o", "main.o"], [], []⟩ "out" (str "main")).result
        = .ok () ∧
      (CLinker.linkOutput worldTwo ⟨["lib.o", "main.o"], [], []⟩ "out" (str "main")).output
        = (CLinker.linkOutput worldTwo ⟨["main.o", "lib.o"], [], []⟩ "out"
            (str "main")).output :=
  C22_file_order worldTwo ["main.o", "lib.o"] ["lib.o", "main.o"] [] [] [] [] "out"
    (str "main") (List.Perm.swap "lib.o" "main.o" []) (by rfl)

/-! ## The order of the traversal on a failing run -/

theorem bfsLoop_order_error (lk : CLinker) (entryPoint : Name) (d : Name → Nat)
    (hd : ∀ x k, ReachIn lk entryPoint k x → IsDist lk entryPoint x (d x) ∧ d x ≤ k)
    (fuel : Nat) (visited q needed res : List Name) (what : List Byte)
    (hinv : OrderInv lk entryPoint d visited q needed)
    (h : bfsLoop lk fuel visited q needed = (.error (.runtime_error what), res)) :
    ∃ v a qt done, OrderInv lk entryPoint d v (a :: qt) done ∧ res = done ++ [a] := by
  induction fuel generalizing visited q needed with
  | zero =>
    cases q with
    | nil => simp [bfsLoop] at h
    | cons a qt => simp [bfsLoop] at h
  | succ fuel ih =>
    cases q with
    | nil => simp [bfsLoop] at h
    | cons a qt =>
      simp only [bfsLoop] at h
      cases hfi : mapFind lk.m_FunctionInfoMap a with
      | none =>
        rw [hfi] at h
        simp at h
      | some fi =>
        rw [hfi] at h
        simp only at h
        cases hobj : lk.m_ObjFiles[fi.fileIdx]? with
        | none =>
          rw [hobj] at h
          simp at h
        | some obj =>
          rw [hobj] at h
          simp only at h
          cases hb : bfsImports lk.m_FunctionInfoMap fi obj.imports visited qt with
          | error e =>
            rw [hb] at h
            simp only [Prod.mk.injEq] at h
            exact ⟨visited, a, qt, needed, hinv, h.2.symm⟩
          | ok r =>
            obtain ⟨v1, q1⟩ := r
            rw [hb] at h
            simp only at h
            obtain ⟨hv1, hq1⟩ := bfsImports_firstNew _ _ _ _ _ _ _ hb
            have hu : usedNames lk a
                = (obj.imports.filter (fun imp => imp.references.any (inRange fi))).map
                    (fun imp => imp.name) := by
              simp only [usedNames, hfi, hobj]
            rw [← hu] at hv1 hq1
            have hstep := orderInv_step lk entryPoint d hd visited qt needed a hinv
            rw [← hv1, ← hq1] at hstep
            exact ih v1 q1 (needed ++ [a]) hstep h

theorem bfs_order_error (lk : CLinker) (entryPoint : Name) (done : List Name) (a : Name)
    (what : List Byte) (hentry : (mapFind lk.m_FunctionInfoMap entryPoint).isSome)
    (h : lk.bfs entryPoint [] = (.error (.runtime_error what), done ++ [a])) :
    (∃ (blocks : List (List Name)) (qt : List Name), blocks.length = done.length ∧
        done ++ a :: qt = entryPoint :: blocks.flatten ∧
        ∀ (i : Nat) (x : Name), done[i]? = some x →
          blocks[i]? = some (firstNew (entryPoint :: (blocks.take i).flatten)
            (usedNames lk x))) ∧
      (∀ x ∈ done ++ [a], ∃ dx, IsDist lk entryPoint x dx) ∧
      ∀ (i j : Nat) (x y : Name) (dx dy : Nat), i ≤ j → (done ++ [a])[i]? = some x →
        (done ++ [a])[j]? = some y → IsDist lk entryPoint x dx → IsDist lk entryPoint y dy →
        dx ≤ dy := by
  obtain ⟨d, hd⟩ := exists_dist_fun lk entryPoint
  obtain ⟨fi, hfi⟩ := Option.isSome_iff_exists.mp hentry
  simp only [CLinker.bfs, hfi] at h
  obtain ⟨v, a2, qt, done2, hinv, hres⟩ :=
    bfsLoop_order_error lk entryPoint d hd _ _ _ _ _ what (orderInv_init lk entryPoint d hd) h
  obtain ⟨hdone, ha⟩ := List.append_inj' hres rfl
  simp only [List.cons.injEq, and_true] at ha
  subst hdone ha
  obtain ⟨_, _, hreach, _, hsorted, _, _, bl, hlen, hL, hall⟩ := hinv
  have hsplit : done ++ a :: qt = (done ++ [a]) ++ qt := by simp
  have hsorted2 : (done ++ [a]).Pairwise (fun x y => d x ≤ d y) := by
    rw [hsplit] at hsorted
    exact (List.pairwise_append.mp hsorted).1
  have hdist : ∀ x ∈ done ++ [a], IsDist lk entryPoint x (d x) := by
    intro x hx
    obtain ⟨k, hk⟩ := hreach x (by rw [hsplit]; exact List.mem_append_left _ hx)
    exact (hd x k hk).1
  refine ⟨⟨bl, qt, hlen, hL, hall⟩, fun x hx => ⟨d x, hdist x hx⟩, ?_⟩
  intro i j x y dx dy hij hi hj hdx hdy
  obtain ⟨hi1, hi2⟩ := List.getElem?_eq_some.mp hi
  obtain ⟨hj1, hj2⟩ := List.getElem?_eq_some.mp hj
  have hxm : x ∈ done ++ [a] := by
    rw [← hi2]
    exact List.getElem_mem _
  have hym : y ∈ done ++ [a] := by
    rw [← hj2]
    exact List.getElem_mem _
  rw [reachIn_dist_unique _ _ _ _ _ hdx (hdist x hxm),
    reachIn_dist_unique _ _ _ _ _ hdy (hdist y hym)]
  rcases Nat.lt_or_eq_of_le hij with hlt | heq
  · have := List.pairwise_iff_getElem.mp hsorted2 i j hi1 hj1 hlt
    rw [hi2, hj2] at this
    exact this
  · subst heq
    rw [hi] at hj
    simp only [Option.some.injEq] at hj
    subst hj
    exact Nat.le_refl _

theorem undefined_import_order (w : World) (self : CLinker) (fileName : String)
    (entryPoint : Name) (os : List ObjFile) (hfiles : FilesHold w self.m_Files os)
    (hnd : (exportNames os).Nodup) (hwf : ∀ o ∈ os, OffsetsInCode o)
    (hentry : entryPoint ∈ exportNames os) (F b : Name)
    (hreach : Reachable (self.symbols w) entryPoint F)
    (hcall : Calls (self.symbols w) F b) (hund : b ∉ exportNames os) :
    ∃ done a n,
      (self.linkOutput w fileName entryPoint).result
        = .error (.runtime_error (msgUndefined n)) ∧
      (self.linkOutput w fileName entryPoint).output = none ∧
      n ∉ exportNames os ∧ Reachable (self.symbols w) entryPoint a ∧
      Calls (self.symbols w) a n ∧
      ((self.symbols w).bfs entryPoint []).2 = done ++ [a] ∧
      (∀ x ∈ done, ∀ y, Calls (self.symbols w) x y → y ∈ exportNames os) ∧
      FirstUndefined (self.symbols w) a n ∧
      (∃ (blocks : List (List Name)) (qt : List Name), blocks.length = done.length ∧
        done ++ a :: qt = entryPoint :: blocks.flatten ∧
        ∀ (i : Nat) (x : Name), done[i]? = some x →
          blocks[i]? = some (firstNew (entryPoint :: (blocks.take i).flatten)
            (usedNames (self.symbols w) x))) ∧
      (∀ x ∈ done ++ [a], ∃ dx, IsDist (self.symbols w) entryPoint x dx) ∧
      ∀ (i j : Nat) (x y : Name) (dx dy : Nat), i ≤ j → (done ++ [a])[i]? = some x →
        (done ++ [a])[j]? = some y → IsDist (self.symbols w) entryPoint x dx →
        IsDist (self.symbols w) entryPoint y dy → dx ≤ dy := by
  obtain ⟨done, a, n, h1, h2, h3, h4, h5, h6, h7, h8⟩ :=
    undefined_import_failure w self fileName entryPoint os hfiles hnd hwf hentry F b hreach
      hcall hund
  obtain ⟨hread, hsym, _, _⟩ := readFiles_symbols w self os hfiles hnd
  have hkeys := FunInfoMap_isSome_iff ⟨self.m_Files, os, []⟩
  simp only at hkeys
  have hdefd : (mapFind (self.symbols w).m_FunctionInfoMap entryPoint).isSome := by
    rw [hsym]
    exact (hkeys entryPoint).mpr hentry
  have hbfs : (self.symbols w).bfs entryPoint []
      = (.error (.runtime_error (msgUndefined n)), done ++ [a]) := by
    cases hb : (self.symbols w).bfs entryPoint [] with
    | mk r l =>
      rw [hb] at h6
      simp only at h6
      subst h6
      rw [hsym] at hb
      cases r with
      | error e =>
        obtain ⟨r1, _⟩ := linkOutput_bfs_error w self _ fileName entryPoint e _ hread hb
        rw [h1] at r1
        simp only [Except.error.injEq] at r1
        rw [r1]
      | ok u =>
        exfalso
        cases u
        obtain ⟨m1, m2, m3⟩ := msgUndefined_ne n
        rcases linkOutput_after_bfs w self _ fileName entryPoint _ hread hb with c | c | c | c
        · rw [h1] at c
          simp at c
        · rw [h1] at c
          simp only [Except.error.injEq] at c
          exact m1 c
        · rw [h1] at c
          simp only [Except.error.injEq] at c
          exact m2 c
        · rw [h1] at c
          simp only [Except.error.injEq] at c
          exact m3 c
  obtain ⟨g1, g2, g3⟩ := bfs_order_error (self.symbols w) entryPoint done a _ hdefd hbfs
  exact ⟨done, a, n, h1, h2, h3, h4, h5, h6, h7, h8, g1, g2, g3⟩

/-- C10: when every registered file holds a laid-out object file whose export
offsets are at most `codeSz`, no export name occurs twice, the entry point is
exported, and some function reachable from the entry point has in its byte range
a reference offset of an import that no file exports, `linkOutput` fails with
`Undefined symbol <n>` and does not open the output file. `n` is such an import,
of a reachable function `a`: the first of them in the import list of the file of
`a`. `a` is the first function in breadth-first order that has one: the names
`done` that `bfs` took out of the queue before `a` have none, and `done` followed
by `a` and the names still queued is the entry point followed by the blocks of
the functions of `done`, in that order, the block of a function being the names
for which its import loop sets `used` and that were not listed before, each once,
in import-list order; the shortest call-distance does not decrease along `done`
followed by `a`. -/
theorem C10_undefined_import (w : World) (self : CLinker) (fileName : String)
    (entryPoint : Name) (os : List ObjFile) (hfiles : FilesHold w self.m_Files os)
    (hnd : (exportNames os).Nodup) (hwf : ∀ o ∈ os, OffsetsInCode o)
    (hentry : entryPoint ∈ exportNames os) (F b : Name)
    (hreach : Reachable (self.symbols w) entryPoint F)
    (hcall : Calls (self.symbols w) F b) (hund : b ∉ exportNames os) :
    ∃ done a n,
      (self.linkOutput w fileName entryPoint).result
        = .error (.runtime_error (msgUndefined n)) ∧
      (self.linkOutput w fileName entryPoint).output = none ∧
      n ∉ exportNames os ∧ Reachable (self.symbols w) entryPoint a ∧
      Calls (self.symbols w) a n ∧
      ((self.symbols w).bfs entryPoint []).2 = done ++ [a] ∧
      (∀ x ∈ done, ∀ y, Calls (self.symbols w) x y → y ∈ exportNames os) ∧
      FirstUndefined (self.symbols w) a n ∧
      (∃ (blocks : List (List Name)) (qt : List Name), blocks.length = done.length ∧
        done ++ a :: qt = entryPoint :: blocks.flatten ∧
        ∀ (i : Nat) (x : Name), done[i]? = some x →
          blocks[i]? = some (firstNew (entryPoint :: (blocks.take i).flatten)
            (usedNames (self.symbols w) x))) ∧
      (∀ x ∈ done ++ [a], ∃ dx, IsDist (self.symbols w) entryPoint x dx) ∧
      ∀ (i j : Nat) (x y : Name) (dx dy : Nat), i ≤ j → (done ++ [a])[i]? = some x →
        (done ++ [a])[j]? = some y → IsDist (self.symbols w) entryPoint x dx →
        IsDist (self.symbols w) entryPoint y dy → dx ≤ dy :=
  undefined_import_order w self fileName entryPoint os hfiles hnd hwf hentry F b hreach
    hcall hund

theorem C10_undefined_import_witness :
    ∃ done a n,
      (linkerTwo.linkOutput worldQsort "out" (str "main")).result
        = .error (.runtime_error (msgUndefined n)) ∧
      (linkerTwo.linkOutput worldQsort "out" (str "main")).output = none ∧
      n ∉ exportNames [objQsort, objLib] ∧ Reachable (linkerTwo.symbols worldQsort) (str "main") a ∧
      Calls (linkerTwo.symbols worldQsort) a n ∧
      ((linkerTwo.symbols worldQsort).bfs (str "main") []).2 = done ++ [a] ∧
      (∀ x ∈ done, ∀ y, Calls (linkerTwo.symbols worldQsort) x y → y ∈ exportNames [objQsort, objLib]) ∧
      FirstUndefined (linkerTwo.symbols worldQsort) a n ∧
      (∃ (blocks : List (List Name)) (qt : List Name), blocks.length = done.length ∧
        done ++ a :: qt = str "main" :: blocks.flatten ∧
        ∀ (i : Nat) (x : Name), done[i]? = some x →
          blocks[i]? = some (firstNew (str "main" :: (blocks.take i).flatten)
            (usedNames (linkerTwo.symbols worldQsort) x))) ∧
      (∀ x ∈ done ++ [a], ∃ dx, IsDist (linkerTwo.symbols worldQsort) (str "main") x dx) ∧
      ∀ (i j : Nat) (x y : Name) (dx dy : Nat), i ≤ j → (done ++ [a])[i]? = some x →
        (done ++ [a])[j]? = some y → IsDist (linkerTwo.symbols worldQsort) (str "main") x dx →
        IsDist (linkerTwo.symbols worldQsort) (str "main") y dy → dx ≤ dy :=
  C10_undefined_import worldQsort linkerTwo "out" (str "main") [objQsort, objLib]
    worldQsort_holds (by decide) (by decide) (by decide) (str "main") (str "qsort")
    Relation.ReflTransGen.refl
    ⟨⟨0, 0, 8, 45⟩, objQsort, by decide, by decide, ⟨str "qsort", [4]⟩, by decide, rfl, 4,
      by decide, by decide, by decide⟩
    (by decide)

/-! ## The reservations of `readFiles` -/

theorem readImportsR_take (alloc : Allocator) (imports : List ImportFun)
    (hname : ∀ i ∈ imports, i.name.length < 256)
    (hcount : ∀ i ∈ imports, i.references.length < 4294967296)
    (hrefs : ∀ i ∈ imports, ∀ r ∈ i.references, r < 4294967296)
    (rest : List Byte) (n p : Nat) (acc : List ImportFun)
    (hgr : ∀ (before : List ImportFun) (i : ImportFun) (after : List ImportFun),
      imports = before ++ i :: after →
      (before.flatMap encodeImport).length + 1 + i.name.length + 4 ≤ n →
        reserve alloc.references i.references.length = true) :
    readImportsR alloc imports.length ⟨(imports.flatMap encodeImport ++ rest).take n, p⟩ acc
      = if (imports.flatMap encodeImport).length ≤ n then
          .ok (⟨rest.take (n - (imports.flatMap encodeImport).length),
            p + (imports.flatMap encodeImport).length⟩, acc ++ imports)
        else .error (.runtime_error msgRead) := by
  induction imports generalizing n p acc with
  | nil => simp [readImportsR]
  | cons i is ih =>
    have hi := List.mem_cons_self i is
    have hg0 : 1 ≤ n → i.name.length ≤ n - 1 → 4 ≤ n - 1 - i.name.length →
        reserve alloc.references i.references.length = true := fun _ _ _ =>
      hgr [] i is rfl (by
        simp only [List.flatMap_nil, List.length_nil]
        omega)
    have hg1 : 1 ≤ n → i.name.length ≤ n - 1 → 4 ≤ n - 1 - i.name.length →
        (i.references.flatMap encodeU32).length ≤ n - 1 - i.name.length - 4 →
        ∀ (before : List ImportFun) (j : ImportFun) (after : List ImportFun),
          is = before ++ j :: after →
          (before.flatMap encodeImport).length + 1 + j.name.length + 4
              ≤ n - 1 - i.name.length - 4 - (i.references.flatMap encodeU32).length →
            reserve alloc.references j.references.length = true := by
      intro _ _ _ _ before j after hs hle
      refine hgr (i :: before) j after (by rw [hs]; rfl) ?_
      rw [List.flatMap_cons, List.length_append, encodeImport_length]
      rw [flatMap_encodeU32_length] at *
      omega
    simp only [List.flatMap_cons, List.length_cons, readImportsR, encodeImport,
      List.cons_append, List.append_assoc, List.length_append, encodeU32_length]
    rw [readU8_take _ (hname i hi)]
    by_cases h1 : 1 ≤ n
    · rw [if_pos h1]
      simp only
      rw [read_take]
      by_cases h2 : i.name.length ≤ n - 1
      · rw [if_pos h2]
        simp only
        rw [readU32_take _ (hcount i hi)]
        by_cases h3 : 4 ≤ n - 1 - i.name.length
        · rw [if_pos h3]
          simp only
          rw [if_pos (hg0 h1 h2 h3), readRefs_take _ (hrefs i hi)]
          by_cases h4 : (i.references.flatMap encodeU32).length ≤ n - 1 - i.name.length - 4
          · rw [if_pos h4]
            simp only
            rw [ih (fun x hx => hname x (List.mem_cons_of_mem _ hx))
              (fun x hx => hcount x (List.mem_cons_of_mem _ hx))
              (fun x hx => hrefs x (List.mem_cons_of_mem _ hx)) _ _ _ (hg1 h1 h2 h3 h4)]
            by_cases h5 : (is.flatMap encodeImport).length
                ≤ n - 1 - i.name.length - 4 - (i.references.flatMap encodeU32).length
            · rw [if_pos h5, if_pos (by omega)]
              simp only [List.nil_append, List.append_assoc, List.singleton_append]
              congr 3
              · congr 1
                omega
              · omega
            · rw [if_neg h5, if_neg (by omega)]
          · rw [if_neg h4, if_neg (by omega)]
        · rw [if_neg h3, if_neg (by omega)]
      · rw [if_neg h2, if_neg (by omega)]
    · rw [if_neg h1, if_neg (by omega)]

theorem readObjFileR_take (alloc : Allocator) (k : Nat) (o : ObjFile) (code : List Byte)
    (n : Nat) (exportDup : List (Name × Nat)) (henc : o.Encodable)
    (hgr : GrantedTo alloc o n)
    (hnr : firstRepeat (exportDup.map Prod.fst) (o.exports.map (fun e => e.name)) = none) :
    readObjFileR alloc k ⟨(o.layout ++ code).take n, 0⟩ exportDup
      = if o.layout.length ≤ n then
          .ok (o, exportDup ++ o.exports.map (fun e => (e.name, k)))
        else .error (.runtime_error msgRead) := by
  have hlen := layout_length o
  have hod := henc.offsetData_eq
  obtain ⟨g1, g2, g3⟩ := hgr
  obtain ⟨imports, exports, ⟨expCnt, imCnt, codeSz⟩, offsetData⟩ := o
  have h1 := henc.expCnt_eq
  have h2 := henc.imCnt_eq
  simp only at h1 h2 hlen hod hnr g1 g2 g3
  subst h1 h2
  rw [hlen]
  simp only [readObjFileR, ObjFile.layout, List.append_assoc]
  rw [readU32_take _ henc.expCnt_lt]
  by_cases h4 : 4 ≤ n
  · rw [if_pos h4]
    simp only
    rw [readU32_take _ henc.imCnt_lt]
    by_cases h8 : 4 ≤ n - 4
    · rw [if_pos h8]
      simp only
      rw [readU32_take _ henc.codeSz_lt]
      by_cases h12 : 4 ≤ n - 4 - 4
      · rw [if_pos h12]
        simp only
        rw [if_pos (g1 (by omega)), readExports_take k exports henc.exp_name henc.exp_offset _ _ _ _ _ hnr]
        by_cases he : (exports.flatMap encodeExport).length ≤ n - 4 - 4 - 4
        · rw [if_pos he]
          simp only
          rw [if_pos (g2 (by omega)), readImportsR_take alloc imports henc.imp_name
            henc.imp_count henc.imp_refs _ _ _ _
            (fun before i after hs hle => g3 before i after hs (by omega))]
          by_cases hi : (imports.flatMap encodeImport).length
              ≤ n - 4 - 4 - 4 - (exports.flatMap encodeExport).length
          · rw [if_pos hi, if_pos (by omega)]
            simp only [List.nil_append]
            congr 3
            rw [hod, hlen]
          · rw [if_neg hi, if_neg (by omega)]
        · rw [if_neg he, if_neg (by omega)]
      · rw [if_neg h12, if_neg (by omega)]
    · rw [if_neg h8, if_neg (by omega)]
  · rw [if_neg h4, if_neg (by omega)]

theorem grantedTo_of_granted (alloc : Allocator) (o : ObjFile) (n : Nat)
    (h : Granted alloc o) : GrantedTo alloc o n :=
  ⟨fun _ => h.1, fun _ => h.2.1, fun before i after hs _ =>
    h.2.2 i (by rw [hs]; exact List.mem_append_right _ (List.mem_cons_self _ _))⟩

theorem readObjFileR_layout (alloc : Allocator) (k : Nat) (o : ObjFile) (code : List Byte)
    (exportDup : List (Name × Nat)) (henc : o.Encodable) (hgr : Granted alloc o)
    (hnr : firstRepeat (exportDup.map Prod.fst) (o.exports.map (fun e => e.name)) = none) :
    readObjFileR alloc k ⟨o.layout ++ code, 0⟩ exportDup
      = .ok (o, exportDup ++ o.exports.map (fun e => (e.name, k))) := by
  have h := readObjFileR_take alloc k o code (o.layout ++ code).length exportDup henc
    (grantedTo_of_granted alloc o _ hgr) hnr
  rw [List.take_length, if_pos (by rw [List.length_append]; omega)] at h
  exact h

theorem readFilesLoopR_prefix (alloc : Allocator) (w : World) (pre : List String)
    (os : List ObjFile) (h : FilesHold w pre os) (hgr : ∀ o ∈ os, Granted alloc o)
    (rest : List String) (k : Nat) (exportDup : List (Name × Nat)) (objs : List ObjFile)
    (hnr : firstRepeat (exportDup.map Prod.fst) (exportNames os) = none) :
    ∃ exportDup1, exportDup1.map Prod.fst = exportDup.map Prod.fst ++ exportNames os ∧
      readFilesLoopR alloc w (pre ++ rest) k exportDup objs
        = readFilesLoopR alloc w rest (k + pre.length) exportDup1 (objs ++ os) := by
  unfold FilesHold at h
  induction h generalizing k exportDup objs with
  | nil => exact ⟨exportDup, by simp [exportNames], by simp⟩
  | cons hfo htail ih =>
    rename_i f o fs os2
    obtain ⟨content, hread, henc, code, hcontent⟩ := hfo
    subst hcontent
    rw [exportNames_cons, firstRepeat_append] at hnr
    cases hfr : firstRepeat (exportDup.map Prod.fst) (o.exports.map (fun e => e.name)) with
    | some m =>
      rw [hfr] at hnr
      simp at hnr
    | none =>
      rw [hfr] at hnr
      simp only at hnr
      have hkeys : (exportDup ++ o.exports.map (fun e => (e.name, k))).map Prod.fst
          = exportDup.map Prod.fst ++ o.exports.map (fun e => e.name) := by
        simp [List.map_append, Function.comp_def]
      obtain ⟨d1, hd1, hrun⟩ :=
        ih (fun x hx => hgr x (List.mem_cons_of_mem _ hx)) (k + 1)
          (exportDup ++ o.exports.map (fun e => (e.name, k))) (objs ++ [o])
          (by rw [hkeys]; exact hnr)
      refine ⟨d1, ?_, ?_⟩
      · rw [hd1, hkeys, exportNames_cons, List.append_assoc]
      · rw [List.cons_append]
        simp only [readFilesLoopR, hread,
          readObjFileR_layout alloc k o code exportDup henc (hgr o (List.mem_cons_self _ _)) hfr]
        rw [hrun]
        simp only [List.length_cons, List.append_assoc, List.singleton_append]
        congr 1
        omega

theorem readFilesR_truncated (alloc : Allocator) (w : World) (self : CLinker)
    (pre post : List String) (f : String) (os : List ObjFile) (o : ObjFile)
    (hfiles : self.m_Files = pre ++ f :: post) (hpre : FilesHold w pre os)
    (henc : o.Encodable) (hnd : (exportNames (os ++ [o])).Nodup)
    (hvec : reserve alloc.objFiles self.m_Files.length = true)
    (hgr : ∀ x ∈ os, Granted alloc x)
    (hbad : w.readable f = none ∨
      ∃ n, n < o.layout.length ∧ w.readable f = some (o.layout.take n) ∧
        GrantedTo alloc o n) :
    (self.readFilesR alloc w).1 = .error (.runtime_error msgRead) := by
  have hfr : firstRepeat [] (exportNames (os ++ [o])) = none :=
    (firstRepeat_none_iff [] _).mpr ⟨by simp, hnd⟩
  have hsplit : exportNames (os ++ [o]) = exportNames os ++ o.exports.map (fun e => e.name) := by
    simp [exportNames]
  rw [hsplit, firstRepeat_append] at hfr
  cases hfr1 : firstRepeat [] (exportNames os) with
  | some m =>
    rw [hfr1] at hfr
    simp at hfr
  | none =>
    rw [hfr1] at hfr
    simp only [List.nil_append] at hfr
    obtain ⟨d1, hd1, hrun⟩ := readFilesLoopR_prefix alloc w pre os hpre
      hgr (f :: post) 0 [] []
      (by simpa using hfr1)
    simp only [List.map_nil, List.nil_append] at hd1
    unfold CLinker.readFilesR
    rw [if_pos hvec]
    simp only [hfiles, hrun]
    rcases hbad with hnone | ⟨n, hn, hsome, hto⟩
    · simp only [readFilesLoopR, hnone]
    · have ht := readObjFileR_take alloc (0 + pre.length) o [] n d1 henc hto
        (by rw [hd1]; exact hfr)
      rw [List.append_nil, if_neg (by omega)] at ht
      simp only [readFilesLoopR, hsome, ht]

theorem linkOutputR_read_error (alloc : Allocator) (w : World) (self : CLinker)
    (fileName : String) (entryPoint : Name) (e : Failure)
    (h : (self.readFilesR alloc w).1 = .error e) :
    (self.linkOutputR alloc w fileName entryPoint).result = .error e ∧
      (self.linkOutputR alloc w fileName entryPoint).output = none := by
  unfold CLinker.linkOutputR
  cases hrf : self.readFilesR alloc w with
  | mk r s1 =>
    rw [hrf] at h
    simp only at h
    subst h
    exact ⟨rfl, rfl⟩

/-! ### Reservations that are all granted -/

theorem readImportsR_granted (alloc : Allocator) (h : ∀ n, alloc.references n = true)
    (n : Nat) (s : IFStream) (acc : List ImportFun) :
    readImportsR alloc n s acc = readImports n s acc := by
  induction n generalizing s acc with
  | zero => rfl
  | succ n ih =>
    simp only [readImportsR, readImports, reserve, h, Bool.or_true, if_true, ih]

theorem readObjFileR_granted (alloc : Allocator) (he : ∀ n, alloc.exports n = true)
    (hi : ∀ n, alloc.imports n = true) (hr : ∀ n, alloc.references n = true)
    (k : Nat) (s : IFStream) (exportDup : List (Name × Nat)) :
    readObjFileR alloc k s exportDup = readObjFile k s exportDup := by
  simp only [readObjFileR, readObjFile, reserve, he, hi, Bool.or_true, if_true,
    readImportsR_granted alloc hr]

theorem readFilesLoopR_granted (alloc : Allocator) (he : ∀ n, alloc.exports n = true)
    (hi : ∀ n, alloc.imports n = true) (hr : ∀ n, alloc.references n = true)
    (w : World) (files : List String) (k : Nat) (exportDup : List (Name × Nat))
    (objs : List ObjFile) :
    readFilesLoopR alloc w files k exportDup objs = readFilesLoop w files k exportDup objs := by
  induction files generalizing k exportDup objs with
  | nil => rfl
  | cons f fs ih =>
    simp only [readFilesLoopR, readFilesLoop, readObjFileR_granted alloc he hi hr, ih]

theorem readFilesR_granted (alloc : Allocator) (ho : ∀ n, alloc.objFiles n = true)
    (he : ∀ n, alloc.exports n = true) (hi : ∀ n, alloc.imports n = true)
    (hr : ∀ n, alloc.references n = true) (w : World) (self : CLinker) :
    self.readFilesR alloc w = self.readFiles w := by
  simp only [CLinker.readFilesR, CLinker.readFiles, reserve, ho, Bool.or_true, if_true,
    readFilesLoopR_granted alloc he hi hr]

theorem linkOutputR_granted (alloc : Allocator) (ho : ∀ n, alloc.objFiles n = true)
    (he : ∀ n, alloc.exports n = true) (hi : ∀ n, alloc.imports n = true)
    (hr : ∀ n, alloc.references n = true) (w : World) (self : CLinker) (fileName : String)
    (entryPoint : Name) :
    self.linkOutputR alloc w fileName entryPoint = self.linkOutput w fileName entryPoint := by
  simp only [CLinker.linkOutputR, CLinker.linkOutput, readFilesR_granted alloc ho he hi hr]

/-! ### A header that announces more exports than there is storage for -/

theorem layout_take_header (o : ObjFile) :
    o.layout.take 12
      = encodeU32 o.fileHeader.expCnt ++ encodeU32 o.fileHeader.imCnt ++
        encodeU32 o.fileHeader.codeSz := rfl

theorem layout_length_gt (o : ObjFile) (h : o.exports ≠ []) : 12 < o.layout.length := by
  rw [layout_length]
  cases he : o.exports with
  | nil => exact absurd he h
  | cons e es =>
    simp only [List.flatMap_cons, List.length_append, encodeExport, List.length_cons,
      encodeU32_length]
    omega

theorem encodeU32_injOn (i j : Nat) (hi : i < 4294967296) (hj : j < 4294967296)
    (h : encodeU32 i = encodeU32 j) : i = j := by
  rw [← decode_encodeU32 i hi, ← decode_encodeU32 j hj, h]

theorem manyExports_length : manyExports.length = 4294967295 := by
  unfold manyExports
  rw [List.length_map, List.length_range]

theorem manyExports_mem (e : ExportFun) (h : e ∈ manyExports) :
    e.name.length < 256 ∧ e.offset < 4294967296 := by
  unfold manyExports at h
  obtain ⟨i, _, rfl⟩ := List.mem_map.mp h
  exact ⟨by show (encodeU32 i).length < 256; rw [encodeU32_length]; omega, by show 0 < 4294967296; omega⟩

theorem manyExports_names : (manyExports.map (fun e => e.name)).Nodup := by
  unfold manyExports
  rw [List.map_map]
  refine List.Nodup.map_on ?_ (List.nodup_range _)
  intro i hi j hj h
  rw [List.mem_range] at hi hj
  exact encodeU32_injOn i j (by omega) (by omega) h

theorem exports_header (w : World) (alloc : Allocator) (self : CLinker) (f : String)
    (es : List ExportFun) (hlen : es.length = 4294967295)
    (hname : ∀ e ∈ es, e.name.length < 256 ∧ e.offset < 4294967296)
    (hnd : (es.map (fun e => e.name)).Nodup)
    (hread : w.readable f = some [255, 255, 255, 255, 0, 0, 0, 0, 0, 0, 0, 0])
    (hfiles : self.m_Files = [f])
    (hvec : reserve alloc.objFiles 1 = true)
    (hno : reserve alloc.exports 4294967295 = false)
    (fileName : String) (entryPoint : Name) :
    (laidOut es [] 0).Encodable ∧ (exportNames [laidOut es [] 0]).Nodup ∧
      12 < (laidOut es [] 0).layout.length ∧
      w.readable f = some ((laidOut es [] 0).layout.take 12) ∧
      (self.readFilesR alloc w).1 = .error .bad_alloc ∧
      (self.linkOutputR alloc w fileName entryPoint).result = .error .bad_alloc := by
  have hrun : (self.readFilesR alloc w).1 = .error .bad_alloc := by
    unfold CLinker.readFilesR
    rw [hfiles]
    simp only [List.length_singleton]
    rw [if_pos hvec]
    simp only [readFilesLoopR, hread]
    have hobj : readObjFileR alloc 0 ⟨[255, 255, 255, 255, 0, 0, 0, 0, 0, 0, 0, 0], 0⟩ []
        = .error .bad_alloc := by
      have e0 : ([255, 255, 255, 255, 0, 0, 0, 0, 0, 0, 0, 0] : List Byte)
          = (encodeU32 4294967295 ++ (encodeU32 0 ++ (encodeU32 0 ++ []))).take 12 := by
        decide
      simp only [readObjFileR]
      rw [e0, readU32_take _ (by omega), if_pos (by omega)]
      simp only
      rw [readU32_take _ (by omega), if_pos (by omega)]
      simp only
      rw [readU32_take _ (by omega), if_pos (by omega)]
      simp only
      rw [hno]
      rfl
    rw [hobj]
  refine ⟨?_, ?_, ?_, ?_, hrun, (linkOutputR_read_error alloc w self fileName entryPoint _ hrun).1⟩
  · exact laidOut_encodable es [] 0 (by omega) (by decide) (by omega)
      (fun e he => (hname e he).1) (fun e he => (hname e he).2)
      (fun i hi => absurd hi (List.not_mem_nil _)) (fun i hi => absurd hi (List.not_mem_nil _))
      (fun i hi => absurd hi (List.not_mem_nil _))
  · simpa [exportNames, laidOut] using hnd
  · refine layout_length_gt _ ?_
    intro h
    have h0 : es = [] := h
    rw [h0] at hlen
    simp at hlen
  · rw [hread, layout_take_header]
    have h1 : (laidOut es [] 0).fileHeader.expCnt = 4294967295 := hlen
    have h2 : (laidOut es [] 0).fileHeader.imCnt = 0 := rfl
    have h3 : (laidOut es [] 0).fileHeader.codeSz = 0 := rfl
    rw [h1, h2, h3]
    decide

/-- C14 (as amended): `readFiles` is taken with its reservations (`readFilesR`).
Let the files registered before `f` hold laid-out object files, let `o` be an
object file the layout can hold, and let no export name occur twice in those
files and `o`. When the storage reserved for `m_ObjFiles` and for the counts of
the files before `f` is granted, and `f` cannot be opened, or holds only the
first `n` bytes of the layout of `o`, `n` less than its length, and the
reservations reached within these `n` bytes are granted, then `readFiles` fails
with the read failure, and so does `linkOutput`, which leaves no output. -/
theorem C14_truncated_file (alloc : Allocator) (w : World) (self : CLinker)
    (pre post : List String) (f : String) (os : List ObjFile) (o : ObjFile)
    (fileName : String) (entryPoint : Name)
    (hfiles : self.m_Files = pre ++ f :: post) (hpre : FilesHold w pre os)
    (henc : o.Encodable) (hnd : (exportNames (os ++ [o])).Nodup)
    (hvec : reserve alloc.objFiles self.m_Files.length = true)
    (hgr : ∀ x ∈ os, Granted alloc x)
    (hbad : w.readable f = none ∨
      ∃ n, n < o.layout.length ∧ w.readable f = some (o.layout.take n) ∧
        GrantedTo alloc o n) :
    (self.readFilesR alloc w).1 = .error (.runtime_error msgRead) ∧
      (self.linkOutputR alloc w fileName entryPoint).result
        = .error (.runtime_error msgRead) ∧
      (self.linkOutputR alloc w fileName entryPoint).output = none :=
  ⟨readFilesR_truncated alloc w self pre post f os o hfiles hpre henc hnd hvec hgr hbad,
    linkOutputR_read_error alloc w self fileName entryPoint _
      (readFilesR_truncated alloc w self pre post f os o hfiles hpre henc hnd hvec hgr hbad)⟩

theorem C14_truncated_file_witness :
    (linkerTwo.readFilesR allocSmall worldCut).1 = .error (.runtime_error msgRead) ∧
      (linkerTwo.linkOutputR allocSmall worldCut "out" (str "main")).result
        = .error (.runtime_error msgRead) ∧
      (linkerTwo.linkOutputR allocSmall worldCut "out" (str "main")).output = none :=
  C14_truncated_file allocSmall worldCut linkerTwo ["main.o"] [] "lib.o" [objMain] objLib
    "out" (str "main") rfl
    (List.Forall₂.cons ⟨_, rfl, objMain_encodable, _, rfl⟩ List.Forall₂.nil)
    objLib_encodable (by decide) (by decide) (by decide)
    (Or.inr ⟨20, by decide, rfl, grantedTo_of_granted allocSmall objLib 20 (by decide)⟩)

/-- C14 fails as stated: `many.o` holds the first twelve bytes of the layout of
`objMany`, a well-formed object file of `2 ^ 32 - 1` exports of distinct names.
With an allocator that has no storage for that many export records, `readFiles`
ends in `std::bad_alloc` at the reservation that follows the header, before it
reads any export, and `linkOutput` with it: not in the read failure. -/
theorem C14_counterexample :
    objMany.Encodable ∧ (exportNames [objMany]).Nodup ∧ 12 < objMany.layout.length ∧
      worldMany.readable "many.o" = some (objMany.layout.take 12) ∧
      (CLinker.readFilesR allocSmall worldMany ⟨["many.o"], [], []⟩).1 = .error .bad_alloc ∧
      (CLinker.linkOutputR allocSmall worldMany ⟨["many.o"], [], []⟩ "out" (str "main")).result
        = .error .bad_alloc :=
  exports_header worldMany allocSmall ⟨["many.o"], [], []⟩ "many.o" manyExports
    manyExports_length manyExports_mem manyExports_names rfl rfl (by decide) (by decide)
    "out" (str "main")

end Linker
